import Mathlib

/-!
# Dice game: the provably fair randomness engine of `src/backend/server.js`

A shallow embedding of the server classes `Dice`, `DiceConfigParser`,
`FairRandomGenerator`, `ProbabilityCalculator`, `TableGenerator` and `GameLogic`, of the
first-player, computer-move and play routes, and of the client functions
`parseDiceInput`, `validateInputs` (`gameSetup.jsx`) and `selectDice` (`gameRound.jsx`),
followed by the theorems that settle the claims of the specification about them.

Modelling conventions.

* A JavaScript number that holds an integer is an `Int`. Double arithmetic is exact on
  integers up to `2 ^ 53` in absolute value; beyond, `toDouble` rounds to the nearest
  double, ties to even: `parseInt` rounds the integer it reads, `generateFairRoll` adds
  with `jsAdd`, and a number is printed with the shortest digits that read back as it, in
  plain decimal below `10 ^ 21` and in exponent form from there on. Numbers from
  `2 ^ 1024` on (`Infinity`) are outside the embedding. `generateSecureNumber` keeps its
  range and its sum exact, which is what the code computes for `min` and `max` up to
  `2 ^ 53` in absolute value.
* JavaScript strings are `String`, and `List Char` inside the parser; an object is the
  list of its properties in insertion order.
* The secure random source is a byte stream `src : Nat → Nat` read from a cursor
  `pos`; a byte is `src i % 256`. Every function that draws from the source returns
  the advanced cursor together with its value.
* The `do ... while` loop of `generateSecureNumber` is run with a bound `fuel` on the
  number of draws; `Outcome.running` says that the loop has not ended within the bound.
* HMAC-SHA256 (`crypto.createHmac`) is a parameter `hmac : String → String → String`
  taking the key and the message to the hex digest.
* The text `(wins / total * 100).toFixed(2)` is computed on doubles: a double is held as
  a pair `(m, k)` standing for `m / 2 ^ k`, and a quotient is rounded to the nearest
  double, ties to even.
* The row of the game is passed to the play route and returned by it; whether the
  database accepts the INSERT of the round and the UPDATE of the game is a parameter of
  the route.
-/

namespace DiceGame

/-! ## Outcomes of a call -/

/-- What a call has produced: a value, a thrown exception, or a loop that is still
running when the bound on the number of draws is reached. -/
inductive Outcome (α : Type) where
  | returned (v : α) : Outcome α
  | threw : Outcome α
  | running : Outcome α
deriving DecidableEq, Repr

/-- Apply a function to the returned value. -/
def Outcome.map {α β : Type} (f : α → β) : Outcome α → Outcome β
  | .returned v => .returned (f v)
  | .threw => .threw
  | .running => .running

/-- JavaScript array indexing `xs[i]` at an integer index: `none` is `undefined`. -/
def jsIndex {α : Type} (xs : List α) (i : Int) : Option α :=
  if 0 ≤ i then xs.get? i.toNat else none

/-- JavaScript `a > b` on values that may be `undefined`: false as soon as one is. -/
def jsGt : Option Int → Option Int → Bool
  | some a, some b => decide (a > b)
  | _, _ => false

/-! ## JavaScript numbers -/

/-- Search for the least `e`, from `e` on, with `n < 2 ^ (53 + e)`: the number of low bits
that a significand of 53 bits cannot hold (bounded search). -/
def doubleExponentFrom (n : Nat) : Nat → Nat → Nat
  | 0, e => e
  | fuel + 1, e => if n < 2 ^ (53 + e) then e else doubleExponentFrom n fuel (e + 1)

/-- The double nearest to the natural number `n`, a tie going to the even significand
(IEEE 754 round to nearest): `n` itself up to `2 ^ 53`. Numbers from `2 ^ 1024` on, which
JavaScript holds as `Infinity`, are outside the embedding. -/
def natToDouble (n : Nat) : Nat :=
  let e := doubleExponentFrom n n 0
  let m := n / 2 ^ e
  let r := n % 2 ^ e
  (if 2 * r > 2 ^ e ∨ (2 * r = 2 ^ e ∧ m % 2 = 1) then m + 1 else m) * 2 ^ e

/-- The double nearest to the integer `n`. -/
def toDouble (n : Int) : Int :=
  if n < 0 then -((natToDouble n.natAbs : Nat) : Int) else ((natToDouble n.natAbs : Nat) : Int)

/-- JavaScript `a + b` on two numbers that hold integers: the double nearest to the exact
sum. -/
def jsAdd (a b : Int) : Int :=
  toDouble (a + b)

/-- The decimal digit of a number below 10. -/
def digitChar (d : Nat) : Char :=
  Char.ofNat ('0'.toNat + d)

/-- The decimal digits of `n`, most significant first, with a bound on their number. -/
def decimalDigitsAux : Nat → Nat → List Nat
  | 0, _ => []
  | fuel + 1, n =>
    if n < 10 then [n] else decimalDigitsAux fuel (n / 10) ++ [n % 10]

/-- A natural number in decimal, as a template literal prints an index. -/
def natToDecimal (n : Nat) : List Char :=
  (decimalDigitsAux (n + 1) n).map digitChar

/-- Drop the zeros at the end of a run of digits. -/
def dropTrailingZeros (ds : List Char) : List Char :=
  (ds.reverse.dropWhile (fun c => c = '0')).reverse

/-- Search, from `k` significant digits on, for the decimal number with the fewest
significant digits that reads back as the double `x` of `len` digits: with `k` digits the
two candidates are the multiples of `10 ^ (len - k)` around `x`, the nearer one first (the
even one when they are equally near). -/
def shortestDecimalFrom (x len : Nat) : Nat → Nat → Nat
  | 0, _ => x
  | fuel + 1, k =>
    let unit := 10 ^ (len - k)
    let lo := x / unit
    let r := x % unit
    let near := if 2 * r > unit ∨ (2 * r = unit ∧ lo % 2 = 1) then lo + 1 else lo
    let far := if near = lo then lo + 1 else lo
    if natToDouble (near * unit) = x then near * unit
    else if natToDouble (far * unit) = x then far * unit
    else shortestDecimalFrom x len fuel (k + 1)

/-- The decimal number that `Number::toString` prints for the double `x`, a positive
integer: the one with the fewest significant digits among those that read back as `x`. -/
def shortestDecimal (x : Nat) : Nat :=
  shortestDecimalFrom x (natToDecimal x).length (natToDecimal x).length 1

/-- The conversion of a number that holds an integer to a string, as
`Number.prototype.toString` and `Array.prototype.join` apply it. An integer up to `2 ^ 53`
in absolute value is printed with its decimal digits, which are the shortest digits that
read back as the number; a larger double is printed with the shortest digits that read
back as it, followed by zeros below `10 ^ 21` (`2 ^ 60` is `1152921504606847000`) and in
the exponent form `d.ddd...e+k` from `10 ^ 21` on. -/
def numberToString (n : Int) : List Char :=
  let sign : List Char := if n < 0 then ['-'] else []
  let v := if n.natAbs ≤ 2 ^ 53 then n.natAbs else shortestDecimal n.natAbs
  let ds := natToDecimal v
  if v < 10 ^ 21 then sign ++ ds
  else
    let frac := dropTrailingZeros (ds.drop 1)
    sign ++ ds.take 1 ++ (if frac = [] then [] else '.' :: frac) ++ ['e', '+']
      ++ natToDecimal (ds.length - 1)

/-! ## Dice -/

/-- The class `Dice`: its faces and its name. -/
structure Dice where
  faces : List Int
  name : String
deriving DecidableEq, Repr

/-- The method `Dice.roll(randomValue)`: `this.faces[randomValue % this.faces.length]`,
with the truncated remainder of JavaScript. -/
def Dice.roll (d : Dice) (randomValue : Int) : Option Int :=
  jsIndex d.faces (Int.tmod randomValue (d.faces.length : Int))

/-! ## FairRandomGenerator -/

/-- The call `crypto.randomBytes(n)`: the next `n` bytes of the source from `pos`. -/
def randomBytes (src : Nat → Nat) (pos n : Nat) : List Nat :=
  (List.range n).map (fun i => src (pos + i) % 256)

/-- The call `buf.readUIntBE(0, byteLength)`: the big-endian unsigned integer of the
first `byteLength` bytes. Node accepts `1 ≤ byteLength ≤ 6` only and throws a
`RangeError` otherwise (`none`). -/
def readUIntBE (buf : List Nat) (byteLength : Nat) : Option Nat :=
  if 1 ≤ byteLength ∧ byteLength ≤ 6 ∧ byteLength ≤ buf.length then
    some ((buf.take byteLength).foldl (fun acc b => acc * 256 + b) 0)
  else none

/-- The integer read by a draw of `w` bytes at `pos`, big-endian. -/
def drawValue (src : Nat → Nat) (pos w : Nat) : Nat :=
  (randomBytes src pos w).foldl (fun acc b => acc * 256 + b) 0

/-- One hexadecimal digit, lower case. -/
def hexDigit (n : Nat) : Char :=
  "0123456789abcdef".toList.getD n '0'

/-- The call `buf.toString('hex')`: two hexadecimal digits per byte. -/
def toHex (buf : List Nat) : String :=
  String.mk (buf.flatMap (fun b => [hexDigit (b / 16), hexDigit (b % 16)]))

/-- The method `generateSecureKey()`: 32 random bytes in hexadecimal, and the
advanced cursor. -/
def generateSecureKey (src : Nat → Nat) (pos : Nat) : String × Nat :=
  (toHex (randomBytes src pos 32), pos + 32)

/-- Search for the least `w` from `w` on with `range ≤ 256 ^ w`. -/
def bytesNeededFrom (range : Nat) : Nat → Nat → Nat
  | 0, w => w
  | fuel + 1, w => if range ≤ 256 ^ w then w else bytesNeededFrom range fuel (w + 1)

/-- The expression `Math.ceil(Math.log2(range) / 8)` for a positive integer `range`:
the least `w` with `range ≤ 256 ^ w`. The double computation has this value for every
`range ≤ 2 ^ 48`, the ranges whose width `readUIntBE` accepts (`Math.log2` is exact on
powers of two and strictly above the power of 256 just below `range` otherwise). -/
def bytesNeeded (range : Nat) : Nat :=
  bytesNeededFrom range range 0

/-- The test of the `while` of `generateSecureNumber` negated: the draw `r` is accepted
when `r < Math.floor(256 ** w / range) * range`. -/
def accepted (range w r : Nat) : Bool :=
  decide (r < 256 ^ w / range * range)

/-- The `do ... while` loop of `generateSecureNumber` and the `return` after it, with
at most `fuel` draws: each draw reads `w` bytes, a rejected draw draws again, an
accepted draw `r` returns `min + (r % range)`. -/
def generateSecureNumberLoop (min : Int) (range w : Nat) (src : Nat → Nat) :
    Nat → Nat → Outcome (Int × Nat)
  | 0, _ => .running
  | fuel + 1, pos =>
    match readUIntBE (randomBytes src pos w) w with
    | none => .threw
    | some r =>
      if accepted range w r then .returned (min + ((r % range : Nat) : Int), pos + w)
      else generateSecureNumberLoop min range w src fuel (pos + w)

/-- The method `generateSecureNumber(min, max)` on integers, with at most `fuel` draws.
When `max < min` the range is not positive, `Math.log2` gives `NaN` or `-Infinity` and
`crypto.randomBytes` rejects the size. The range `max - min + 1` and the result
`min + (r % range)` are kept exact: the code computes them on doubles, with the same
values for `min` and `max` up to `2 ^ 53` in absolute value. -/
def generateSecureNumber (fuel : Nat) (min max : Int) (src : Nat → Nat) (pos : Nat) :
    Outcome (Int × Nat) :=
  let range := max - min + 1
  if range ≤ 0 then .threw
  else generateSecureNumberLoop min range.toNat (bytesNeeded range.toNat) src fuel pos

/-- The method `calculateHMAC(message, key)`:
`createHmac('sha256', key).update(message.toString()).digest('hex')`. -/
def calculateHMAC (hmac : String → String → String) (message : Int) (key : String) : String :=
  hmac key (String.mk (numberToString message))

/-- The method `generateFairRoll(userNumber, computerNumber, diceSize)`:
`(userNumber + computerNumber) % diceSize`, with the sum of doubles and the truncated
remainder of JavaScript, which is exact on doubles. -/
def generateFairRoll (userNumber computerNumber diceSize : Int) : Int :=
  Int.tmod (jsAdd userNumber computerNumber) diceSize

/-! ## GameLogic -/

/-- The object returned by `determineFirstPlayer`. -/
structure FirstPlayerData where
  hmac : String
  key : String
  computerNumber : Int
deriving DecidableEq, Repr

/-- The method `GameLogic.determineFirstPlayer()`: a fresh key, a secure number in
`0..1`, and the digest of that number under the key. -/
def determineFirstPlayer (hmac : String → String → String) (fuel : Nat) (src : Nat → Nat)
    (pos : Nat) : Outcome (FirstPlayerData × Nat) :=
  let (key, pos1) := generateSecureKey src pos
  match generateSecureNumber fuel 0 1 src pos1 with
  | .threw => .threw
  | .running => .running
  | .returned (computerNumber, pos2) =>
    .returned ({ hmac := calculateHMAC hmac computerNumber key, key := key,
                 computerNumber := computerNumber }, pos2)

/-- The tag `winner` of `playRound`:
`playerRoll > computerRoll ? 'player' : computerRoll > playerRoll ? 'computer' : 'tie'`. -/
def winnerOf (playerRoll computerRoll : Option Int) : String :=
  if jsGt playerRoll computerRoll then "player"
  else if jsGt computerRoll playerRoll then "computer" else "tie"

/-- The object returned by `playRound`. -/
structure RoundResult where
  playerDice : Dice
  computerDice : Dice
  playerRoll : Option Int
  computerRoll : Option Int
  winner : String
  playerKey : String
  computerKey : String
  playerComputerNumber : Int
  computerComputerNumber : Int
  playerHmac : String
  computerHmac : String
  userNumber : Int
deriving DecidableEq, Repr

/-- The method `GameLogic.playRound(playerDiceIndex, computerDiceIndex, userNumber)` on
the dice `dice` of the game. The two commitments are drawn first (key, number in `0..5`,
digest, for the player roll and then for the computer roll); the rolls follow, and
calling `roll` on a die that is `undefined` (an index outside the set) throws. -/
def playRound (hmac : String → String → String) (fuel : Nat) (dice : List Dice)
    (playerDiceIndex computerDiceIndex userNumber : Int) (src : Nat → Nat) (pos : Nat) :
    Outcome (RoundResult × Nat) :=
  let (playerKey, pos1) := generateSecureKey src pos
  match generateSecureNumber fuel 0 5 src pos1 with
  | .threw => .threw
  | .running => .running
  | .returned (playerComputerNumber, pos2) =>
    let playerHmac := calculateHMAC hmac playerComputerNumber playerKey
    let (computerKey, pos3) := generateSecureKey src pos2
    match generateSecureNumber fuel 0 5 src pos3 with
    | .threw => .threw
    | .running => .running
    | .returned (computerComputerNumber, pos4) =>
      let computerHmac := calculateHMAC hmac computerComputerNumber computerKey
      let playerRollIndex := generateFairRoll userNumber playerComputerNumber 6
      let computerRollIndex := generateFairRoll 0 computerComputerNumber 6
      match jsIndex dice playerDiceIndex, jsIndex dice computerDiceIndex with
      | some playerDice, some computerDice =>
        let playerRoll := playerDice.roll playerRollIndex
        let computerRoll := computerDice.roll computerRollIndex
        .returned ({ playerDice := playerDice, computerDice := computerDice,
                     playerRoll := playerRoll, computerRoll := computerRoll,
                     winner := winnerOf playerRoll computerRoll,
                     playerKey := playerKey, computerKey := computerKey,
                     playerComputerNumber := playerComputerNumber,
                     computerComputerNumber := computerComputerNumber,
                     playerHmac := playerHmac, computerHmac := computerHmac,
                     userNumber := userNumber }, pos4)
      | _, _ => .threw

/-! ## The HTTP routes of the first-player determination and of a round -/

/-- A JSON value of a response body. -/
inductive JVal where
  | str (s : String) : JVal
  | num (n : Int) : JVal
  | bool (b : Bool) : JVal
  | die (name : String) (faces : List Int) : JVal
deriving DecidableEq, Repr

/-- An HTTP response: the status and the fields of the JSON body, in order. -/
structure Response where
  status : Nat
  body : List (String × JVal)
deriving DecidableEq, Repr

/-- The names of the fields a response discloses. -/
def Response.fields (r : Response) : List String :=
  r.body.map Prod.fst

/-- The route `POST /api/game/:gameId/first-player`: `res.json(firstPlayerData)`, the
whole object returned by `determineFirstPlayer`; status 500 with an `error` field when it
throws (the text of the message is not modelled). -/
def firstPlayerRoute (hmac : String → String → String) (fuel : Nat) (src : Nat → Nat)
    (pos : Nat) : Outcome Response :=
  match determineFirstPlayer hmac fuel src pos with
  | .returned (d, _) =>
    .returned { status := 200,
                body := [("hmac", .str d.hmac), ("key", .str d.key),
                         ("computerNumber", .num d.computerNumber)] }
  | .threw => .returned { status := 500, body := [("error", .str "error")] }
  | .running => .running

/-- The body of a request to `POST /api/game/:gameId/first-player/complete`. -/
structure CompleteRequest where
  userNumber : Int
  hmac : String
  key : String
  computerNumber : Int
deriving DecidableEq, Repr

/-- The route `POST /api/game/:gameId/first-player/complete`: recompute the digest of
`computerNumber` under `key`; answer 400 `HMAC verification failed` when it is not the
supplied `hmac`, else combine the two numbers modulo 2 and name the first player. -/
def completeFirstPlayerRoute (hmac : String → String → String) (req : CompleteRequest) :
    Response :=
  let calculatedHmac := calculateHMAC hmac req.computerNumber req.key
  if calculatedHmac ≠ req.hmac then
    { status := 400, body := [("error", .str "HMAC verification failed")] }
  else
    let result := generateFairRoll req.userNumber req.computerNumber 2
    let firstPlayer := if result = 0 then "player" else "computer"
    { status := 200,
      body := [("firstPlayer", .str firstPlayer), ("userNumber", .num req.userNumber),
               ("computerNumber", .num req.computerNumber), ("result", .num result),
               ("verified", .bool true)] }

/-- The fields of `...roundResult` in the response of `POST /api/game/:gameId/play`;
a roll that is `undefined` is left out by the JSON serialisation. -/
def RoundResult.toBody (r : RoundResult) : List (String × JVal) :=
  [("playerDice", .die r.playerDice.name r.playerDice.faces),
   ("computerDice", .die r.computerDice.name r.computerDice.faces)]
  ++ (match r.playerRoll with | some v => [("playerRoll", .num v)] | none => [])
  ++ (match r.computerRoll with | some v => [("computerRoll", .num v)] | none => [])
  ++ [("winner", .str r.winner), ("playerKey", .str r.playerKey),
      ("computerKey", .str r.computerKey),
      ("playerComputerNumber", .num r.playerComputerNumber),
      ("computerComputerNumber", .num r.computerComputerNumber),
      ("playerHmac", .str r.playerHmac), ("computerHmac", .str r.computerHmac),
      ("userNumber", .num r.userNumber)]

/-! ## DiceConfigParser -/

/-- The white space and line terminators of JavaScript, which `trim` strips at both ends
and `parseInt` skips at the start. -/
def isJsWhiteSpace (c : Char) : Bool :=
  c.toNat ∈ [0x09, 0x0A, 0x0B, 0x0C, 0x0D, 0x20, 0xA0, 0x1680, 0x2028, 0x2029, 0x202F,
    0x205F, 0x3000, 0xFEFF] || (0x2000 ≤ c.toNat && c.toNat ≤ 0x200A)

/-- The method `String.prototype.trim()`. -/
def jsTrim (s : List Char) : List Char :=
  ((s.dropWhile isJsWhiteSpace).reverse.dropWhile isJsWhiteSpace).reverse

/-- The method `String.prototype.split(sep)` for a separator of one character: the
pieces between the separators, a single empty piece for the empty string. -/
def jsSplit (sep : Char) : List Char → List (List Char)
  | [] => [[]]
  | c :: cs =>
    if c = sep then [] :: jsSplit sep cs
    else
      match jsSplit sep cs with
      | [] => [[c]]
      | t :: ts => (c :: t) :: ts

/-- The value of a digit in a radix up to 16: `0`-`9`, `a`-`f`, `A`-`F`. -/
def digitValue (c : Char) : Option Nat :=
  if '0' ≤ c ∧ c ≤ '9' then some (c.toNat - '0'.toNat)
  else if 'a' ≤ c ∧ c ≤ 'f' then some (c.toNat - 'a'.toNat + 10)
  else if 'A' ≤ c ∧ c ≤ 'F' then some (c.toNat - 'A'.toNat + 10)
  else none

/-- The values of the longest run of digits of the radix at the start of the text. -/
def leadingDigits (radix : Nat) : List Char → List Nat
  | [] => []
  | c :: cs =>
    match digitValue c with
    | some d => if d < radix then d :: leadingDigits radix cs else []
    | none => []

/-- The number written by digits, most significant first. -/
def ofDigitList (radix : Nat) (ds : List Nat) : Nat :=
  ds.foldl (fun acc d => acc * radix + d) 0

/-- The optional sign at the start of the text read by `parseInt`, and the rest. -/
def stripSign : List Char → Int × List Char
  | '-' :: r => (-1, r)
  | '+' :: r => (1, r)
  | s => (1, s)

/-- The radix `parseInt` chooses without a radix argument, and the rest of the text: 16
after the mark `0x` or `0X`, else 10. -/
def stripRadixMark : List Char → Nat × List Char
  | '0' :: 'x' :: r => (16, r)
  | '0' :: 'X' :: r => (16, r)
  | s => (10, s)

/-- The mathematical integer that `parseInt(text)` reads without a radix: skip leading
white space, read an optional sign, read `0x` or `0X` as the mark of radix 16, and take
the longest run of digits that follows; `none` when that run is empty. -/
def parseIntValue (text : List Char) : Option Int :=
  let signed := stripSign (text.dropWhile isJsWhiteSpace)
  let based := stripRadixMark signed.2
  let ds := leadingDigits based.1 based.2
  if ds = [] then none else some (signed.1 * (ofDigitList based.1 ds : Int))

/-- The function `parseInt(text)` without a radix: the number nearest to the integer
read, which is that integer up to `2 ^ 53` in absolute value; `none` is `NaN`, the result
when no digit is read. -/
def parseInt (text : List Char) : Option Int :=
  (parseIntValue text).map toDouble

/-- The method `Array.prototype.join(sep)` on pieces of text. -/
def jsJoin (sep : Char) : List (List Char) → List Char
  | [] => []
  | [t] => t
  | t :: ts => t ++ sep :: jsJoin sep ts

/-- The argument of `DiceConfigParser.parse`: an array of strings, or a value that is
not an array. -/
inductive ParseInput where
  | notArray : ParseInput
  | array (entries : List String) : ParseInput
deriving DecidableEq, Repr

deriving instance DecidableEq for Except

/-- The `map` over the tokens of the entry of index `i`: each token is trimmed and read
by `parseInt`, and the first token that reads as `NaN` throws
`Invalid number '<token>' in dice <i + 1>`. -/
def parseFaces (i : Nat) : List (List Char) → Except String (List Int)
  | [] => .ok []
  | face :: rest =>
    match parseInt (jsTrim face) with
    | none =>
      .error ("Invalid number '" ++ String.mk face ++ "' in dice "
        ++ String.mk (natToDecimal (i + 1)))
    | some num =>
      match parseFaces i rest with
      | .error e => .error e
      | .ok nums => .ok (num :: nums)

/-- The `for` loop of `DiceConfigParser.parse` from the entry of index `i` on: split the
entry on commas, read the faces, require exactly 6 of them, and name the die by its
1-based position. -/
def parseEntries : Nat → List String → Except String (List Dice)
  | _, [] => .ok []
  | i, entry :: rest =>
    match parseFaces i (jsSplit ',' entry.toList) with
    | .error e => .error e
    | .ok faces =>
      if faces.length ≠ 6 then
        .error ("Dice " ++ String.mk (natToDecimal (i + 1)) ++ " must have exactly 6 faces")
      else
        match parseEntries (i + 1) rest with
        | .error e => .error e
        | .ok dice =>
          .ok ({ faces := faces, name := "Dice " ++ String.mk (natToDecimal (i + 1)) } :: dice)

/-- The method `DiceConfigParser.parse(diceStrings)`. -/
def DiceConfigParser.parse : ParseInput → Except String (List Dice)
  | .notArray => .error "At least 3 dice configurations required"
  | .array entries =>
    if entries.length < 3 then .error "At least 3 dice configurations required"
    else parseEntries 0 entries

/-- The list the play route parses again: `dice_config.map(d => d.faces.join(','))`. -/
def serializeDice (dice : List Dice) : List String :=
  dice.map (fun d => String.mk (jsJoin ',' (d.faces.map numberToString)))

/-! ## ProbabilityCalculator -/

/-- The assignment `obj[key] = value` on an object held as the list of its properties in
insertion order: an existing property is overwritten in place, a new one is appended. -/
def objSet {α : Type} (obj : List (String × α)) (key : String) (value : α) :
    List (String × α) :=
  match obj with
  | [] => [(key, value)]
  | (k, v) :: rest =>
    if k = key then (k, value) :: rest else (k, v) :: objSet rest key value

/-- The read `obj[key]`: `none` is `undefined`. -/
def objGet {α : Type} (obj : List (String × α)) (key : String) : Option α :=
  match obj with
  | [] => none
  | (k, v) :: rest => if k = key then some v else objGet rest key

/-- The object built by a run of assignments `obj[key] = value`, in order, from `{}`. -/
def objOfAssignments {α : Type} (assignments : List (String × α)) : List (String × α) :=
  assignments.foldl (fun obj kv => objSet obj kv.1 kv.2) []

/-- The two nested `for ... of` loops over the faces: `total++` for every pair and
`wins++` for the pairs with `face1 > face2`; the result is `(wins, total)`. -/
def compareFaces (faces1 faces2 : List Int) : Nat × Nat :=
  faces1.foldl
    (fun acc face1 =>
      faces2.foldl
        (fun acc2 face2 => (if face1 > face2 then acc2.1 + 1 else acc2.1, acc2.2 + 1))
        acc)
    (0, 0)

/-- The digits of a number below 100, two of them. -/
def twoDigits (n : Nat) : List Char :=
  [digitChar (n / 10 % 10), digitChar (n % 10)]

/-- The least shift `k`, from `k` on, with `2 ^ 52 * q ≤ p * 2 ^ k`: the shift that
brings the quotient `p / q` to 53 significant bits (bounded search). -/
def doubleShiftFrom (p q : Nat) : Nat → Nat → Nat
  | 0, k => k
  | fuel + 1, k => if 2 ^ 52 * q ≤ p * 2 ^ k then k else doubleShiftFrom p q fuel (k + 1)

/-- The double nearest to the quotient `p / q` of two positive integers, a tie going to
the even significand (IEEE 754 round to nearest), as the pair `(m, k)` that stands for
`m / 2 ^ k`. It is the result of the JavaScript division of two integers held exactly, for
a quotient below `2 ^ 53` and above the subnormal range, such as a share of wins or a
percentage. -/
def roundToDouble (p q : Nat) : Nat × Nat :=
  let k := doubleShiftFrom p q (53 + q) 0
  let m0 := p * 2 ^ k / q
  let r := p * 2 ^ k % q
  (if 2 * r > q ∨ (2 * r = q ∧ m0 % 2 = 1) then m0 + 1 else m0, k)

/-- The method `x.toFixed(2)` on the double `m / 2 ^ k`: the integer `n` with `n / 100`
nearest to the exact value of the double, the larger one on a tie, written with its last
two digits after the point. -/
def toFixed2 (x : Nat × Nat) : List Char :=
  let n := (200 * x.1 + 2 ^ x.2) / (2 * 2 ^ x.2)
  natToDecimal (n / 100) ++ '.' :: twoDigits (n % 100)

/-- The expression `(wins / total * 100).toFixed(2)` in double arithmetic: the division is
rounded to a double, the product by 100 is rounded to a double, and `toFixed` rounds the
exact value of that double to hundredths. `0 / 0` is `NaN`, a positive count over 0 is
`Infinity`, and `0` over a positive total stays `0`. -/
def probabilityString (wins total : Nat) : String :=
  if total = 0 then (if wins = 0 then "NaN" else "Infinity")
  else if wins = 0 then "0.00"
  else
    let quotient := roundToDouble wins total
    let percent := roundToDouble (quotient.1 * 100) (2 ^ quotient.2)
    String.mk (toFixed2 percent)

/-- An entry `{ wins, total, probability }` of the result of `calculateWinProbabilities`. -/
structure WinEntry where
  wins : Nat
  total : Nat
  probability : String
deriving DecidableEq, Repr

/-- The entry computed for the die `a` against the die `b`. -/
def winEntry (a b : Dice) : WinEntry :=
  let counts := compareFaces a.faces b.faces
  { wins := counts.1, total := counts.2, probability := probabilityString counts.1 counts.2 }

/-- The inner loop of `calculateWinProbabilities` for the die of index `i`: the object
`results[dice[i].name]`, filled by one assignment for every index `j` other than `i`. -/
def winRow (dice : List Dice) (i : Nat) (a : Dice) : List (String × WinEntry) :=
  objOfAssignments
    ((dice.enum.filter (fun jb => decide (i ≠ jb.1))).map (fun jb => (jb.2.name, winEntry a jb.2)))

/-- The method `ProbabilityCalculator.calculateWinProbabilities(dice)`: one assignment
`results[dice[i].name] = row` for every index `i`, in order. -/
def calculateWinProbabilities (dice : List Dice) :
    List (String × List (String × WinEntry)) :=
  objOfAssignments (dice.enum.map (fun ia => (ia.2.name, winRow dice ia.1 ia.2)))

/-- The read `results[a][b]` of the matrix. -/
def matrixGet (results : List (String × List (String × WinEntry))) (a b : String) :
    Option WinEntry :=
  match objGet results a with
  | none => none
  | some row => objGet row b

/-! ## TableGenerator -/

/-- The values of a list of reads that all succeed; `none` as soon as one of them is
`none`, a read that throws. -/
def allSome {α : Type} : List (Option α) → Option (List α)
  | [] => some []
  | none :: _ => none
  | some x :: rest =>
    match allSome rest with
    | none => none
    | some xs => some (x :: xs)

/-- The table returned by `generateProbabilityTable`. -/
structure ProbabilityTable where
  headers : List String
  rows : List (List String)
deriving DecidableEq, Repr

/-- The cell pushed for the index `j` in the row of the index `i`: `50.00%` when
`i === j`, else the text `prob.probability` followed by `%`, where `prob` is
`probabilities[dice[i].name][dice[j].name]`; reading through `undefined` throws
(`none`). -/
def tableCell (probabilities : List (String × List (String × WinEntry))) (i : Nat)
    (a : Dice) (jb : Nat × Dice) : Option String :=
  if i = jb.1 then some "50.00%"
  else
    match matrixGet probabilities a.name jb.2.name with
    | none => none
    | some prob => some (prob.probability ++ "%")

/-- The row built for the index `i`: the name of the die, then one cell for every index. -/
def tableRow (dice : List Dice) (probabilities : List (String × List (String × WinEntry)))
    (ia : Nat × Dice) : Option (List String) :=
  match allSome (dice.enum.map (tableCell probabilities ia.1 ia.2)) with
  | none => none
  | some cells => some (ia.2.name :: cells)

/-- The method `TableGenerator.generateProbabilityTable(dice, probabilities)`; `none` when
a read of the matrix throws. -/
def generateProbabilityTable (dice : List Dice)
    (probabilities : List (String × List (String × WinEntry))) : Option ProbabilityTable :=
  match allSome (dice.enum.map (tableRow dice probabilities)) with
  | none => none
  | some rows => some { headers := "Dice vs Dice" :: dice.map Dice.name, rows := rows }

/-- The method `GameLogic.getProbabilityTable()` of a game built on `dice`, whose
constructor computes `this.probabilities = calculateWinProbabilities(this.dice)`. -/
def getProbabilityTable (dice : List Dice) : Option ProbabilityTable :=
  generateProbabilityTable dice (calculateWinProbabilities dice)

/-! ## The choice of the die of the computer -/

/-- The route `POST /api/game/:gameId/computer-move` on the `availableDice` of the body:
`computerChoice = generateSecureNumber(0, availableDice.length - 1)`, answered with the
name of `availableDice[computerChoice]`; status 500 with an `error` field when the draw
throws or when the die read is `undefined`. -/
def computerMoveRoute (fuel : Nat) (availableDice : List Dice) (src : Nat → Nat) (pos : Nat) :
    Outcome Response :=
  match generateSecureNumber fuel 0 ((availableDice.length : Int) - 1) src pos with
  | .running => .running
  | .threw => .returned { status := 500, body := [("error", .str "error")] }
  | .returned (computerChoice, _) =>
    match jsIndex availableDice computerChoice with
    | none => .returned { status := 500, body := [("error", .str "error")] }
    | some die =>
      .returned { status := 200,
                  body := [("computerDiceIndex", .num computerChoice),
                           ("computerDiceName", .str die.name)] }

/-- The dice the client sends: `gameData.dice.filter((_, index) => index !== diceIndex)`. -/
def availableDice (dice : List Dice) (diceIndex : Nat) : List Dice :=
  (dice.enum.filter (fun id => decide (id.1 ≠ diceIndex))).map Prod.snd

/-- The search of `Array.prototype.findIndex` from the index `k` on. -/
def findIndexFrom {α : Type} (p : α → Bool) : List α → Nat → Int
  | [], _ => -1
  | x :: xs, k => if p x then (k : Int) else findIndexFrom p xs (k + 1)

/-- The call `xs.findIndex(p)`: the first index whose element satisfies `p`, or `-1`. -/
def jsFindIndex {α : Type} (p : α → Bool) (xs : List α) : Int :=
  findIndexFrom p xs 0

/-- The index the client keeps for the computer in `selectDice`:
`gameData.dice.findIndex(dice => dice.name === computerMove.computerDiceName)` on the
body of the answer; a body without the field reads `undefined`, equal to no name. -/
def originalComputerIndex (dice : List Dice) (computerMove : Response) : Int :=
  jsFindIndex
    (fun d => decide (computerMove.body.lookup "computerDiceName" = some (JVal.str d.name)))
    dice

/-! ## GameSetup, the validation of the client -/

/-- The `map` of `parseDiceInput` over the tokens of an entry: each token is trimmed and
read by `parseInt`, and the first token that reads as `NaN` throws `Invalid number`. -/
def clientFaces : List (List Char) → Except String (List Int)
  | [] => .ok []
  | face :: rest =>
    match parseInt (jsTrim face) with
    | none => .error "Invalid number"
    | some num =>
      match clientFaces rest with
      | .error e => .error e
      | .ok nums => .ok (num :: nums)

/-- The function `parseDiceInput(input)` of the component `GameSetup`: the faces read from
the entry, or `null` (`none`) when a token is not a number or the faces are not 6. -/
def parseDiceInput (input : String) : Option (List Int) :=
  match clientFaces (jsSplit ',' input.toList) with
  | .error _ => none
  | .ok faces => if faces.length ≠ 6 then none else some faces

/-- The `for` loop of `validateInputs` from the entry of index `i` on: the first entry
that `parseDiceInput` refuses gives `Dice <i + 1> has invalid format`. -/
def validateFrom : Nat → List String → Option String
  | _, [] => none
  | i, input :: rest =>
    match parseDiceInput input with
    | none => some ("Dice " ++ String.mk (natToDecimal (i + 1)) ++ " has invalid format")
    | some _ => validateFrom (i + 1) rest

/-- The function `validateInputs()` of the component `GameSetup` on the entries
`diceInputs`: the text of the error, or `null` (`none`). -/
def validateInputs (diceInputs : List String) : Option String :=
  if diceInputs.length < 3 then some "At least 3 dice are required"
  else validateFrom 0 diceInputs

/-! ## The route of a round and the counters of the game -/

/-- A row of the table `games`: the stored dice and the three counters. -/
structure GameRow where
  diceConfig : List Dice
  playerWins : Int
  computerWins : Int
  totalRounds : Int
deriving DecidableEq, Repr

/-- The body of a request to `POST /api/game/:gameId/play`. -/
structure PlayRequest where
  playerDiceIndex : Int
  computerDiceIndex : Int
  userNumber : Int
deriving DecidableEq, Repr

/-- The answers of `POST /api/game/:gameId/play`: 404 `Game not found`, 500 with the
message of an error, or 200 with the round, its number and the counters `gameStats`. -/
inductive PlayAnswer where
  | notFound : PlayAnswer
  | serverError : PlayAnswer
  | played (roundResult : RoundResult) (roundNumber playerWins computerWins totalRounds : Int) :
      PlayAnswer
deriving DecidableEq, Repr

/-- The route `POST /api/game/:gameId/play` on the row `game` selected by the identifier
(`none` when there is none), with the answer and the row after the request. The stored
dice are parsed again from `dice_config.map(d => d.faces.join(','))`. The INSERT of the
round binds `playerRoll` and `computerRoll`, and `mysql2` throws on a bind parameter that
is `undefined`, so a round with a roll that is `undefined` is not stored; `insertAccepted`
and `updateAccepted` say whether the database accepts the INSERT of the round and the
UPDATE of the game. Every error is caught and answered with status 500, and the row of
the game is written by the UPDATE only, with `total_rounds + 1` and with the counters
raised by the winner. -/
def playRoute (hmac : String → String → String) (fuel : Nat)
    (insertAccepted updateAccepted : Bool) (game : Option GameRow) (req : PlayRequest)
    (src : Nat → Nat) (pos : Nat) : Outcome (PlayAnswer × Option GameRow) :=
  match game with
  | none => .returned (.notFound, none)
  | some game =>
    match DiceConfigParser.parse (.array (serializeDice game.diceConfig)) with
    | .error _ => .returned (.serverError, some game)
    | .ok dice =>
      match playRound hmac fuel dice req.playerDiceIndex req.computerDiceIndex req.userNumber
          src pos with
      | .running => .running
      | .threw => .returned (.serverError, some game)
      | .returned (roundResult, _) =>
        let roundNumber := jsAdd game.totalRounds 1
        match roundResult.playerRoll, roundResult.computerRoll with
        | some _, some _ =>
          if insertAccepted = false then .returned (.serverError, some game)
          else
            let playerWins :=
              jsAdd game.playerWins (if roundResult.winner = "player" then 1 else 0)
            let computerWins :=
              jsAdd game.computerWins (if roundResult.winner = "computer" then 1 else 0)
            if updateAccepted = false then .returned (.serverError, some game)
            else
              .returned (.played roundResult roundNumber playerWins computerWins roundNumber,
                some { diceConfig := game.diceConfig, playerWins := playerWins,
                       computerWins := computerWins, totalRounds := roundNumber })
        | _, _ => .returned (.serverError, some game)

/-- The values an `INT` column holds that can be raised by 1 within the column. -/
def fitsIntColumn (v : Int) : Prop :=
  -(2 ^ 31) ≤ v ∧ v + 1 < 2 ^ 31

/-! ## Values named by the statements -/

/-- The probability as the specification words it: `wins / total` as a percentage,
rounded to the nearest hundredth of a percent on the exact quotient (a tie goes up) and
written with exactly two fractional digits; `NaN` when `total` is 0. -/
def percentFixed2 (wins total : Nat) : String :=
  if total = 0 then "NaN"
  else
    let hundredths := (2 * 10000 * wins + total) / (2 * total)
    String.mk (natToDecimal (hundredths / 100) ++ '.' :: twoDigits (hundredths % 100))

/-- The number of pairs `(x, y)` of a face of the first die and a face of the second,
counted by position, with `x > y`. -/
def winsCount (faces1 faces2 : List Int) : Nat :=
  (faces1.product faces2).countP (fun p => decide (p.1 > p.2))

/-- The number of pairs `(x, y)` of a face of the first die and a face of the second,
counted by position, with `x = y`. -/
def tiesCount (faces1 faces2 : List Int) : Nat :=
  (faces1.product faces2).countP (fun p => decide (p.1 = p.2))

/-- The parser accepts the entry with these faces: every token, trimmed, is read by
`parseInt` as the face at its position, and there are 6 of them. -/
def entryAccepted (entry : String) (faces : List Int) : Prop :=
  (jsSplit ',' entry.toList).map (fun t => parseInt (jsTrim t)) = faces.map some ∧
    faces.length = 6

/-- The name the parser gives to the die at the position `k` (from 0): `Dice <k + 1>`. -/
def dieName (k : Nat) : String :=
  "Dice " ++ String.mk (natToDecimal (k + 1))

/-- The error the parser reports for the entry at the position `k` (from 0), if any: the
first token that `parseInt` reads as `NaN` when there is one, else the number of tokens
when it is not 6. -/
def entryError (k : Nat) (entry : String) : Option String :=
  match (jsSplit ',' entry.toList).find? (fun t => (parseInt (jsTrim t)).isNone) with
  | some tok =>
    some ("Invalid number '" ++ String.mk tok ++ "' in dice "
      ++ String.mk (natToDecimal (k + 1)))
  | none =>
    if (jsSplit ',' entry.toList).length ≠ 6 then
      some ("Dice " ++ String.mk (natToDecimal (k + 1)) ++ " must have exactly 6 faces")
    else none

/-- The result `playRound` builds from the two dice, the two keys and the two committed
numbers. -/
def roundResultOf (hmac : String → String → String) (playerDice computerDice : Dice)
    (userNumber : Int) (playerKey : String) (playerComputerNumber : Int)
    (computerKey : String) (computerComputerNumber : Int) : RoundResult :=
  { playerDice := playerDice, computerDice := computerDice,
    playerRoll := playerDice.roll (generateFairRoll userNumber playerComputerNumber 6),
    computerRoll := computerDice.roll (generateFairRoll 0 computerComputerNumber 6),
    winner := winnerOf (playerDice.roll (generateFairRoll userNumber playerComputerNumber 6))
      (computerDice.roll (generateFairRoll 0 computerComputerNumber 6)),
    playerKey := playerKey, computerKey := computerKey,
    playerComputerNumber := playerComputerNumber,
    computerComputerNumber := computerComputerNumber,
    playerHmac := calculateHMAC hmac playerComputerNumber playerKey,
    computerHmac := calculateHMAC hmac computerComputerNumber computerKey,
    userNumber := userNumber }

/-- The commitment material of a round: both committed numbers, both keys, both
digests. -/
def RoundResult.commitments (r : RoundResult) : Int × Int × String × String × String × String :=
  (r.playerComputerNumber, r.computerComputerNumber, r.playerKey, r.computerKey,
    r.playerHmac, r.computerHmac)

/-- The dice of the example in the error message of the `init` route. -/
def exampleDice : List Dice :=
  [{ faces := [2, 2, 4, 4, 9, 9], name := "Dice 1" },
   { faces := [6, 8, 1, 1, 8, 6], name := "Dice 2" },
   { faces := [7, 5, 3, 7, 5, 3], name := "Dice 3" }]

/-- The text the table holds in the cell for the index `j` in the row of the index `i`. -/
def cellText (i : Nat) (a : Dice) (jb : Nat × Dice) : String :=
  if i = jb.1 then "50.00%" else (winEntry a jb.2).probability ++ "%"

/-! ## Lemmas on JavaScript numbers -/

/-- Below `2 ^ 53` no low bit is dropped. -/
theorem doubleExponentFrom_of_lt (n fuel : Nat) (h : n < 2 ^ 53) :
    doubleExponentFrom n fuel 0 = 0 := by
  cases fuel with
  | zero => rfl
  | succ f => simp only [doubleExponentFrom, Nat.add_zero, if_pos h]

/-- A natural number up to `2 ^ 53` is a double. -/
theorem natToDouble_of_le (n : Nat) (h : n ≤ 2 ^ 53) : natToDouble n = n := by
  rcases Nat.lt_or_eq_of_le h with hlt | heq
  · unfold natToDouble
    simp [doubleExponentFrom_of_lt n n hlt, Nat.mod_one]
  · subst heq
    decide

/-- An integer up to `2 ^ 53` in absolute value is a double. -/
theorem toDouble_of_natAbs_le (n : Int) (h : n.natAbs ≤ 2 ^ 53) : toDouble n = n := by
  unfold toDouble
  rw [natToDouble_of_le n.natAbs h]
  split <;> omega

/-- The sum of two numbers is exact when it is at most `2 ^ 53` in absolute value. -/
theorem jsAdd_exact (a b : Int) (h : (a + b).natAbs ≤ 2 ^ 53) : jsAdd a b = a + b :=
  toDouble_of_natAbs_le (a + b) h

/-- Up to `2 ^ 53` in absolute value a number is printed with its decimal digits. -/
theorem numberToString_of_natAbs_le (n : Int) (h : n.natAbs ≤ 2 ^ 53) :
    numberToString n = (if n < 0 then ['-'] else []) ++ natToDecimal n.natAbs := by
  have hlt : n.natAbs < 10 ^ 21 := by
    have : (2 : Nat) ^ 53 < 10 ^ 21 := by norm_num
    omega
  unfold numberToString
  simp only [if_pos h, if_pos hlt]

/-! ## Lemmas on the byte width and on the rejection loop -/

/-- A draw of `n` bytes has `n` bytes. -/
theorem randomBytes_length (src : Nat → Nat) (pos n : Nat) :
    (randomBytes src pos n).length = n := by
  simp [randomBytes]

/-- On a width from 1 to 6 `readUIntBE` reads the integer of the draw. -/
theorem readUIntBE_randomBytes (src : Nat → Nat) (pos w : Nat) (h1 : 1 ≤ w) (h6 : w ≤ 6) :
    readUIntBE (randomBytes src pos w) w = some (drawValue src pos w) := by
  have hl := randomBytes_length src pos w
  unfold readUIntBE drawValue
  rw [if_pos ⟨h1, h6, by omega⟩]
  congr 2
  exact List.take_of_length_le (by omega)

/-- A draw of one byte is that byte. -/
theorem drawValue_one (src : Nat → Nat) (pos : Nat) : drawValue src pos 1 = src pos % 256 := by
  simp [drawValue, randomBytes, List.range_succ]

/-- The search returns the least exponent, when none below the start fits and one within the bound does. -/
theorem bytesNeededFrom_spec (range : Nat) :
    ∀ fuel w, (∀ j, j < w → ¬ range ≤ 256 ^ j) → range ≤ 256 ^ (w + fuel) →
      range ≤ 256 ^ bytesNeededFrom range fuel w ∧
        ∀ j, range ≤ 256 ^ j → bytesNeededFrom range fuel w ≤ j := by
  intro fuel
  induction fuel with
  | zero =>
    intro w hlow hle
    refine ⟨by simpa [bytesNeededFrom] using hle, fun j hj => ?_⟩
    simp only [bytesNeededFrom]
    by_contra hcon
    exact hlow j (by omega) hj
  | succ fuel ih =>
    intro w hlow hle
    unfold bytesNeededFrom
    by_cases hw : range ≤ 256 ^ w
    · rw [if_pos hw]
      refine ⟨hw, fun j hj => ?_⟩
      by_contra hcon
      exact hlow j (by omega) hj
    · rw [if_neg hw]
      apply ih (w + 1)
      · intro j hj
        rcases Nat.lt_succ_iff_lt_or_eq.mp hj with h | h
        · exact hlow j h
        · rw [h]; exact hw
      · have : w + 1 + fuel = w + (fuel + 1) := by omega
        rw [this]; exact hle

/-- The byte width is the least `w` with `range ≤ 256 ^ w`. -/
theorem bytesNeeded_spec (range : Nat) :
    range ≤ 256 ^ bytesNeeded range ∧ ∀ j, range ≤ 256 ^ j → bytesNeeded range ≤ j := by
  unfold bytesNeeded
  apply bytesNeededFrom_spec range range 0
  · intro j hj; omega
  · have h : range < 256 ^ range := Nat.lt_pow_self (by norm_num) range
    simpa using h.le

/-- The byte width is the ceiling of the logarithm of `range` in base 256. -/
theorem bytesNeeded_eq_clog (range : Nat) : bytesNeeded range = Nat.clog 256 range := by
  obtain ⟨h1, h2⟩ := bytesNeeded_spec range
  apply le_antisymm
  · exact h2 _ (Nat.le_pow_clog (by norm_num) range)
  · exact (Nat.le_pow_iff_clog_le (by norm_num)).mp h1

/-- Ranges from 2 to `2 ^ 48` have a byte width from 1 to 6. -/
theorem bytesNeeded_bounds (range : Nat) (h2 : 2 ≤ range) (h48 : range ≤ 2 ^ 48) :
    1 ≤ bytesNeeded range ∧ bytesNeeded range ≤ 6 := by
  obtain ⟨h1, hmin⟩ := bytesNeeded_spec range
  constructor
  · by_contra hcon
    have h0 : bytesNeeded range = 0 := by omega
    rw [h0] at h1
    simp at h1
    omega
  · exact hmin 6 (by norm_num at h48 ⊢; exact h48)

/-- One turn of the loop on a width that `readUIntBE` accepts. -/
theorem loop_succ (min : Int) (range w : Nat) (src : Nat → Nat) (h1 : 1 ≤ w) (h6 : w ≤ 6)
    (fuel pos : Nat) :
    generateSecureNumberLoop min range w src (fuel + 1) pos =
      if accepted range w (drawValue src pos w) then
        .returned (min + ((drawValue src pos w % range : Nat) : Int), pos + w)
      else generateSecureNumberLoop min range w src fuel (pos + w) := by
  rw [generateSecureNumberLoop, readUIntBE_randomBytes src pos w h1 h6]

/-- On a width from 1 to 6 the loop never throws. -/
theorem loop_ne_threw (min : Int) (range w : Nat) (src : Nat → Nat) (h1 : 1 ≤ w) (h6 : w ≤ 6) :
    ∀ fuel pos, generateSecureNumberLoop min range w src fuel pos ≠ .threw := by
  intro fuel
  induction fuel with
  | zero => intro pos; simp [generateSecureNumberLoop]
  | succ fuel ih =>
    intro pos
    rw [loop_succ min range w src h1 h6]
    split
    · simp
    · exact ih _

/-- A value returned by the loop lies in `[min, min + range)`. -/
theorem loop_returned_bounds (min : Int) (range w : Nat) (src : Nat → Nat) (hr : 0 < range) :
    ∀ fuel pos v p, generateSecureNumberLoop min range w src fuel pos = .returned (v, p) →
      min ≤ v ∧ v < min + range := by
  intro fuel
  induction fuel with
  | zero => intro pos v p h; simp [generateSecureNumberLoop] at h
  | succ fuel ih =>
    intro pos v p h
    rw [generateSecureNumberLoop] at h
    split at h
    · simp at h
    · split at h
      · simp only [Outcome.returned.injEq, Prod.mk.injEq] at h
        obtain ⟨hv, -⟩ := h
        rename_i r _ _
        have hlt : r % range < range := Nat.mod_lt _ hr
        omega
      · exact ih _ v p h

/-- When the draw `k` is accepted the loop returns within `k + 1` draws. -/
theorem loop_returns_by (min : Int) (range w : Nat) (src : Nat → Nat) (h1 : 1 ≤ w)
    (h6 : w ≤ 6) :
    ∀ k pos, accepted range w (drawValue src (pos + k * w) w) = true →
      ∃ v p, generateSecureNumberLoop min range w src (k + 1) pos = .returned (v, p) := by
  intro k
  induction k with
  | zero =>
    intro pos h
    rw [loop_succ min range w src h1 h6]
    simp only [Nat.zero_mul, Nat.add_zero] at h
    rw [if_pos h]
    exact ⟨_, _, rfl⟩
  | succ k ih =>
    intro pos h
    rw [loop_succ min range w src h1 h6]
    split
    · exact ⟨_, _, rfl⟩
    · apply ih
      have : pos + w + k * w = pos + (k + 1) * w := by ring
      rw [this]; exact h

/-- A returned value is unchanged by a larger bound on the draws. -/
theorem loop_fuel_mono (min : Int) (range w : Nat) (src : Nat → Nat) :
    ∀ fuel pos x, generateSecureNumberLoop min range w src fuel pos = .returned x →
      ∀ n, generateSecureNumberLoop min range w src (fuel + n) pos = .returned x := by
  intro fuel
  induction fuel with
  | zero => intro pos x h; simp [generateSecureNumberLoop] at h
  | succ fuel ih =>
    intro pos x h n
    have e : fuel + 1 + n = (fuel + n) + 1 := by omega
    rw [e, generateSecureNumberLoop]
    rw [generateSecureNumberLoop] at h
    split
    · rename_i heq; rw [heq] at h; simp at h
    · rename_i r heq
      rw [heq] at h
      simp only at h
      split
      · rename_i hacc; rw [if_pos hacc] at h; exact h
      · rename_i hacc; rw [if_neg hacc] at h; exact ih _ x h n

/-- On a source whose every draw is rejected the loop never ends. -/
theorem loop_all_rejected (min : Int) (range w : Nat) (src : Nat → Nat) (h1 : 1 ≤ w)
    (h6 : w ≤ 6) (hrej : ∀ pos, accepted range w (drawValue src pos w) = false) :
    ∀ fuel pos, generateSecureNumberLoop min range w src fuel pos = .running := by
  intro fuel
  induction fuel with
  | zero => intro pos; rfl
  | succ fuel ih =>
    intro pos
    rw [loop_succ min range w src h1 h6, hrej pos]
    simpa using ih _

/-- Every residue `c` below `range` is hit by exactly `256 ^ w / range` accepted draws. -/
theorem accepted_residue_card (range w c : Nat) (hc : c < range) :
    ((Finset.range (256 ^ w)).filter
      (fun r => accepted range w r = true ∧ r % range = c)).card = 256 ^ w / range := by
  have hr : 0 < range := by omega
  have hset : (Finset.range (256 ^ w)).filter
      (fun r => accepted range w r = true ∧ r % range = c) =
      (Finset.range (256 ^ w / range)).image (fun j => j * range + c) := by
    ext r
    simp only [Finset.mem_filter, Finset.mem_range, Finset.mem_image, accepted,
      decide_eq_true_eq]
    constructor
    · rintro ⟨-, hlt, hmod⟩
      refine ⟨r / range, (Nat.div_lt_iff_lt_mul hr).mpr hlt, ?_⟩
      have := Nat.div_add_mod r range
      rw [hmod] at this
      rw [Nat.mul_comm]; exact this
    · rintro ⟨j, hj, rfl⟩
      have hT : 256 ^ w / range * range ≤ 256 ^ w := Nat.div_mul_le_self _ _
      have hlt : j * range + c < 256 ^ w / range * range := by
        have : (j + 1) * range ≤ 256 ^ w / range * range :=
          Nat.mul_le_mul_right _ hj
        rw [Nat.add_mul, Nat.one_mul] at this
        omega
      refine ⟨by omega, hlt, ?_⟩
      rw [Nat.add_comm, Nat.add_mul_mod_self_right, Nat.mod_eq_of_lt hc]
  rw [hset, Finset.card_image_of_injective, Finset.card_range]
  intro a b hab
  simp only at hab
  have : a * range = b * range := by omega
  exact Nat.eq_of_mul_eq_mul_right hr this

/-- A returned value of `generateSecureNumber` is unchanged by a larger bound on the draws. -/
theorem generateSecureNumber_fuel_mono (min max : Int) (src : Nat → Nat) (fuel pos : Nat)
    (x : Int × Nat) (h : generateSecureNumber fuel min max src pos = .returned x) (n : Nat) :
    generateSecureNumber (fuel + n) min max src pos = .returned x := by
  unfold generateSecureNumber at h ⊢
  simp only at h ⊢
  split
  · rename_i hr; rw [if_pos hr] at h; exact Outcome.noConfusion h
  · rename_i hr; rw [if_neg hr] at h
    exact loop_fuel_mono min _ _ src fuel pos x h n

/-- The call `generateSecureNumber(0, 1)` accepts its first byte. -/
theorem generateSecureNumber_zero_one_returns (src : Nat → Nat) (fuel pos : Nat) :
    ∃ v, generateSecureNumber (fuel + 1) 0 1 src pos = .returned (v, pos + 1) ∧
      0 ≤ v ∧ v ≤ 1 := by
  have hw : bytesNeeded 2 = 1 := by decide
  have hacc : accepted 2 1 (drawValue src pos 1) = true := by
    rw [drawValue_one]
    have : src pos % 256 < 256 := Nat.mod_lt _ (by norm_num)
    simpa [accepted] using this
  have e : generateSecureNumber (fuel + 1) 0 1 src pos =
      generateSecureNumberLoop 0 2 (bytesNeeded 2) src (fuel + 1) pos := rfl
  rw [e, hw, loop_succ 0 2 1 src (by decide) (by decide), if_pos hacc]
  refine ⟨_, rfl, ?_, ?_⟩ <;> omega

/-- The call `generateSecureNumber(0, 5)` is the loop on range 6 and width 1. -/
theorem generateSecureNumber_zero_five_eq (src : Nat → Nat) (fuel pos : Nat) :
    generateSecureNumber fuel 0 5 src pos = generateSecureNumberLoop 0 6 1 src fuel pos := by
  have hw : bytesNeeded 6 = 1 := by decide
  have e : generateSecureNumber fuel 0 5 src pos =
      generateSecureNumberLoop 0 6 (bytesNeeded 6) src fuel pos := rfl
  rw [e, hw]

/-- The call `generateSecureNumber(0, 5)` returns on a source that keeps yielding bytes below 252. -/
theorem generateSecureNumber_zero_five_returns (src : Nat → Nat)
    (hsrc : ∀ q, ∃ k, src (q + k) % 256 < 252) (pos : Nat) :
    ∃ fuel v p, generateSecureNumber fuel 0 5 src pos = .returned (v, p) := by
  obtain ⟨k, hk⟩ := hsrc pos
  have hacc : accepted 6 1 (drawValue src (pos + k * 1) 1) = true := by
    rw [drawValue_one, Nat.mul_one]
    simpa [accepted] using hk
  obtain ⟨v, p, h⟩ := loop_returns_by 0 6 1 src (by decide) (by decide) k pos hacc
  exact ⟨k + 1, v, p, by rw [generateSecureNumber_zero_five_eq]; exact h⟩

/-- A value returned by `generateSecureNumber(0, 5)` lies in `0..5`. -/
theorem generateSecureNumber_zero_five_bounds (src : Nat → Nat) (fuel pos : Nat) (v : Int)
    (p : Nat) (h : generateSecureNumber fuel 0 5 src pos = .returned (v, p)) :
    0 ≤ v ∧ v ≤ 5 := by
  rw [generateSecureNumber_zero_five_eq] at h
  have := loop_returned_bounds 0 6 1 src (by decide) fuel pos v p h
  omega

/-- On a width above 6 bytes the first draw throws. -/
theorem loop_threw_of_wide (min : Int) (range w : Nat) (src : Nat → Nat) (h : 6 < w)
    (fuel pos : Nat) :
    generateSecureNumberLoop min range w src (fuel + 1) pos = .threw := by
  have : readUIntBE (randomBytes src pos w) w = none := by
    unfold readUIntBE
    rw [if_neg (by omega)]
  rw [generateSecureNumberLoop, this]

/-- A value returned by `generateSecureNumber(0, 1)` is 0 or 1. -/
theorem generateSecureNumber_zero_one_bounds (src : Nat → Nat) (fuel pos : Nat) (v : Int)
    (p : Nat) (h : generateSecureNumber fuel 0 1 src pos = .returned (v, p)) :
    0 ≤ v ∧ v ≤ 1 := by
  have hw : bytesNeeded 2 = 1 := by decide
  have e : generateSecureNumber fuel 0 1 src pos =
      generateSecureNumberLoop 0 2 (bytesNeeded 2) src fuel pos := rfl
  rw [e, hw] at h
  have := loop_returned_bounds 0 2 1 src (by decide) fuel pos v p h
  omega

/-- The digest of a number from 0 to `2 ^ 53` is the HMAC, under the key, of the decimal
digits of the number. -/
theorem calculateHMAC_of_nat (hmac : String → String → String) (n : Nat) (h : n ≤ 2 ^ 53)
    (key : String) :
    calculateHMAC hmac (n : Int) key = hmac key (String.mk (natToDecimal n)) := by
  unfold calculateHMAC
  rw [numberToString_of_natAbs_le (n : Int) (by simpa using h),
    if_neg (by omega : ¬ ((n : Int) < 0))]
  simp

/-! ## Lemmas on the combined value and on the rolls -/

/-- On a sum from 0 to `2 ^ 53` the sum is exact and the truncated remainder is the
mathematical one. -/
theorem generateFairRoll_of_nonneg (u c m : Int) (h : 0 ≤ u + c) (hb : u + c ≤ 2 ^ 53)
    (hm : 0 ≤ m) : generateFairRoll u c m = (u + c) % m := by
  unfold generateFairRoll
  rw [jsAdd_exact u c (by omega)]
  exact Int.tmod_eq_emod h hm

/-- An element read by `jsIndex` belongs to the list. -/
theorem jsIndex_mem {α : Type} (xs : List α) (i : Int) (x : α) (h : jsIndex xs i = some x) :
    x ∈ xs := by
  unfold jsIndex at h
  split at h
  · exact List.get?_mem h
  · exact Option.noConfusion h

/-- An index inside the list reads an element. -/
theorem jsIndex_isSome {α : Type} (xs : List α) (i : Int) (h0 : 0 ≤ i)
    (hlt : i < xs.length) : ∃ x, jsIndex xs i = some x := by
  unfold jsIndex
  rw [if_pos h0]
  have : i.toNat < xs.length := by omega
  exact ⟨xs[i.toNat], by rw [List.get?_eq_getElem?]; exact List.getElem?_eq_getElem this⟩

/-- On a die of 6 faces a roll at a combined value from 0 to `2 ^ 53` reads the face at
that value modulo 6. -/
theorem roll_six_faces (d : Dice) (h6 : d.faces.length = 6) (a b : Int) (hab : 0 ≤ a + b)
    (hb : a + b ≤ 2 ^ 53) :
    d.roll (generateFairRoll a b 6) = jsIndex d.faces ((a + b) % 6) ∧
      0 ≤ (a + b) % 6 ∧ (a + b) % 6 ≤ 5 ∧
      ∃ f, f ∈ d.faces ∧ d.roll (generateFairRoll a b 6) = some f := by
  have hval := generateFairRoll_of_nonneg a b 6 hab hb (by decide)
  have hroll : d.roll (generateFairRoll a b 6) = jsIndex d.faces ((a + b) % 6) := by
    unfold Dice.roll
    rw [h6, hval]
    congr 1
    exact Int.tmod_eq_of_lt (by omega) (by omega)
  obtain ⟨f, hf⟩ := jsIndex_isSome d.faces ((a + b) % 6) (by omega) (by omega)
  exact ⟨hroll, by omega, by omega, f, jsIndex_mem _ _ _ hf, by rw [hroll, hf]⟩

/-- The tag of two integer rolls: `player` exactly when the first is greater, `computer`
exactly when the second is greater, `tie` exactly when they are equal. -/
theorem winnerOf_integers (a b : Int) :
    (winnerOf (some a) (some b) = "player" ↔ a > b) ∧
    (winnerOf (some a) (some b) = "computer" ↔ b > a) ∧
    (winnerOf (some a) (some b) = "tie" ↔ a = b) := by
  unfold winnerOf jsGt
  by_cases h1 : a > b
  · have h2 : ¬ b > a := by omega
    have h3 : a ≠ b := by omega
    simp [h1, h2, h3]
  · by_cases h2 : b > a
    · have h3 : a ≠ b := by omega
      simp [h1, h2, h3]
    · have h3 : a = b := by omega
      simp [h1, h2, h3]

/-! ## Lemmas on the results of `determineFirstPlayer` and `playRound` -/

/-- The results of `determineFirstPlayer`: the draw returned and the record built from it. -/
theorem determineFirstPlayer_returned_iff (hmac : String → String → String) (fuel : Nat)
    (src : Nat → Nat) (pos : Nat) (d : FirstPlayerData) (p : Nat) :
    determineFirstPlayer hmac fuel src pos = .returned (d, p) ↔
      ∃ n, generateSecureNumber fuel 0 1 src (pos + 32) = .returned (n, p) ∧
        d = { hmac := calculateHMAC hmac n (toHex (randomBytes src pos 32)),
              key := toHex (randomBytes src pos 32), computerNumber := n } := by
  unfold determineFirstPlayer generateSecureKey
  simp only
  constructor
  · intro h
    split at h
    · exact Outcome.noConfusion h
    · exact Outcome.noConfusion h
    · rename_i n p2 h1
      simp only [Outcome.returned.injEq, Prod.mk.injEq] at h
      obtain ⟨hd, hp⟩ := h
      subst hp
      exact ⟨n, h1, hd.symm⟩
  · rintro ⟨n, h1, hd⟩
    rw [h1, hd]

/-- The results of `playRound`: both draws returned, both dice found, and the record built from them. -/
theorem playRound_returned_iff (hmac : String → String → String) (fuel : Nat)
    (dice : List Dice) (pi ci u : Int) (src : Nat → Nat) (pos : Nat) (res : RoundResult)
    (p : Nat) :
    playRound hmac fuel dice pi ci u src pos = .returned (res, p) ↔
      ∃ pn p2 cn pd cd,
        generateSecureNumber fuel 0 5 src (pos + 32) = .returned (pn, p2) ∧
        generateSecureNumber fuel 0 5 src (p2 + 32) = .returned (cn, p) ∧
        jsIndex dice pi = some pd ∧ jsIndex dice ci = some cd ∧
        res = roundResultOf hmac pd cd u (toHex (randomBytes src pos 32)) pn
          (toHex (randomBytes src p2 32)) cn := by
  unfold playRound generateSecureKey
  simp only
  constructor
  · intro h
    split at h
    · exact Outcome.noConfusion h
    · exact Outcome.noConfusion h
    · rename_i pn p2 h1
      split at h
      · exact Outcome.noConfusion h
      · exact Outcome.noConfusion h
      · rename_i cn p4 h2
        split at h
        · rename_i pd cd h3 h4
          simp only [Outcome.returned.injEq, Prod.mk.injEq] at h
          obtain ⟨hres, hp⟩ := h
          subst hp
          exact ⟨pn, p2, cn, pd, cd, h1, h2, h3, h4, hres.symm⟩
        · exact Outcome.noConfusion h
  · rintro ⟨pn, p2, cn, pd, cd, h1, h2, h3, h4, hres⟩
    rw [h1]
    simp only
    rw [h2]
    simp only
    rw [h3, h4, hres]
    rfl

/-- On dice that exist `playRound` returns when the source keeps yielding bytes below 252. -/
theorem playRound_returns (hmac : String → String → String) (dice : List Dice)
    (pi ci u : Int) (pd cd : Dice) (hpd : jsIndex dice pi = some pd)
    (hcd : jsIndex dice ci = some cd) (src : Nat → Nat)
    (hsrc : ∀ q, ∃ k, src (q + k) % 256 < 252) (pos : Nat) :
    ∃ fuel res p, playRound hmac fuel dice pi ci u src pos = .returned (res, p) := by
  obtain ⟨f1, pn, p2, h1⟩ := generateSecureNumber_zero_five_returns src hsrc (pos + 32)
  obtain ⟨f2, cn, p4, h2⟩ := generateSecureNumber_zero_five_returns src hsrc (p2 + 32)
  refine ⟨f1 + f2, _, p4, (playRound_returned_iff hmac _ dice pi ci u src pos _ p4).mpr
    ⟨pn, p2, cn, pd, cd, ?_, ?_, hpd, hcd, rfl⟩⟩
  · exact generateSecureNumber_fuel_mono 0 5 src f1 _ _ h1 f2
  · rw [Nat.add_comm]
    exact generateSecureNumber_fuel_mono 0 5 src f2 _ _ h2 f1

/-! ## Lemmas on `DiceConfigParser.parse` -/

/-- The faces read from tokens are the values `parseInt` gives to the trimmed tokens. -/
theorem parseFaces_ok_iff (i : Nat) (toks : List (List Char)) (faces : List Int) :
    parseFaces i toks = .ok faces ↔
      toks.map (fun t => parseInt (jsTrim t)) = faces.map some := by
  induction toks generalizing faces with
  | nil =>
    cases faces <;> simp [parseFaces]
  | cons t ts ih =>
    unfold parseFaces
    cases ht : parseInt (jsTrim t) with
    | none =>
      cases faces <;> simp [ht]
    | some num =>
      simp only
      cases hr : parseFaces i ts with
      | error e =>
        cases faces with
        | nil => simp
        | cons f fs =>
          simp only [List.map_cons, List.cons.injEq, ht, Option.some.injEq, false_iff,
            not_and, reduceCtorEq]
          intro _ hmap
          have := (ih fs).mpr hmap
          rw [hr] at this
          exact Except.noConfusion this
      | ok nums =>
        cases faces with
        | nil => simp
        | cons f fs =>
          simp only [Except.ok.injEq, List.cons.injEq, List.map_cons, ht, Option.some.injEq]
          constructor
          · rintro ⟨h1, h2⟩
            exact ⟨h1, (ih fs).mp (by rw [hr, h2])⟩
          · rintro ⟨h1, h2⟩
            have := (ih fs).mpr h2
            rw [hr] at this
            exact ⟨h1, Except.ok.inj this⟩

/-- The error of reading tokens: the first token that `parseInt` reads as `NaN`, quoted
as it stands, with the 1-based index of the entry. -/
theorem parseFaces_error_iff (i : Nat) (toks : List (List Char)) (e : String) :
    parseFaces i toks = .error e ↔
      ∃ tok, toks.find? (fun t => (parseInt (jsTrim t)).isNone) = some tok ∧
        e = "Invalid number '" ++ String.mk tok ++ "' in dice "
          ++ String.mk (natToDecimal (i + 1)) := by
  induction toks with
  | nil => simp [parseFaces]
  | cons t ts ih =>
    unfold parseFaces
    cases ht : parseInt (jsTrim t) with
    | none =>
      simp only [Except.error.injEq, List.find?_cons, ht, Option.isNone_none]
      constructor
      · intro h; exact ⟨t, rfl, h.symm⟩
      · rintro ⟨tok, h1, h2⟩
        cases h1
        exact h2.symm
    | some num =>
      simp only [List.find?_cons, ht, Option.isNone_some]
      cases hr : parseFaces i ts with
      | error e2 =>
        simp only [Except.error.injEq]
        rw [hr] at ih
        simp only [Except.error.injEq] at ih
        exact ih
      | ok nums =>
        rw [hr] at ih
        simp only [reduceCtorEq, false_iff] at ih ⊢
        exact ih

/-- Reading tokens keeps their number. -/
theorem parseFaces_length (i : Nat) (toks : List (List Char)) (faces : List Int)
    (h : parseFaces i toks = .ok faces) : faces.length = toks.length := by
  have := congrArg List.length ((parseFaces_ok_iff i toks faces).mp h)
  simpa using this.symm

/-- Tokens are read without error exactly when none of them reads as `NaN`. -/
theorem parseFaces_ok_of_find_none (i : Nat) (toks : List (List Char))
    (h : toks.find? (fun t => (parseInt (jsTrim t)).isNone) = none) :
    ∃ faces, parseFaces i toks = .ok faces := by
  cases hr : parseFaces i toks with
  | ok faces => exact ⟨faces, rfl⟩
  | error e =>
    obtain ⟨tok, htok, -⟩ := (parseFaces_error_iff i toks e).mp hr
    rw [h] at htok
    exact Option.noConfusion htok

/-- One turn of the loop of the parser on an entry without error: the entry is accepted
with some faces and the loop goes on. -/
theorem parseEntries_cons_of_no_error (i : Nat) (entry : String) (rest : List String)
    (h : entryError i entry = none) :
    ∃ faces, entryAccepted entry faces ∧
      parseEntries i (entry :: rest) =
        match parseEntries (i + 1) rest with
        | .error e => .error e
        | .ok dice => .ok ({ faces := faces, name := dieName i } :: dice) := by
  unfold entryError at h
  split at h
  · exact Option.noConfusion h
  · rename_i hfind
    split at h
    · exact Option.noConfusion h
    · rename_i hlen
      obtain ⟨faces, hf⟩ := parseFaces_ok_of_find_none i _ hfind
      have hl := parseFaces_length i _ faces hf
      have h6 : faces.length = 6 := by
        rw [hl]
        exact not_not.mp hlen
      refine ⟨faces, ⟨(parseFaces_ok_iff i _ faces).mp hf, h6⟩, ?_⟩
      rw [parseEntries, hf]
      simp only [h6, ne_eq, not_true_eq_false, if_false, dieName]

/-- One turn of the loop of the parser on an entry with an error: the loop stops with
that error. -/
theorem parseEntries_cons_of_error (i : Nat) (entry : String) (rest : List String)
    (m : String) (h : entryError i entry = some m) :
    parseEntries i (entry :: rest) = .error m := by
  unfold entryError at h
  split at h
  · rename_i tok hfind
    have hm := Option.some.inj h
    have := (parseFaces_error_iff i (jsSplit ',' entry.toList) m).mpr ⟨tok, hfind, hm.symm⟩
    rw [parseEntries, this]
  · rename_i hfind
    split at h
    · rename_i hlen
      have hm := Option.some.inj h
      obtain ⟨faces, hf⟩ := parseFaces_ok_of_find_none i _ hfind
      have hl := parseFaces_length i _ faces hf
      rw [parseEntries, hf]
      simp only [hl, hlen, ne_eq, not_false_eq_true, if_true, hm]
    · exact Option.noConfusion h

/-- The dice of a successful parse: as many as the entries, each named by its position and
holding the faces with which its entry is accepted. -/
theorem parseEntries_ok (entries : List String) :
    ∀ i dice, parseEntries i entries = .ok dice →
      dice.length = entries.length ∧
      ∀ k e d, entries[k]? = some e → dice[k]? = some d →
        d.name = dieName (i + k) ∧ entryAccepted e d.faces ∧ entryError (i + k) e = none := by
  induction entries with
  | nil =>
    intro i dice h
    simp only [parseEntries, Except.ok.injEq] at h
    subst h
    simp
  | cons entry rest ih =>
    intro i dice h
    cases herr : entryError i entry with
    | some m =>
      rw [parseEntries_cons_of_error i entry rest m herr] at h
      exact Except.noConfusion h
    | none =>
      obtain ⟨faces, hacc, hstep⟩ := parseEntries_cons_of_no_error i entry rest herr
      rw [hstep] at h
      cases hrest : parseEntries (i + 1) rest with
      | error e =>
        rw [hrest] at h
        exact Except.noConfusion h
      | ok tail =>
        rw [hrest] at h
        simp only [Except.ok.injEq] at h
        subst h
        obtain ⟨hlen, hall⟩ := ih (i + 1) tail hrest
        refine ⟨by simp [hlen], ?_⟩
        intro k e d he hd
        cases k with
        | zero =>
          simp only [List.getElem?_cons_zero, Option.some.injEq] at he hd
          subst he hd
          exact ⟨rfl, hacc, herr⟩
        | succ k =>
          simp only [List.getElem?_cons_succ] at he hd
          have := hall k e d he hd
          have e1 : i + 1 + k = i + (k + 1) := by omega
          rw [e1] at this
          exact this

/-- The error of a failed parse: the error of the first entry that has one. -/
theorem parseEntries_error (entries : List String) :
    ∀ i m, parseEntries i entries = .error m →
      ∃ k e, entries[k]? = some e ∧ entryError (i + k) e = some m ∧
        ∀ j e2, j < k → entries[j]? = some e2 → entryError (i + j) e2 = none := by
  induction entries with
  | nil =>
    intro i m h
    simp [parseEntries] at h
  | cons entry rest ih =>
    intro i m h
    cases herr : entryError i entry with
    | some m2 =>
      rw [parseEntries_cons_of_error i entry rest m2 herr] at h
      simp only [Except.error.injEq] at h
      subst h
      exact ⟨0, entry, by simp, by simpa using herr, fun j e2 hj => by omega⟩
    | none =>
      obtain ⟨faces, hacc, hstep⟩ := parseEntries_cons_of_no_error i entry rest herr
      rw [hstep] at h
      cases hrest : parseEntries (i + 1) rest with
      | ok tail =>
        rw [hrest] at h
        exact Except.noConfusion h
      | error e =>
        rw [hrest] at h
        simp only [Except.error.injEq] at h
        subst h
        obtain ⟨k, e2, hk, hek, hbefore⟩ := ih (i + 1) e hrest
        refine ⟨k + 1, e2, by simpa using hk, ?_, ?_⟩
        · have e1 : i + 1 + k = i + (k + 1) := by omega
          rw [← e1]; exact hek
        · intro j e3 hj hje
          cases j with
          | zero =>
            simp only [List.getElem?_cons_zero, Option.some.injEq] at hje
            subst hje
            simpa using herr
          | succ j =>
            simp only [List.getElem?_cons_succ] at hje
            have := hbefore j e3 (by omega) hje
            have e1 : i + 1 + j = i + (j + 1) := by omega
            rw [← e1]; exact this

/-- The loop of the parser succeeds when no entry has an error. -/
theorem parseEntries_ok_of_no_error (entries : List String) :
    ∀ i, (∀ k e, entries[k]? = some e → entryError (i + k) e = none) →
      ∃ dice, parseEntries i entries = .ok dice := by
  intro i h
  cases hr : parseEntries i entries with
  | ok dice => exact ⟨dice, rfl⟩
  | error m =>
    obtain ⟨k, e, hk, hek, -⟩ := parseEntries_error entries i m hr
    rw [h k e hk] at hek
    exact Option.noConfusion hek

/-- An entry has no error exactly when it is accepted with some faces. -/
theorem entryError_eq_none_iff (k : Nat) (entry : String) :
    entryError k entry = none ↔ ∃ faces, entryAccepted entry faces := by
  constructor
  · intro h
    obtain ⟨faces, hacc, -⟩ := parseEntries_cons_of_no_error k entry [] h
    exact ⟨faces, hacc⟩
  · rintro ⟨faces, hmap, h6⟩
    have hok := (parseFaces_ok_iff k _ faces).mpr hmap
    have hlen := parseFaces_length k _ faces hok
    cases herr : entryError k entry with
    | none => rfl
    | some m =>
      have := parseEntries_cons_of_error k entry [] m herr
      rw [parseEntries, hok] at this
      simp [h6, parseEntries] at this

/-- An accepted entry splits into 6 tokens, none of which reads as `NaN`. -/
theorem entryAccepted_tokens (entry : String) (faces : List Int)
    (h : entryAccepted entry faces) :
    (jsSplit ',' entry.toList).length = 6 ∧
      ∀ tok, tok ∈ jsSplit ',' entry.toList → parseInt (jsTrim tok) ≠ none := by
  obtain ⟨hmap, h6⟩ := h
  constructor
  · have := congrArg List.length hmap
    simp only [List.length_map] at this
    omega
  · intro tok htok hnone
    have hmem : parseInt (jsTrim tok) ∈
        (jsSplit ',' entry.toList).map (fun t => parseInt (jsTrim t)) :=
      List.mem_map.mpr ⟨tok, htok, rfl⟩
    rw [hmap, hnone] at hmem
    simp at hmem

/-- An entry of 6 tokens none of which reads as `NaN` is accepted. -/
theorem entryAccepted_of_tokens (entry : String)
    (h6 : (jsSplit ',' entry.toList).length = 6)
    (hall : ∀ tok, tok ∈ jsSplit ',' entry.toList → parseInt (jsTrim tok) ≠ none) :
    ∃ faces, entryAccepted entry faces := by
  have hfind : (jsSplit ',' entry.toList).find? (fun t => (parseInt (jsTrim t)).isNone) =
      none := by
    rw [List.find?_eq_none]
    intro tok htok
    have := hall tok htok
    cases hp : parseInt (jsTrim tok) with
    | none => exact absurd hp this
    | some v => simp
  obtain ⟨faces, hf⟩ := parseFaces_ok_of_find_none 0 _ hfind
  have hl := parseFaces_length 0 _ faces hf
  exact ⟨faces, (parseFaces_ok_iff 0 _ faces).mp hf, by omega⟩

/-! ## Lemmas on decimal digits and on the serialised dice -/

/-- A decimal digit is read back as its value, and is neither white space, nor a comma,
nor a sign, nor the letter of the radix mark. -/
theorem digitChar_props (d : Nat) (h : d < 10) :
    digitValue (digitChar d) = some d ∧ isJsWhiteSpace (digitChar d) = false ∧
      digitChar d ≠ ',' ∧ digitChar d ≠ '-' ∧ digitChar d ≠ '+' ∧
      digitChar d ≠ 'x' ∧ digitChar d ≠ 'X' := by
  interval_cases d <;> decide

/-- The digits of a number are below 10, there is at least one, and they write the
number. -/
theorem decimalDigitsAux_spec :
    ∀ fuel n, n < fuel →
      decimalDigitsAux fuel n ≠ [] ∧ (∀ d, d ∈ decimalDigitsAux fuel n → d < 10) ∧
        ofDigitList 10 (decimalDigitsAux fuel n) = n := by
  intro fuel
  induction fuel with
  | zero => intro n h; omega
  | succ fuel ih =>
    intro n h
    unfold decimalDigitsAux
    by_cases h10 : n < 10
    · rw [if_pos h10]
      refine ⟨by simp, ?_, by simp [ofDigitList]⟩
      intro d hd
      simp only [List.mem_singleton] at hd
      omega
    · rw [if_neg h10]
      obtain ⟨-, h2, h3⟩ := ih (n / 10) (by omega)
      refine ⟨by simp, ?_, ?_⟩
      · intro d hd
        rcases List.mem_append.mp hd with hd | hd
        · exact h2 d hd
        · simp only [List.mem_singleton] at hd
          omega
      · unfold ofDigitList at h3 ⊢
        rw [List.foldl_append, h3]
        simp only [List.foldl_cons, List.foldl_nil]
        omega

/-- A run of decimal digits is read whole in radix 10. -/
theorem leadingDigits_map_digitChar (ds : List Nat) (h : ∀ d, d ∈ ds → d < 10) :
    leadingDigits 10 (ds.map digitChar) = ds := by
  induction ds with
  | nil => rfl
  | cons d rest ih =>
    have hd := h d (List.mem_cons_self _ _)
    simp only [List.map_cons, leadingDigits, (digitChar_props d hd).1, if_pos hd]
    rw [ih (fun x hx => h x (List.mem_cons_of_mem _ hx))]

/-- A run of decimal digits has no sign to strip. -/
theorem stripSign_map_digitChar (ds : List Nat) (h : ∀ d, d ∈ ds → d < 10) :
    stripSign (ds.map digitChar) = (1, ds.map digitChar) := by
  cases ds with
  | nil => rfl
  | cons d rest =>
    obtain ⟨-, -, -, h1, h2, -, -⟩ := digitChar_props d (h d (List.mem_cons_self _ _))
    simp only [List.map_cons]
    unfold stripSign
    split
    · rename_i heq
      simp only [List.cons.injEq] at heq
      exact absurd heq.1 h1
    · rename_i heq
      simp only [List.cons.injEq] at heq
      exact absurd heq.1 h2
    · rfl

/-- A run of decimal digits has no radix mark to strip. -/
theorem stripRadixMark_map_digitChar (ds : List Nat) (h : ∀ d, d ∈ ds → d < 10) :
    stripRadixMark (ds.map digitChar) = (10, ds.map digitChar) := by
  unfold stripRadixMark
  split
  · rename_i r heq
    cases ds with
    | nil => simp at heq
    | cons d rest =>
      cases rest with
      | nil => simp at heq
      | cons d2 rest2 =>
        simp only [List.map_cons, List.cons.injEq] at heq
        have := (digitChar_props d2 (h d2 (by simp))).2.2.2.2.2.1
        exact absurd heq.2.1 this
  · rename_i r heq
    cases ds with
    | nil => simp at heq
    | cons d rest =>
      cases rest with
      | nil => simp at heq
      | cons d2 rest2 =>
        simp only [List.map_cons, List.cons.injEq] at heq
        have := (digitChar_props d2 (h d2 (by simp))).2.2.2.2.2.2
        exact absurd heq.2.1 this
  · rfl

/-- Text without white space at its start is left whole by the skip of white space. -/
theorem dropWhile_whiteSpace_cons (c : Char) (cs : List Char)
    (h : isJsWhiteSpace c = false) : (c :: cs).dropWhile isJsWhiteSpace = c :: cs := by
  simp [List.dropWhile, h]

/-- Text without any white space is left whole by `trim`. -/
theorem jsTrim_of_no_whiteSpace (s : List Char)
    (h : ∀ c, c ∈ s → isJsWhiteSpace c = false) : jsTrim s = s := by
  have key : ∀ l : List Char, (∀ c, c ∈ l → isJsWhiteSpace c = false) →
      l.dropWhile isJsWhiteSpace = l := by
    intro l hl
    cases l with
    | nil => rfl
    | cons c cs => exact dropWhile_whiteSpace_cons c cs (hl c (List.mem_cons_self _ _))
  unfold jsTrim
  rw [key s h, key s.reverse (fun c hc => h c (List.mem_reverse.mp hc)), List.reverse_reverse]

/-- A number in decimal is read back exactly, with or without a minus sign. -/
theorem parseIntValue_decimal (n : Nat) :
    parseIntValue (natToDecimal n) = some (n : Int) ∧
      parseIntValue ('-' :: natToDecimal n) = some (-(n : Int)) := by
  obtain ⟨hne, hlt, hval⟩ := decimalDigitsAux_spec (n + 1) n (by omega)
  have hws : ∀ c, c ∈ natToDecimal n → isJsWhiteSpace c = false := by
    intro c hc
    obtain ⟨d, hd, rfl⟩ := List.mem_map.mp hc
    exact (digitChar_props d (hlt d hd)).2.1
  have hdrop : (natToDecimal n).dropWhile isJsWhiteSpace = natToDecimal n := by
    cases hnd : natToDecimal n with
    | nil => rfl
    | cons c cs =>
      exact dropWhile_whiteSpace_cons c cs (hws c (by rw [hnd]; exact List.mem_cons_self _ _))
  have hminus : ('-' :: natToDecimal n).dropWhile isJsWhiteSpace = '-' :: natToDecimal n :=
    dropWhile_whiteSpace_cons '-' _ (by decide)
  have hlead : leadingDigits 10 (natToDecimal n) = decimalDigitsAux (n + 1) n :=
    leadingDigits_map_digitChar _ hlt
  constructor
  · unfold parseIntValue
    simp only [hdrop]
    unfold natToDecimal at hlead ⊢
    rw [stripSign_map_digitChar _ hlt]
    simp only
    rw [stripRadixMark_map_digitChar _ hlt]
    simp only [hlead, if_neg hne, hval, one_mul]
  · unfold parseIntValue
    simp only [hminus]
    have hs : stripSign ('-' :: natToDecimal n) = (-1, natToDecimal n) := rfl
    rw [hs]
    simp only
    unfold natToDecimal at hlead ⊢
    rw [stripRadixMark_map_digitChar _ hlt]
    simp only [hlead, if_neg hne, hval, neg_mul, one_mul]

/-- A number up to `2 ^ 53` in decimal is read back by `parseInt`, with or without a minus
sign. -/
theorem parseInt_decimal (n : Nat) (h : n ≤ 2 ^ 53) :
    parseInt (natToDecimal n) = some (n : Int) ∧
      parseInt ('-' :: natToDecimal n) = some (-(n : Int)) := by
  unfold parseInt
  rw [(parseIntValue_decimal n).1, (parseIntValue_decimal n).2]
  simp only [Option.map_some', Option.some.injEq]
  exact ⟨toDouble_of_natAbs_le _ (by omega), toDouble_of_natAbs_le _ (by omega)⟩

/-- Up to `2 ^ 53` in absolute value, the text of a number has neither white space nor
comma, and `parseInt` reads the number back from it. -/
theorem numberToString_spec (n : Int) (h : n.natAbs ≤ 2 ^ 53) :
    (∀ c, c ∈ numberToString n → isJsWhiteSpace c = false ∧ c ≠ ',') ∧
      parseInt (jsTrim (numberToString n)) = some n := by
  obtain ⟨hne, hlt, hval⟩ := decimalDigitsAux_spec (n.natAbs + 1) n.natAbs (by omega)
  have hdig : ∀ c, c ∈ natToDecimal n.natAbs → isJsWhiteSpace c = false ∧ c ≠ ',' := by
    intro c hc
    obtain ⟨d, hd, rfl⟩ := List.mem_map.mp hc
    exact ⟨(digitChar_props d (hlt d hd)).2.1, (digitChar_props d (hlt d hd)).2.2.1⟩
  by_cases hneg : n < 0
  · have e : numberToString n = '-' :: natToDecimal n.natAbs := by
      rw [numberToString_of_natAbs_le n h, if_pos hneg]
      rfl
    have hall : ∀ c, c ∈ numberToString n → isJsWhiteSpace c = false ∧ c ≠ ',' := by
      intro c hc
      rw [e] at hc
      rcases List.mem_cons.mp hc with rfl | hc
      · exact ⟨by decide, by decide⟩
      · exact hdig c hc
    refine ⟨hall, ?_⟩
    rw [jsTrim_of_no_whiteSpace _ (fun c hc => (hall c hc).1), e, (parseInt_decimal _ h).2]
    congr 1
    omega
  · have e : numberToString n = natToDecimal n.natAbs := by
      rw [numberToString_of_natAbs_le n h, if_neg hneg]
      rfl
    have hall : ∀ c, c ∈ numberToString n → isJsWhiteSpace c = false ∧ c ≠ ',' := by
      intro c hc
      rw [e] at hc
      exact hdig c hc
    refine ⟨hall, ?_⟩
    rw [jsTrim_of_no_whiteSpace _ (fun c hc => (hall c hc).1), e, (parseInt_decimal _ h).1]
    congr 1
    omega

/-- Text without the separator is a single piece. -/
theorem jsSplit_of_not_mem (sep : Char) (t : List Char) (h : sep ∉ t) :
    jsSplit sep t = [t] := by
  induction t with
  | nil => rfl
  | cons c cs ih =>
    have hc : c ≠ sep := fun e => h (e ▸ List.mem_cons_self _ _)
    have hcs : sep ∉ cs := fun hm => h (List.mem_cons_of_mem _ hm)
    simp only [jsSplit, if_neg hc, ih hcs]

/-- Splitting after a piece without the separator. -/
theorem jsSplit_append_sep (sep : Char) (t rest : List Char) (h : sep ∉ t) :
    jsSplit sep (t ++ sep :: rest) = t :: jsSplit sep rest := by
  induction t with
  | nil => simp [jsSplit]
  | cons c cs ih =>
    have hc : c ≠ sep := fun e => h (e ▸ List.mem_cons_self _ _)
    have hcs : sep ∉ cs := fun hm => h (List.mem_cons_of_mem _ hm)
    have e : jsSplit sep (c :: cs ++ sep :: rest) =
        match jsSplit sep (cs ++ sep :: rest) with
        | [] => [[c]]
        | t :: ts => (c :: t) :: ts := by
      rw [List.cons_append, jsSplit, if_neg hc]
    rw [e, ih hcs]

/-- Splitting undoes joining, for at least one piece and pieces without the separator. -/
theorem jsSplit_jsJoin (sep : Char) (toks : List (List Char)) (hne : toks ≠ [])
    (h : ∀ t, t ∈ toks → sep ∉ t) : jsSplit sep (jsJoin sep toks) = toks := by
  induction toks with
  | nil => exact absurd rfl hne
  | cons t ts ih =>
    cases ts with
    | nil =>
      simp only [jsJoin]
      exact jsSplit_of_not_mem sep t (h t (List.mem_cons_self _ _))
    | cons t2 ts2 =>
      simp only [jsJoin]
      rw [jsSplit_append_sep sep t _ (h t (List.mem_cons_self _ _))]
      have := ih (by simp) (fun x hx => h x (List.mem_cons_of_mem _ hx))
      rw [this]

/-- The faces of a die are read back from their texts, up to `2 ^ 53`. -/
theorem parseFaces_numberToString (i : Nat) (faces : List Int)
    (hb : ∀ f, f ∈ faces → f.natAbs ≤ 2 ^ 53) :
    parseFaces i (faces.map numberToString) = .ok faces := by
  rw [parseFaces_ok_iff, List.map_map]
  apply List.map_congr_left
  intro f hf
  exact (numberToString_spec f (hb f hf)).2

/-- The serialised faces of a die split back into the texts of the faces. -/
theorem jsSplit_serialized (faces : List Int) (hne : faces ≠ [])
    (hb : ∀ f, f ∈ faces → f.natAbs ≤ 2 ^ 53) :
    jsSplit ',' (String.mk (jsJoin ',' (faces.map numberToString))).toList =
      faces.map numberToString := by
  have e : (String.mk (jsJoin ',' (faces.map numberToString))).toList =
      jsJoin ',' (faces.map numberToString) := rfl
  rw [e]
  apply jsSplit_jsJoin
  · simpa using hne
  · intro t ht hmem
    obtain ⟨f, hf, rfl⟩ := List.mem_map.mp ht
    exact ((numberToString_spec f (hb f hf)).1 ',' hmem).2 rfl

/-- Dice named by their positions, of 6 faces up to `2 ^ 53` in absolute value, are parsed
back from their serialisation. -/
theorem parseEntries_serializeDice (dice : List Dice) :
    ∀ i, (∀ (k : Nat) (d : Dice), dice[k]? = some d →
        d.name = dieName (i + k) ∧ d.faces.length = 6 ∧
          ∀ f, f ∈ d.faces → f.natAbs ≤ 2 ^ 53) →
      parseEntries i (serializeDice dice) = .ok dice := by
  induction dice with
  | nil => intro i _; rfl
  | cons d rest ih =>
    intro i h
    obtain ⟨hname, h6, hb⟩ := h 0 d (by simp)
    have hne : d.faces ≠ [] := by
      intro e
      rw [e] at h6
      simp at h6
    have hrest := ih (i + 1) (fun k d2 hk => by
      have := h (k + 1) d2 (by simpa using hk)
      have e1 : i + 1 + k = i + (k + 1) := by omega
      rw [e1]
      exact this)
    have hser : serializeDice (d :: rest) =
        String.mk (jsJoin ',' (d.faces.map numberToString)) :: serializeDice rest := rfl
    rw [hser, parseEntries, jsSplit_serialized d.faces hne hb,
      parseFaces_numberToString i d.faces hb]
    simp only [h6, ne_eq, not_true_eq_false, if_false]
    rw [hrest]
    simp only [Except.ok.injEq, List.cons.injEq, and_true]
    rw [Nat.add_zero] at hname
    cases d
    simp only [Dice.mk.injEq, true_and]
    simp only at hname
    rw [hname, dieName]

/-- Different positions have different die names. -/
theorem dieName_injective (a b : Nat) (h : dieName a = dieName b) : a = b := by
  unfold dieName at h
  have h1 := congrArg String.data h
  rw [String.data_append, String.data_append] at h1
  have h2 : natToDecimal (a + 1) = natToDecimal (b + 1) := List.append_cancel_left h1
  have h3 := (parseIntValue_decimal (a + 1)).1
  rw [h2, (parseIntValue_decimal (b + 1)).1] at h3
  have := Option.some.inj h3
  omega

/-- The dice of a successful parse have distinct names. -/
theorem parse_names_nodup (input : ParseInput) (dice : List Dice)
    (h : DiceConfigParser.parse input = .ok dice) : (dice.map Dice.name).Nodup := by
  cases input with
  | notArray => simp [DiceConfigParser.parse] at h
  | array entries =>
    by_cases hlt : entries.length < 3
    · simp [DiceConfigParser.parse, hlt] at h
    · simp only [DiceConfigParser.parse, if_neg hlt] at h
      obtain ⟨hl, hall⟩ := parseEntries_ok entries 0 dice h
      rw [List.nodup_iff_getElem?_ne_getElem?]
      intro i j hij hj heq
      simp only [List.length_map] at hj
      have hi : i < dice.length := by omega
      rw [List.getElem?_map, List.getElem?_map, List.getElem?_eq_getElem hi,
        List.getElem?_eq_getElem hj] at heq
      simp only [Option.map_some', Option.some.injEq] at heq
      have h1 := (hall i entries[i] dice[i] (List.getElem?_eq_getElem (by omega))
        (List.getElem?_eq_getElem hi)).1
      have h2 := (hall j entries[j] dice[j] (List.getElem?_eq_getElem (by omega))
        (List.getElem?_eq_getElem hj)).1
      rw [h1, h2, Nat.zero_add, Nat.zero_add] at heq
      have := dieName_injective i j heq
      omega

/-! ## Lemmas on `calculateWinProbabilities` -/

/-- Reading a property after an assignment. -/
theorem objGet_objSet {α : Type} (obj : List (String × α)) (key key2 : String) (value : α) :
    objGet (objSet obj key value) key2 =
      if key = key2 then some value else objGet obj key2 := by
  induction obj with
  | nil => simp [objSet, objGet]
  | cons kv rest ih =>
    obtain ⟨k, v⟩ := kv
    unfold objSet
    by_cases hk : k = key
    · rw [if_pos hk]
      subst hk
      by_cases h2 : k = key2
      · simp [objGet, h2]
      · simp [objGet, h2]
    · rw [if_neg hk]
      by_cases h2 : k = key2
      · subst h2
        simp [objGet, Ne.symm hk]
      · simp only [objGet, if_neg h2]
        exact ih

/-- Assignments to other keys leave a property as it is. -/
theorem objGet_foldl_of_not_mem {α : Type} (kvs : List (String × α)) (key : String)
    (h : key ∉ kvs.map Prod.fst) :
    ∀ obj, objGet (kvs.foldl (fun o kv => objSet o kv.1 kv.2) obj) key = objGet obj key := by
  induction kvs with
  | nil => intro obj; rfl
  | cons kv rest ih =>
    intro obj
    simp only [List.map_cons, List.mem_cons, not_or] at h
    rw [List.foldl_cons, ih h.2, objGet_objSet, if_neg (Ne.symm h.1)]

/-- After assignments to distinct keys, a property holds the value assigned to it. -/
theorem objGet_objOfAssignments {α : Type} (kvs : List (String × α))
    (hnodup : (kvs.map Prod.fst).Nodup) (key : String) (value : α)
    (hmem : (key, value) ∈ kvs) : objGet (objOfAssignments kvs) key = some value := by
  unfold objOfAssignments
  generalize ([] : List (String × α)) = obj
  induction kvs generalizing obj with
  | nil => simp at hmem
  | cons kv rest ih =>
    simp only [List.map_cons, List.nodup_cons] at hnodup
    rw [List.foldl_cons]
    rcases List.mem_cons.mp hmem with h | h
    · subst h
      rw [objGet_foldl_of_not_mem rest key hnodup.1, objGet_objSet, if_pos rfl]
    · exact ih hnodup.2 h _

/-- The inner loop counts the faces of the second die below `face1` and all of them. -/
theorem compareFaces_inner (face1 : Int) (faces2 : List Int) :
    ∀ acc : Nat × Nat,
      faces2.foldl
          (fun acc2 face2 => (if face1 > face2 then acc2.1 + 1 else acc2.1, acc2.2 + 1)) acc =
        (acc.1 + faces2.countP (fun y => decide (face1 > y)), acc.2 + faces2.length) := by
  induction faces2 with
  | nil => intro acc; simp
  | cons y rest ih =>
    intro acc
    rw [List.foldl_cons, ih]
    by_cases h : face1 > y
    · simp only [h, if_true, List.countP_cons, decide_True, List.length_cons]
      ext
      · simp only; omega
      · simp only; omega
    · simp only [h, if_false, List.countP_cons, decide_False, List.length_cons]
      ext
      · simp
      · simp only; omega

/-- The pairs of a product, counted through the second component. -/
theorem countP_product (p : Int × Int → Bool) (faces1 faces2 : List Int) :
    (faces1.product faces2).countP p =
      (faces1.map (fun x => faces2.countP (fun y => p (x, y)))).sum := by
  induction faces1 with
  | nil => simp [List.product]
  | cons x rest ih =>
    have e : (x :: rest).product faces2 =
        List.map (fun b => (x, b)) faces2 ++ rest.product faces2 :=
      List.product_cons x rest faces2
    rw [e, List.countP_append, List.countP_map, ih]
    simp only [List.map_cons, List.sum_cons]
    rfl

/-- The two loops of `compareFaces` count the winning pairs and all the pairs. -/
theorem compareFaces_eq (faces1 faces2 : List Int) :
    compareFaces faces1 faces2 =
      (winsCount faces1 faces2, faces1.length * faces2.length) := by
  have key : ∀ acc : Nat × Nat,
      faces1.foldl
          (fun acc face1 =>
            faces2.foldl
              (fun acc2 face2 => (if face1 > face2 then acc2.1 + 1 else acc2.1, acc2.2 + 1))
              acc) acc =
        (acc.1 + (faces1.map (fun x => faces2.countP (fun y => decide (x > y)))).sum,
          acc.2 + faces1.length * faces2.length) := by
    induction faces1 with
    | nil => intro acc; simp
    | cons x rest ih =>
      intro acc
      rw [List.foldl_cons, compareFaces_inner, ih]
      simp only [List.map_cons, List.sum_cons, List.length_cons]
      ext
      · simp only; omega
      · simp only; rw [Nat.add_mul]; omega
  unfold compareFaces winsCount
  rw [key, countP_product]
  simp

/-- The entry of the matrix for two dice at different positions of a set with distinct
names is the entry computed for the first against the second. -/
theorem matrixGet_calculateWinProbabilities (dice : List Dice)
    (hnames : (dice.map Dice.name).Nodup) (i j : Nat) (a b : Dice)
    (hi : dice[i]? = some a) (hj : dice[j]? = some b) (hij : i ≠ j) :
    matrixGet (calculateWinProbabilities dice) a.name b.name = some (winEntry a b) := by
  have hkeys : (dice.enum.map (fun ia => (ia.2.name, winRow dice ia.1 ia.2))).map Prod.fst =
      dice.map Dice.name := by
    rw [List.map_map]
    have : (Prod.fst ∘ fun ia : Nat × Dice => (ia.2.name, winRow dice ia.1 ia.2)) =
        Dice.name ∘ Prod.snd := rfl
    rw [this, ← List.map_map, List.enum_map_snd]
  have hrow : objGet (calculateWinProbabilities dice) a.name = some (winRow dice i a) := by
    apply objGet_objOfAssignments _ (by rw [hkeys]; exact hnames)
    exact List.mem_map.mpr ⟨(i, a), List.mk_mem_enum_iff_getElem?.mpr hi, rfl⟩
  have hsub : ((dice.enum.filter (fun jb => decide (i ≠ jb.1))).map
      (fun jb => (jb.2.name, winEntry a jb.2))).map Prod.fst =
      (dice.enum.filter (fun jb => decide (i ≠ jb.1))).map (fun jb => jb.2.name) := by
    rw [List.map_map]
    rfl
  have hnd : ((dice.enum.filter (fun jb => decide (i ≠ jb.1))).map
      (fun jb => jb.2.name)).Nodup := by
    have h1 : ((dice.enum.filter (fun jb => decide (i ≠ jb.1))).map
        (fun jb => jb.2.name)).Sublist (dice.enum.map (fun jb => jb.2.name)) :=
      List.Sublist.map _ (List.filter_sublist _)
    have h2 : dice.enum.map (fun jb => jb.2.name) = dice.map Dice.name := by
      have : (fun jb : Nat × Dice => jb.2.name) = Dice.name ∘ Prod.snd := rfl
      rw [this, ← List.map_map, List.enum_map_snd]
    rw [h2] at h1
    exact List.Nodup.sublist h1 hnames
  have hentry : objGet (winRow dice i a) b.name = some (winEntry a b) := by
    apply objGet_objOfAssignments _ (by rw [hsub]; exact hnd)
    refine List.mem_map.mpr ⟨(j, b), ?_, rfl⟩
    rw [List.mem_filter]
    exact ⟨List.mk_mem_enum_iff_getElem?.mpr hj, by simpa using hij⟩
  unfold matrixGet
  rw [hrow]
  exact hentry

/-- Against one face, the faces of a die are below it, above it or equal to it. -/
theorem countP_trichotomy (x : Int) (faces : List Int) :
    faces.countP (fun y => decide (x > y)) + faces.countP (fun y => decide (y > x)) +
      faces.countP (fun y => decide (x = y)) = faces.length := by
  induction faces with
  | nil => simp
  | cons y rest ih =>
    rw [List.countP_cons, List.countP_cons, List.countP_cons, List.length_cons]
    simp only [decide_eq_true_eq]
    by_cases h1 : x > y
    · have h2 : ¬ y > x := by omega
      have h3 : ¬ x = y := by omega
      rw [if_pos h1, if_neg h2, if_neg h3]
      omega
    · by_cases h2 : y > x
      · have h3 : ¬ x = y := by omega
        rw [if_neg h1, if_pos h2, if_neg h3]
        omega
      · have h3 : x = y := by omega
        rw [if_neg h1, if_neg h2, if_pos h3]
        omega

/-- One more face in the second die adds, over the faces of the first, the count of that
face. -/
theorem sum_countP_cons (p : Int → Int → Bool) (y : Int) (faces1 faces2 : List Int) :
    (faces1.map (fun x => (y :: faces2).countP (fun z => p z x))).sum =
      (faces1.map (fun x => faces2.countP (fun z => p z x))).sum +
        faces1.countP (fun x => p y x) := by
  induction faces1 with
  | nil => simp
  | cons x rest ih =>
    simp only [List.map_cons, List.sum_cons, ih]
    rw [List.countP_cons (fun z => p z x), List.countP_cons (fun x => p y x)]
    omega

/-- Counting pairs through the first die or through the second gives the same number. -/
theorem sum_countP_comm (p : Int → Int → Bool) (faces1 faces2 : List Int) :
    (faces2.map (fun y => faces1.countP (fun x => p y x))).sum =
      (faces1.map (fun x => faces2.countP (fun y => p y x))).sum := by
  induction faces2 with
  | nil => simp
  | cons y rest ih =>
    rw [sum_countP_cons, List.map_cons, List.sum_cons, ih]
    omega

/-- Summed over the faces of the first die, the three counts make all the pairs. -/
theorem sum_countP_trichotomy (faces1 faces2 : List Int) :
    (faces1.map (fun x => faces2.countP (fun y => decide (x > y)))).sum +
      (faces1.map (fun x => faces2.countP (fun y => decide (y > x)))).sum +
      (faces1.map (fun x => faces2.countP (fun y => decide (x = y)))).sum =
      faces1.length * faces2.length := by
  induction faces1 with
  | nil => simp
  | cons x rest ih =>
    simp only [List.map_cons, List.sum_cons, List.length_cons]
    have := countP_trichotomy x faces2
    rw [Nat.add_mul, Nat.one_mul]
    omega

/-- Between two dice every pair of faces is a win of the first, a win of the second or a
tie. -/
theorem winsCount_add_winsCount_add_tiesCount (faces1 faces2 : List Int) :
    winsCount faces1 faces2 + winsCount faces2 faces1 + tiesCount faces1 faces2 =
      faces1.length * faces2.length := by
  have hswap : winsCount faces2 faces1 =
      (faces1.map (fun x => faces2.countP (fun y => decide (y > x)))).sum := by
    unfold winsCount
    rw [countP_product]
    exact sum_countP_comm (fun y x => decide (y > x)) faces1 faces2
  rw [hswap]
  unfold winsCount tiesCount
  rw [countP_product, countP_product]
  exact sum_countP_trichotomy faces1 faces2

/-! ## Claims on `generateSecureNumber` -/

/-- C1 (as amended): for integers `min < max` whose range `max - min + 1` is at most
`2 ^ 48`, `generateSecureNumber(min, max)` never throws, every value it returns lies in
`[min, max]` whatever bytes the source yields, and it does return such a value as soon as
the source yields an accepted draw (the draw `k` is accepted and at most `k + 1` draws are
allowed). -/
theorem generateSecureNumber_within_bounds (min max : Int) (hlt : min < max)
    (h48 : max - min + 1 ≤ 2 ^ 48) (src : Nat → Nat) (pos : Nat) :
    (∀ fuel, generateSecureNumber fuel min max src pos ≠ .threw) ∧
    (∀ fuel v p, generateSecureNumber fuel min max src pos = .returned (v, p) →
      min ≤ v ∧ v ≤ max) ∧
    (∀ k, accepted (max - min + 1).toNat (bytesNeeded (max - min + 1).toNat)
        (drawValue src (pos + k * bytesNeeded (max - min + 1).toNat)
          (bytesNeeded (max - min + 1).toNat)) = true →
      ∃ v p, generateSecureNumber (k + 1) min max src pos = .returned (v, p) ∧
        min ≤ v ∧ v ≤ max) := by
  have hpos : ¬ (max - min + 1 ≤ 0) := by omega
  have hw := bytesNeeded_bounds (max - min + 1).toNat (by omega) (by omega)
  have hbound : ∀ fuel v p, generateSecureNumber fuel min max src pos = .returned (v, p) →
      min ≤ v ∧ v ≤ max := by
    intro fuel v p h
    simp only [generateSecureNumber, if_neg hpos] at h
    have := loop_returned_bounds min _ _ src (by omega) fuel pos v p h
    omega
  refine ⟨fun fuel => ?_, hbound, fun k hk => ?_⟩
  · simp only [generateSecureNumber, if_neg hpos]
    exact loop_ne_threw min _ _ src hw.1 hw.2 fuel pos
  · obtain ⟨v, p, h⟩ := loop_returns_by min _ _ src hw.1 hw.2 k pos hk
    have h2 : generateSecureNumber (k + 1) min max src pos = .returned (v, p) := by
      simp only [generateSecureNumber, if_neg hpos]; exact h
    exact ⟨v, p, h2, hbound _ v p h2⟩

/-- C1, an instance: `generateSecureNumber(0, 5)` on a source whose first byte is 255
(rejected) and second byte 17 (accepted) returns a value in `[0, 5]`. -/
theorem generateSecureNumber_within_bounds_witness :
    ∃ v p, generateSecureNumber 2 0 5 (fun i => if i = 0 then 255 else 17) 0 = .returned (v, p) ∧
      (0 : Int) ≤ v ∧ v ≤ 5 :=
  (generateSecureNumber_within_bounds 0 5 (by decide) (by decide)
    (fun i => if i = 0 then 255 else 17) 0).2.2 1 (by decide)

/-- C1 as stated fails: on a source that yields the byte 255 for ever
`generateSecureNumber(0, 5)` rejects every draw (`255 ≥ 252`) and returns nothing,
however many draws are allowed; `generateSecureNumber(0, 0)` asks for a width of zero
bytes and `generateSecureNumber(0, 2 ^ 49 - 1)` for a width of seven, which `readUIntBE`
rejects, so both throw at the first draw. -/
theorem generateSecureNumber_not_always_returning :
    (¬ ∃ fuel v p, generateSecureNumber fuel 0 5 (fun _ => 255) 0 = .returned (v, p)) ∧
    generateSecureNumber 1 0 0 (fun _ => 0) 0 = .threw ∧
    generateSecureNumber 1 0 (2 ^ 49 - 1) (fun _ => 0) 0 = .threw := by
  refine ⟨?_, by decide, by decide⟩
  rintro ⟨fuel, v, p, h⟩
  have hw : bytesNeeded 6 = 1 := by decide
  have hrun := loop_all_rejected 0 6 1 (fun _ => 255) (by decide) (by decide)
    (fun pos => by simp [drawValue, randomBytes, accepted]) fuel 0
  have h2 : generateSecureNumber fuel 0 5 (fun _ => 255) 0 = .running := by
    simp only [generateSecureNumber]
    norm_num
    change generateSecureNumberLoop 0 6 (bytesNeeded 6) (fun _ => 255) fuel 0 = .running
    rw [hw]
    exact hrun
  rw [h2] at h
  exact Outcome.noConfusion h

/-- C2 (as amended): `generateSecureNumber` has no modulo bias. For `min` and `max` between
`-2 ^ 53` and `2 ^ 53` with a range from 2 to `2 ^ 48` and `w` the byte width used, the
first draw `r` returns `min + (r % range)` when it is accepted and nothing otherwise, the
double arithmetic of the range and of that sum is exact, and every value `v` of
`[min, max]` is the result `min + (r % range)` of exactly `floor(256 ^ w / range)` of the
accepted draws `r` in `[0, 256 ^ w)`. -/
theorem generateSecureNumber_no_modulo_bias (min max : Int)
    (h2 : 2 ≤ max - min + 1) (h48 : max - min + 1 ≤ 2 ^ 48)
    (hmin : -(2 ^ 53) ≤ min) (hmax : max ≤ 2 ^ 53) (v : Int) (hv : min ≤ v ∧ v ≤ max) :
    (∀ src pos,
      generateSecureNumber 1 min max src pos =
        if accepted (max - min + 1).toNat (bytesNeeded (max - min + 1).toNat)
            (drawValue src pos (bytesNeeded (max - min + 1).toNat)) = true then
          .returned (min + ((drawValue src pos (bytesNeeded (max - min + 1).toNat) %
            (max - min + 1).toNat : Nat) : Int), pos + bytesNeeded (max - min + 1).toNat)
        else .running) ∧
    (jsAdd (jsAdd max (-min)) 1 = max - min + 1 ∧
      ∀ r : Nat, jsAdd min ((r % (max - min + 1).toNat : Nat) : Int) =
        min + ((r % (max - min + 1).toNat : Nat) : Int)) ∧
    ((Finset.range (256 ^ bytesNeeded (max - min + 1).toNat)).filter
      (fun r => accepted (max - min + 1).toNat (bytesNeeded (max - min + 1).toNat) r = true ∧
        min + ((r % (max - min + 1).toNat : Nat) : Int) = v)).card =
      256 ^ bytesNeeded (max - min + 1).toNat / (max - min + 1).toNat := by
  have hc : (v - min).toNat < (max - min + 1).toNat := by omega
  refine ⟨fun src pos => ?_, ⟨?_, fun r => ?_⟩, ?_⟩
  · have hw := bytesNeeded_bounds (max - min + 1).toNat (by omega) (by omega)
    have hpos : ¬ (max - min + 1 ≤ 0) := by omega
    simp only [generateSecureNumber, if_neg hpos]
    rw [loop_succ min _ _ src hw.1 hw.2]
    rfl
  · rw [jsAdd_exact max (-min) (by omega), jsAdd_exact _ 1 (by omega)]
    ring
  · have hr : r % (max - min + 1).toNat < (max - min + 1).toNat :=
      Nat.mod_lt _ (by omega)
    exact jsAdd_exact _ _ (by omega)
  rw [← accepted_residue_card (max - min + 1).toNat (bytesNeeded (max - min + 1).toNat)
    (v - min).toNat hc]
  congr 1
  apply Finset.filter_congr
  intro r _
  constructor
  · rintro ⟨h1, h3⟩; exact ⟨h1, by omega⟩
  · rintro ⟨h1, h3⟩; exact ⟨h1, by omega⟩

/-- C2, an instance: of the 252 accepted single-byte draws for `generateSecureNumber(0, 5)`
exactly 42 give the value 3. -/
theorem generateSecureNumber_no_modulo_bias_witness :
    256 ^ bytesNeeded ((5 : Int) - 0 + 1).toNat / ((5 : Int) - 0 + 1).toNat = 42 ∧
    ((Finset.range (256 ^ bytesNeeded ((5 : Int) - 0 + 1).toNat)).filter
      (fun r => accepted ((5 : Int) - 0 + 1).toNat (bytesNeeded ((5 : Int) - 0 + 1).toNat) r = true ∧
        (0 : Int) + ((r % ((5 : Int) - 0 + 1).toNat : Nat) : Int) = 3)).card =
      256 ^ bytesNeeded ((5 : Int) - 0 + 1).toNat / ((5 : Int) - 0 + 1).toNat :=
  ⟨by decide,
    (generateSecureNumber_no_modulo_bias 0 5 (by decide) (by decide) (by decide) (by decide)
      3 (by decide)).2.2⟩

/-- C2 as stated fails: for the range `2 ^ 49` the byte width is 7 and the count
`floor(256 ^ 7 / 2 ^ 49)` is 128, but `generateSecureNumber(0, 2 ^ 49 - 1)` returns no
value on any draw of any source, since `readUIntBE` refuses the width; and from
`min = 2 ^ 53` on the double sum `min + (r % range)` is not exact: the residues 0 and 1
both give `2 ^ 53`. -/
theorem generateSecureNumber_count_fails_on_wide_range :
    256 ^ bytesNeeded (2 ^ 49) / 2 ^ 49 = 128 ∧
    (¬ ∃ (fuel : Nat) (src : Nat → Nat) (pos : Nat) (v : Int) (p : Nat),
      generateSecureNumber fuel 0 (2 ^ 49 - 1) src pos = .returned (v, p)) ∧
    jsAdd (2 ^ 53) 0 = 2 ^ 53 ∧ jsAdd (2 ^ 53) 1 = 2 ^ 53 := by
  refine ⟨by decide, ?_, by decide, by decide⟩
  rintro ⟨fuel, src, pos, v, p, h⟩
  have hw : bytesNeeded (2 ^ 49) = 7 := by decide
  have e : generateSecureNumber fuel 0 (2 ^ 49 - 1) src pos =
      generateSecureNumberLoop 0 (2 ^ 49) (bytesNeeded (2 ^ 49)) src fuel pos := rfl
  rw [e, hw] at h
  cases fuel with
  | zero => exact Outcome.noConfusion h
  | succ fuel =>
    rw [loop_threw_of_wide 0 _ 7 _ (by decide)] at h
    exact Outcome.noConfusion h

/-! ## Claims on `generateFairRoll` -/

/-- C3 (as amended): neither party alone can bias the combined value. For every modulus
`m` from 1 to `2 ^ 52` and every fixed `u` in `[0, m)` the map
`c ↦ generateFairRoll(u, c, m)` is a bijection of `{0, ..., m - 1}` onto itself, and for
every fixed `c` in `[0, m)` so is the map `u ↦ generateFairRoll(u, c, m)`. -/
theorem generateFairRoll_bijective (m : Int) (hm : 1 ≤ m) (hb : m ≤ 2 ^ 52) :
    (∀ u, u ∈ Set.Ico 0 m →
      Set.BijOn (fun c => generateFairRoll u c m) (Set.Ico 0 m) (Set.Ico 0 m)) ∧
    (∀ c, c ∈ Set.Ico 0 m →
      Set.BijOn (fun u => generateFairRoll u c m) (Set.Ico 0 m) (Set.Ico 0 m)) := by
  have hm0 : 0 < m := by omega
  have key : ∀ a, a ∈ Set.Ico 0 m →
      Set.BijOn (fun b => (a + b) % m) (Set.Ico 0 m) (Set.Ico 0 m) := by
    intro a ha
    refine ⟨fun b _ => ⟨Int.emod_nonneg _ (by omega), Int.emod_lt_of_pos _ hm0⟩, ?_, ?_⟩
    · intro b1 hb1 b2 hb2 heq
      simp only at heq
      have hdvd : m ∣ (a + b1) - (a + b2) :=
        Int.dvd_of_emod_eq_zero (Int.emod_eq_emod_iff_emod_sub_eq_zero.mp heq)
      have hsub : (a + b1) - (a + b2) = b1 - b2 := by ring
      rw [hsub] at hdvd
      have habs : |b1 - b2| < m := by
        have h1 := hb1.1
        have h2 := hb1.2
        have h3 := hb2.1
        have h4 := hb2.2
        rw [abs_lt]
        constructor <;> omega
      have := Int.eq_zero_of_abs_lt_dvd hdvd habs
      omega
    · intro y hy
      refine ⟨(y - a) % m, ⟨Int.emod_nonneg _ (by omega), Int.emod_lt_of_pos _ hm0⟩, ?_⟩
      simp only
      rw [Int.add_emod, Int.emod_emod_of_dvd _ (dvd_refl m), ← Int.add_emod]
      have : a + (y - a) = y := by ring
      rw [this]
      exact Int.emod_eq_of_lt hy.1 hy.2
  constructor
  · intro u hu
    have hfun : Set.EqOn (fun c => generateFairRoll u c m) (fun b => (u + b) % m) (Set.Ico 0 m) :=
      fun c hc => generateFairRoll_of_nonneg u c m (by have := hu.1; have := hc.1; omega)
        (by have := hu.2; have := hc.2; omega) (by omega)
    exact (Set.BijOn.congr (key u hu) hfun.symm)
  · intro c hc
    have hfun : Set.EqOn (fun u => generateFairRoll u c m) (fun b => (c + b) % m) (Set.Ico 0 m) :=
      fun u hu => by
        simp only
        rw [generateFairRoll_of_nonneg u c m (by have := hu.1; have := hc.1; omega)
          (by have := hu.2; have := hc.2; omega) (by omega), add_comm]
    exact (Set.BijOn.congr (key c hc) hfun.symm)

/-- C3, at the two moduli in use: 2 for the first player and 6 for the rolls. -/
theorem generateFairRoll_bijective_witness :
    ((∀ u, u ∈ Set.Ico 0 2 →
        Set.BijOn (fun c => generateFairRoll u c 2) (Set.Ico 0 2) (Set.Ico 0 2)) ∧
      (∀ c, c ∈ Set.Ico 0 2 →
        Set.BijOn (fun u => generateFairRoll u c 2) (Set.Ico 0 2) (Set.Ico 0 2))) ∧
    ((∀ u, u ∈ Set.Ico 0 6 →
        Set.BijOn (fun c => generateFairRoll u c 6) (Set.Ico 0 6) (Set.Ico 0 6)) ∧
      (∀ c, c ∈ Set.Ico 0 6 →
        Set.BijOn (fun u => generateFairRoll u c 6) (Set.Ico 0 6) (Set.Ico 0 6))) :=
  ⟨generateFairRoll_bijective 2 (by decide) (by decide),
    generateFairRoll_bijective 6 (by decide) (by decide)⟩

/-- C3 as stated fails: for the modulus `2 ^ 53 + 2` and the user number `2 ^ 53` the
committed numbers 0 and 1 both give `2 ^ 53`, because the double sum `2 ^ 53 + 1` is
`2 ^ 53`; the map `c ↦ generateFairRoll(u, c, m)` is not injective there, so it is not a
bijection. -/
theorem generateFairRoll_collides_above_two_pow_53 :
    generateFairRoll (2 ^ 53) 0 (2 ^ 53 + 2) = 2 ^ 53 ∧
    generateFairRoll (2 ^ 53) 1 (2 ^ 53 + 2) = 2 ^ 53 ∧
    (2 ^ 53 : Int) ∈ Set.Ico (0 : Int) (2 ^ 53 + 2) ∧
    ¬ Set.BijOn (fun c => generateFairRoll (2 ^ 53) c (2 ^ 53 + 2))
      (Set.Ico 0 (2 ^ 53 + 2)) (Set.Ico 0 (2 ^ 53 + 2)) := by
  refine ⟨by decide, by decide, ⟨by decide, by decide⟩, ?_⟩
  intro hbij
  have h01 : (0 : Int) = 1 :=
    hbij.injOn (⟨by decide, by decide⟩ : (0 : Int) ∈ Set.Ico (0 : Int) (2 ^ 53 + 2))
      (⟨by decide, by decide⟩ : (1 : Int) ∈ Set.Ico (0 : Int) (2 ^ 53 + 2)) (by decide)
  exact absurd h01 (by decide)

/-- C4, the code at the failing input: with the user number -1 and the committed number 0
`generateFairRoll` gives -1 modulo 2, which is not in `[0, 2)`, because the remainder of
JavaScript keeps the sign of the sum; the completion route, which checks no user number,
answers this request with status 200, the result -1 and the computer as first player. -/
theorem generateFairRoll_negative_sum :
    generateFairRoll (-1) 0 2 = -1 ∧ ¬ (0 ≤ generateFairRoll (-1) 0 2) ∧
    completeFirstPlayerRoute (fun k m => k ++ m)
        { userNumber := -1, hmac := "k0", key := "k", computerNumber := 0 } =
      { status := 200,
        body := [("firstPlayer", JVal.str "computer"), ("userNumber", JVal.num (-1)),
                 ("computerNumber", JVal.num 0), ("result", JVal.num (-1)),
                 ("verified", JVal.bool true)] } := by
  refine ⟨by decide, by decide, by decide⟩

/-! ## Claims on the commitments -/

/-- C5: first-player completion accepts, answering with a `firstPlayer` and
`verified: true`, if and only if `calculateHMAC(computerNumber, key)` equals the supplied
`hmac`; on a mismatch, also when only the digest was changed, the whole answer is status
400 with the single field `error: HMAC verification failed`, so no `result` and no
`firstPlayer` are computed. -/
theorem completeFirstPlayerRoute_accepts_iff (hmac : String → String → String)
    (req : CompleteRequest) :
    (((completeFirstPlayerRoute hmac req).status = 200 ∧
        ("verified", JVal.bool true) ∈ (completeFirstPlayerRoute hmac req).body ∧
        ∃ fp, ("firstPlayer", JVal.str fp) ∈ (completeFirstPlayerRoute hmac req).body) ↔
      calculateHMAC hmac req.computerNumber req.key = req.hmac) ∧
    (calculateHMAC hmac req.computerNumber req.key ≠ req.hmac →
      completeFirstPlayerRoute hmac req =
        { status := 400, body := [("error", JVal.str "HMAC verification failed")] }) ∧
    (∀ digest, digest ≠ calculateHMAC hmac req.computerNumber req.key →
      completeFirstPlayerRoute hmac { req with hmac := digest } =
        { status := 400, body := [("error", JVal.str "HMAC verification failed")] }) := by
  refine ⟨?_, ?_, ?_⟩
  · by_cases h : calculateHMAC hmac req.computerNumber req.key = req.hmac
    · simp [completeFirstPlayerRoute, h]
    · simp [completeFirstPlayerRoute, h]
  · intro h
    simp [completeFirstPlayerRoute, h]
  · intro digest h
    simp [completeFirstPlayerRoute, Ne.symm h]

/-- C5, an instance with the toy digest `key ++ message`: the commitment of the number 1
under the key `k` is accepted with the user number 1 (result 0, the player starts), and
the same request with another digest is refused. -/
theorem completeFirstPlayerRoute_accepts_iff_witness :
    completeFirstPlayerRoute (fun k m => k ++ m)
        { userNumber := 1, hmac := "k1", key := "k", computerNumber := 1 } =
      { status := 200,
        body := [("firstPlayer", JVal.str "player"), ("userNumber", JVal.num 1),
                 ("computerNumber", JVal.num 1), ("result", JVal.num 0),
                 ("verified", JVal.bool true)] } ∧
    completeFirstPlayerRoute (fun k m => k ++ m)
        { userNumber := 1, hmac := "k0", key := "k", computerNumber := 1 } =
      { status := 400, body := [("error", JVal.str "HMAC verification failed")] } :=
  ⟨by decide,
    (completeFirstPlayerRoute_accepts_iff (fun k m => k ++ m)
      { userNumber := 1, hmac := "k0", key := "k", computerNumber := 1 }).2.1 (by decide)⟩

/-- C7: every digest the engine issues is the HMAC of the decimal string of the committed
value under the returned key. In a result of `playRound`,
`playerHmac = calculateHMAC(playerComputerNumber, playerKey)` and
`computerHmac = calculateHMAC(computerComputerNumber, computerKey)`, and each is the
value of the HMAC function at the returned key and the decimal digits of the committed
number, a number from 0 to 5; in a result of `determineFirstPlayer`,
`hmac = calculateHMAC(computerNumber, key)`, the value of the HMAC function at the key and
the decimal digits of the committed number, 0 or 1, and the completion route then
verifies it for every user number; `calculateHMAC` is the HMAC function at the key and
the text of the number. Results are issued: `determineFirstPlayer` returns at its first
draw, and `playRound` returns on valid die indices whenever the source keeps yielding
accepted bytes. -/
theorem issued_digests_verify (hmac : String → String → String) :
    (∀ fuel dice pi ci u src pos res p,
      playRound hmac fuel dice pi ci u src pos = .returned (res, p) →
        res.playerHmac = calculateHMAC hmac res.playerComputerNumber res.playerKey ∧
        res.computerHmac = calculateHMAC hmac res.computerComputerNumber res.computerKey ∧
        (∃ n : Nat, n ≤ 5 ∧ res.playerComputerNumber = (n : Int) ∧
          res.playerHmac = hmac res.playerKey (String.mk (natToDecimal n))) ∧
        (∃ n : Nat, n ≤ 5 ∧ res.computerComputerNumber = (n : Int) ∧
          res.computerHmac = hmac res.computerKey (String.mk (natToDecimal n)))) ∧
    (∀ fuel src pos d p, determineFirstPlayer hmac fuel src pos = .returned (d, p) →
      d.hmac = calculateHMAC hmac d.computerNumber d.key ∧
      (∃ n : Nat, n ≤ 1 ∧ d.computerNumber = (n : Int) ∧
        d.hmac = hmac d.key (String.mk (natToDecimal n))) ∧
      ∀ u, (completeFirstPlayerRoute hmac
        { userNumber := u, hmac := d.hmac, key := d.key,
          computerNumber := d.computerNumber }).status = 200) ∧
    ((∀ (message : Int) (key : String),
        calculateHMAC hmac message key = hmac key (String.mk (numberToString message))) ∧
      (List.range 6).map (fun n => String.mk (natToDecimal n)) =
        ["0", "1", "2", "3", "4", "5"]) ∧
    (∀ fuel src pos, ∃ d p, determineFirstPlayer hmac (fuel + 1) src pos = .returned (d, p)) ∧
    (∀ dice pi ci u pd cd src pos, jsIndex dice pi = some pd → jsIndex dice ci = some cd →
      (∀ q, ∃ k, src (q + k) % 256 < 252) →
      ∃ fuel res p, playRound hmac fuel dice pi ci u src pos = .returned (res, p)) := by
  refine ⟨?_, ?_, ⟨fun _ _ => rfl, by decide⟩, ?_, ?_⟩
  · intro fuel dice pi ci u src pos res p h
    obtain ⟨pn, p2, cn, pd, cd, hg1, hg2, -, -, hres⟩ :=
      (playRound_returned_iff hmac fuel dice pi ci u src pos res p).mp h
    have hpn := generateSecureNumber_zero_five_bounds src fuel _ pn p2 hg1
    have hcn := generateSecureNumber_zero_five_bounds src fuel _ cn p hg2
    have epn : pn = ((pn.toNat : Nat) : Int) := by omega
    have ecn : cn = ((cn.toNat : Nat) : Int) := by omega
    subst hres
    refine ⟨rfl, rfl, ⟨pn.toNat, by omega, epn, ?_⟩, ⟨cn.toNat, by omega, ecn, ?_⟩⟩
    · simp only [roundResultOf]
      rw [← calculateHMAC_of_nat hmac pn.toNat (by omega), ← epn]
    · simp only [roundResultOf]
      rw [← calculateHMAC_of_nat hmac cn.toNat (by omega), ← ecn]
  · intro fuel src pos d p h
    obtain ⟨n, hn, hd⟩ := (determineFirstPlayer_returned_iff hmac fuel src pos d p).mp h
    have hb := generateSecureNumber_zero_one_bounds src fuel _ n p hn
    have en : n = ((n.toNat : Nat) : Int) := by omega
    subst hd
    refine ⟨rfl, ⟨n.toNat, by omega, en, ?_⟩, fun u => ?_⟩
    · simp only
      rw [← calculateHMAC_of_nat hmac n.toNat (by omega), ← en]
    · simp [completeFirstPlayerRoute]
  · intro fuel src pos
    obtain ⟨v, hv, -⟩ := generateSecureNumber_zero_one_returns src fuel (pos + 32)
    exact ⟨_, _, (determineFirstPlayer_returned_iff hmac _ src pos _ _).mpr ⟨v, hv, rfl⟩⟩
  · intro dice pi ci u pd cd src pos hpd hcd hsrc
    exact playRound_returns hmac dice pi ci u pd cd hpd hcd src hsrc pos

/-- C7, an instance with the toy digest `key ++ message` on a source that yields the byte
17 throughout: the round is issued, both committed numbers are 5, and both of its digests
are the returned keys followed by the digit `5`. -/
theorem issued_digests_verify_witness :
    ∃ res p, playRound (fun k m => k ++ m) 1 exampleDice 0 1 3 (fun _ => 17) 0 =
        .returned (res, p) ∧
      (res.playerComputerNumber = 5 ∧ res.playerHmac = res.playerKey ++ "5") ∧
      res.playerHmac = calculateHMAC (fun k m => k ++ m) res.playerComputerNumber res.playerKey ∧
      res.computerHmac =
        calculateHMAC (fun k m => k ++ m) res.computerComputerNumber res.computerKey :=
  ⟨_, _, rfl, ⟨by decide, by decide⟩,
    ((issued_digests_verify (fun k m => k ++ m)).1 1 exampleDice 0 1 3 (fun _ => 17) 0 _ _
      rfl).1,
    ((issued_digests_verify (fun k m => k ++ m)).1 1 exampleDice 0 1 3 (fun _ => 17) 0 _ _
      rfl).2.1⟩

/-- C8, the code at the failing input: on a source that yields the byte 17 throughout, the
response of the first-player route, sent before any user number, has the fields `hmac`,
`key` and `computerNumber` and so discloses the key and the committed number 1 together
with the digest, where the claim has the digest only; and the body of the round played on
the same source discloses the keys and the committed numbers in the same step as the two
digests. -/
theorem firstPlayerRoute_discloses_key_and_number :
    (firstPlayerRoute (fun k m => k ++ m) 1 (fun _ => 17) 0).map Response.fields =
        .returned ["hmac", "key", "computerNumber"] ∧
    (firstPlayerRoute (fun k m => k ++ m) 1 (fun _ => 17) 0).map
        (fun r => r.body.lookup "computerNumber") = .returned (some (JVal.num 1)) ∧
    (playRound (fun k m => k ++ m) 1 exampleDice 0 1 3 (fun _ => 17) 0).map
        (fun x => x.1.toBody.map Prod.fst) =
      .returned ["playerDice", "computerDice", "playerRoll", "computerRoll", "winner",
        "playerKey", "computerKey", "playerComputerNumber", "computerComputerNumber",
        "playerHmac", "computerHmac", "userNumber"] := by
  decide

/-- C9: in `playRound` the commitments do not depend on the user number. For the same
draws of the random source (same source, same cursor, same bound on the draws), the
committed numbers, the keys and the digests of the result are identical for every two
user numbers, and whether the call returns, throws or is still drawing is the same too. -/
theorem playRound_commitments_independent (hmac : String → String → String) (fuel : Nat)
    (dice : List Dice) (pi ci u1 u2 : Int) (src : Nat → Nat) (pos : Nat) :
    (playRound hmac fuel dice pi ci u1 src pos).map (fun x => (x.1.commitments, x.2)) =
      (playRound hmac fuel dice pi ci u2 src pos).map (fun x => (x.1.commitments, x.2)) := by
  unfold playRound generateSecureKey
  simp only
  split
  · rfl
  · rfl
  · split
    · rfl
    · rfl
    · split
      · rfl
      · rfl

/-- C9, an instance: on the same draws the user numbers 0 and 5 leave the commitments of
the round the same, and the round with the user number 0 is returned. -/
theorem playRound_commitments_independent_witness :
    (playRound (fun k m => k ++ m) 1 exampleDice 0 1 0 (fun _ => 17) 0).map
        (fun x => (x.1.commitments, x.2)) =
      (playRound (fun k m => k ++ m) 1 exampleDice 0 1 5 (fun _ => 17) 0).map
        (fun x => (x.1.commitments, x.2)) ∧
    (playRound (fun k m => k ++ m) 1 exampleDice 0 1 0 (fun _ => 17) 0).map
        (fun x => x.1.playerComputerNumber) = .returned 5 :=
  ⟨playRound_commitments_independent (fun k m => k ++ m) 1 exampleDice 0 1 0 5
    (fun _ => 17) 0, by decide⟩

/-! ## Claims on the rolls of `playRound` -/

/-- C10: for a set of 6-faced dice, die indices inside the set and a user number in
`0..5`, every result of `playRound` has committed numbers `p` and `c` in `0..5`,
`playerRoll = playerDice.faces[(userNumber + p) mod 6]` and
`computerRoll = computerDice.faces[(0 + c) mod 6]` with both indices in `0..5`, so each roll
is a face of its die; `playRound` does return on a source that keeps yielding accepted
bytes; and two runs with the same inputs and the same committed numbers give the same
rolls and the same winner, whatever else the source yielded. -/
theorem playRound_rolls (hmac : String → String → String) (dice : List Dice)
    (pi ci u : Int) (h6 : ∀ d, d ∈ dice → d.faces.length = 6)
    (hpi : 0 ≤ pi ∧ pi < dice.length) (hci : 0 ≤ ci ∧ ci < dice.length)
    (hu : 0 ≤ u ∧ u ≤ 5) :
    (∀ fuel src pos res p, playRound hmac fuel dice pi ci u src pos = .returned (res, p) →
      (0 ≤ res.playerComputerNumber ∧ res.playerComputerNumber ≤ 5) ∧
      (0 ≤ res.computerComputerNumber ∧ res.computerComputerNumber ≤ 5) ∧
      jsIndex dice pi = some res.playerDice ∧ jsIndex dice ci = some res.computerDice ∧
      res.playerRoll = jsIndex res.playerDice.faces ((u + res.playerComputerNumber) % 6) ∧
      res.computerRoll =
        jsIndex res.computerDice.faces ((0 + res.computerComputerNumber) % 6) ∧
      (0 ≤ (u + res.playerComputerNumber) % 6 ∧ (u + res.playerComputerNumber) % 6 ≤ 5) ∧
      (0 ≤ (0 + res.computerComputerNumber) % 6 ∧
        (0 + res.computerComputerNumber) % 6 ≤ 5) ∧
      (∃ f, f ∈ res.playerDice.faces ∧ res.playerRoll = some f) ∧
      (∃ f, f ∈ res.computerDice.faces ∧ res.computerRoll = some f) ∧
      res.winner = winnerOf res.playerRoll res.computerRoll) ∧
    (∀ src pos, (∀ q, ∃ k, src (q + k) % 256 < 252) →
      ∃ fuel res p, playRound hmac fuel dice pi ci u src pos = .returned (res, p)) ∧
    (∀ fuel1 src1 pos1 res1 p1 fuel2 src2 pos2 res2 p2,
      playRound hmac fuel1 dice pi ci u src1 pos1 = .returned (res1, p1) →
      playRound hmac fuel2 dice pi ci u src2 pos2 = .returned (res2, p2) →
      res1.playerComputerNumber = res2.playerComputerNumber →
      res1.computerComputerNumber = res2.computerComputerNumber →
      res1.playerRoll = res2.playerRoll ∧ res1.computerRoll = res2.computerRoll ∧
        res1.winner = res2.winner) := by
  refine ⟨?_, ?_, ?_⟩
  · intro fuel src pos res p h
    obtain ⟨pn, p2, cn, pd, cd, h1, h2, hpd, hcd, hres⟩ :=
      (playRound_returned_iff hmac fuel dice pi ci u src pos res p).mp h
    have hpn := generateSecureNumber_zero_five_bounds src fuel _ pn p2 h1
    have hcn := generateSecureNumber_zero_five_bounds src fuel _ cn p h2
    have hp6 := h6 pd (jsIndex_mem _ _ _ hpd)
    have hc6 := h6 cd (jsIndex_mem _ _ _ hcd)
    obtain ⟨r1, r2, r3, r4⟩ := roll_six_faces pd hp6 u pn (by omega) (by omega)
    obtain ⟨s1, s2, s3, s4⟩ := roll_six_faces cd hc6 0 cn (by omega) (by omega)
    subst hres
    exact ⟨hpn, hcn, hpd, hcd, r1, s1, ⟨r2, r3⟩, ⟨s2, s3⟩, r4, s4, rfl⟩
  · intro src pos hsrc
    obtain ⟨pd, hpd⟩ := jsIndex_isSome dice pi hpi.1 hpi.2
    obtain ⟨cd, hcd⟩ := jsIndex_isSome dice ci hci.1 hci.2
    exact playRound_returns hmac dice pi ci u pd cd hpd hcd src hsrc pos
  · intro fuel1 src1 pos1 res1 p1 fuel2 src2 pos2 res2 p2 h1 h2 hp hc
    obtain ⟨pn, q2, cn, pd, cd, -, -, hpd, hcd, hres⟩ :=
      (playRound_returned_iff hmac fuel1 dice pi ci u src1 pos1 res1 p1).mp h1
    obtain ⟨pn2, q3, cn2, pd2, cd2, -, -, hpd2, hcd2, hres2⟩ :=
      (playRound_returned_iff hmac fuel2 dice pi ci u src2 pos2 res2 p2).mp h2
    subst hres hres2
    simp only [roundResultOf] at hp hc ⊢
    subst hp hc
    rw [hpd] at hpd2
    rw [hcd] at hcd2
    cases hpd2
    cases hcd2
    exact ⟨rfl, rfl, rfl⟩

/-- C10, an instance: with the example dice, the player on die 0, the computer on die 1,
the user number 3 and a source that yields the byte 17 throughout (committed numbers 5
and 5), the player rolls face index 2 and the computer face index 5. -/
theorem playRound_rolls_witness :
    ∃ res p, playRound (fun k m => k ++ m) 1 exampleDice 0 1 3 (fun _ => 17) 0 =
        .returned (res, p) ∧
      res.playerRoll = jsIndex res.playerDice.faces ((3 + res.playerComputerNumber) % 6) ∧
      res.playerRoll = some 4 ∧ res.computerRoll = some 6 ∧ res.winner = "computer" :=
  ⟨_, _, rfl,
    ((playRound_rolls (fun k m => k ++ m) exampleDice 0 1 3 (by decide) (by decide)
      (by decide) (by decide)).1 1 (fun _ => 17) 0 _ _ rfl).2.2.2.2.1,
    by decide, by decide, by decide⟩

/-! ## Claims on the winner and on the roll of the computer -/

/-- The winner of `playRound` on integer rolls: `winnerOf` of two integers is `player`
exactly when the first is greater, `computer` exactly when the second is greater and `tie`
exactly when they are equal, one and only one of the three tags; and on dice of 6 faces
and a user number in `0..5` the two rolls of every result are integers, so its winner is
decided that way. -/
theorem playRound_winner (hmac : String → String → String) (dice : List Dice)
    (pi ci u : Int) (h6 : ∀ d, d ∈ dice → d.faces.length = 6) (hu : 0 ≤ u ∧ u ≤ 5) :
    (∀ a b : Int,
      (winnerOf (some a) (some b) = "player" ↔ a > b) ∧
      (winnerOf (some a) (some b) = "computer" ↔ b > a) ∧
      (winnerOf (some a) (some b) = "tie" ↔ a = b) ∧
      (winnerOf (some a) (some b) = "player" ∨ winnerOf (some a) (some b) = "computer" ∨
        winnerOf (some a) (some b) = "tie")) ∧
    (∀ fuel src pos res p, playRound hmac fuel dice pi ci u src pos = .returned (res, p) →
      ∃ a b, res.playerRoll = some a ∧ res.computerRoll = some b ∧
        res.winner = winnerOf (some a) (some b) ∧
        (res.winner = "player" ↔ a > b) ∧ (res.winner = "computer" ↔ b > a) ∧
        (res.winner = "tie" ↔ a = b)) := by
  constructor
  · intro a b
    obtain ⟨h1, h2, h3⟩ := winnerOf_integers a b
    refine ⟨h1, h2, h3, ?_⟩
    rcases lt_trichotomy a b with h | h | h
    · exact Or.inr (Or.inl (h2.mpr h))
    · exact Or.inr (Or.inr (h3.mpr h))
    · exact Or.inl (h1.mpr h)
  · intro fuel src pos res p h
    obtain ⟨pn, p2, cn, pd, cd, hg1, hg2, hpd, hcd, hres⟩ :=
      (playRound_returned_iff hmac fuel dice pi ci u src pos res p).mp h
    have hpn := generateSecureNumber_zero_five_bounds src fuel _ pn p2 hg1
    have hcn := generateSecureNumber_zero_five_bounds src fuel _ cn p hg2
    obtain ⟨-, -, -, a, -, ha⟩ :=
      roll_six_faces pd (h6 pd (jsIndex_mem _ _ _ hpd)) u pn (by omega) (by omega)
    obtain ⟨-, -, -, b, -, hb⟩ :=
      roll_six_faces cd (h6 cd (jsIndex_mem _ _ _ hcd)) 0 cn (by omega) (by omega)
    have hw : res.winner = winnerOf (some a) (some b) := by
      subst hres
      simp only [roundResultOf]
      rw [ha, hb]
    obtain ⟨h1, h2, h3⟩ := winnerOf_integers a b
    refine ⟨a, b, ?_, ?_, hw, ?_, ?_, ?_⟩
    · subst hres; exact ha
    · subst hres; exact hb
    · rw [hw]; exact h1
    · rw [hw]; exact h2
    · rw [hw]; exact h3

/-- C11, the code at the failing input: with the example dice, the player on die 0, the
computer on die 1, the user number -1 and a source of zero bytes, the committed numbers
are 0, the face index of the player is `(-1 + 0) % 6 = -1`, the roll of the player is
`undefined`, the roll of the computer is 6, and the winner is `tie` although the two
rolls are not equal: both comparisons with `undefined` are false. -/
theorem playRound_tie_on_undefined_roll :
    generateFairRoll (-1) 0 6 = -1 ∧
    (playRound (fun k m => k ++ m) 1 exampleDice 0 1 (-1) (fun _ => 0) 0).map
        (fun x => (x.1.playerComputerNumber, x.1.playerRoll, x.1.computerRoll, x.1.winner)) =
      .returned (0, none, some 6, "tie") := by
  refine ⟨by decide, by decide⟩

/-- C12: the roll of the computer uses the fixed counterparty value 0. In every result
of `playRound` it is `computerDice.roll(generateFairRoll(0, computerComputerNumber, 6))`,
the face `computerDice.faces[computerComputerNumber mod 6]` on a die of 6 faces; on the
same draws it is the same for any two user numbers; and two runs on the same dice and
computer die index with the same committed number give the same roll of the computer
whatever the user numbers, the player die indices and the rest of the draws are. -/
theorem computerRoll_independent_of_userNumber (hmac : String → String → String) :
    (∀ fuel dice pi ci u src pos res p,
      playRound hmac fuel dice pi ci u src pos = .returned (res, p) →
        res.computerRoll =
          res.computerDice.roll (generateFairRoll 0 res.computerComputerNumber 6) ∧
        (res.computerDice.faces.length = 6 →
          res.computerRoll =
            jsIndex res.computerDice.faces (res.computerComputerNumber % 6))) ∧
    (∀ fuel dice pi ci u1 u2 src pos,
      (playRound hmac fuel dice pi ci u1 src pos).map (fun x => x.1.computerRoll) =
        (playRound hmac fuel dice pi ci u2 src pos).map (fun x => x.1.computerRoll)) ∧
    (∀ dice ci fuel1 pi1 u1 src1 pos1 res1 p1 fuel2 pi2 u2 src2 pos2 res2 p2,
      playRound hmac fuel1 dice pi1 ci u1 src1 pos1 = .returned (res1, p1) →
      playRound hmac fuel2 dice pi2 ci u2 src2 pos2 = .returned (res2, p2) →
      res1.computerComputerNumber = res2.computerComputerNumber →
      res1.computerRoll = res2.computerRoll) := by
  refine ⟨?_, ?_, ?_⟩
  · intro fuel dice pi ci u src pos res p h
    obtain ⟨pn, p2, cn, pd, cd, -, hg2, -, -, hres⟩ :=
      (playRound_returned_iff hmac fuel dice pi ci u src pos res p).mp h
    have hcn := generateSecureNumber_zero_five_bounds src fuel _ cn p hg2
    subst hres
    refine ⟨rfl, fun hlen => ?_⟩
    have := (roll_six_faces cd hlen 0 cn (by omega) (by omega)).1
    simpa [roundResultOf] using this
  · intro fuel dice pi ci u1 u2 src pos
    unfold playRound generateSecureKey
    simp only
    split
    · rfl
    · rfl
    · split
      · rfl
      · rfl
      · split
        · rfl
        · rfl
  · intro dice ci fuel1 pi1 u1 src1 pos1 res1 p1 fuel2 pi2 u2 src2 pos2 res2 p2 h1 h2 hc
    obtain ⟨pn, q2, cn, pd, cd, -, -, -, hcd, hres⟩ :=
      (playRound_returned_iff hmac fuel1 dice pi1 ci u1 src1 pos1 res1 p1).mp h1
    obtain ⟨pn2, q3, cn2, pd2, cd2, -, -, -, hcd2, hres2⟩ :=
      (playRound_returned_iff hmac fuel2 dice pi2 ci u2 src2 pos2 res2 p2).mp h2
    subst hres hres2
    simp only [roundResultOf] at hc ⊢
    subst hc
    rw [hcd] at hcd2
    cases hcd2
    rfl

/-- C12, an instance: on the byte 17 throughout the computer rolls the face 6 of die 1
with the user number 0 as with the user number 5. -/
theorem computerRoll_independent_of_userNumber_witness :
    (playRound (fun k m => k ++ m) 1 exampleDice 0 1 0 (fun _ => 17) 0).map
        (fun x => x.1.computerRoll) =
      (playRound (fun k m => k ++ m) 1 exampleDice 0 1 5 (fun _ => 17) 0).map
        (fun x => x.1.computerRoll) ∧
    (playRound (fun k m => k ++ m) 1 exampleDice 0 1 0 (fun _ => 17) 0).map
        (fun x => x.1.computerRoll) = .returned (some 6) :=
  ⟨(computerRoll_independent_of_userNumber (fun k m => k ++ m)).2.1 1 exampleDice 0 1 0 5
    (fun _ => 17) 0, by decide⟩

/-! ## Claims on `DiceConfigParser.parse` -/

/-- C13: `DiceConfigParser.parse` fails on an input that is not an array and on every
array of fewer than 3 entries, with the error `At least 3 dice configurations required`
and no dice. -/
theorem parse_requires_three_entries :
    DiceConfigParser.parse .notArray = .error "At least 3 dice configurations required" ∧
    (∀ entries : List String, entries.length < 3 →
      DiceConfigParser.parse (.array entries) =
        .error "At least 3 dice configurations required") ∧
    (∀ input, (input = .notArray ∨ ∃ entries, input = .array entries ∧ entries.length < 3) →
      ∀ dice, DiceConfigParser.parse input ≠ .ok dice) := by
  refine ⟨rfl, fun entries h => ?_, ?_⟩
  · simp [DiceConfigParser.parse, h]
  · rintro input (h | ⟨entries, h, hlen⟩) dice
    · subst h
      simp [DiceConfigParser.parse]
    · subst h
      simp [DiceConfigParser.parse, hlen]

/-- C13, an instance: two well formed entries are refused. -/
theorem parse_requires_three_entries_witness :
    DiceConfigParser.parse (.array ["2,2,4,4,9,9", "6,8,1,1,8,6"]) =
      .error "At least 3 dice configurations required" :=
  parse_requires_three_entries.2.1 ["2,2,4,4,9,9", "6,8,1,1,8,6"] (by decide)

/-- C14: for a list of at least 3 entries, `DiceConfigParser.parse` fails whenever some
entry does not split on commas into exactly 6 tokens. -/
theorem parse_fails_on_wrong_arity (entries : List String) (h3 : 3 ≤ entries.length)
    (h : ∃ e, e ∈ entries ∧ (jsSplit ',' e.toList).length ≠ 6) :
    ∃ m, DiceConfigParser.parse (.array entries) = .error m := by
  obtain ⟨e, hmem, hlen⟩ := h
  have hnot : ¬ entries.length < 3 := by omega
  simp only [DiceConfigParser.parse, if_neg hnot]
  cases hr : parseEntries 0 entries with
  | error m => exact ⟨m, rfl⟩
  | ok dice =>
    exfalso
    obtain ⟨hl, hall⟩ := parseEntries_ok entries 0 dice hr
    obtain ⟨k, hk, hke⟩ := List.mem_iff_getElem.mp hmem
    have hkd : k < dice.length := by omega
    have := hall k e dice[k] (by rw [List.getElem?_eq_getElem hk, hke])
      (List.getElem?_eq_getElem hkd)
    exact hlen (entryAccepted_tokens e _ this.2.1).1

/-- C14, an instance: an entry of 5 tokens and an entry of 7 tokens are refused. -/
theorem parse_fails_on_wrong_arity_witness :
    (∃ m, DiceConfigParser.parse
      (.array ["2,2,4,4,9,9", "6,8,1,1,8", "7,5,3,7,5,3"]) = .error m) ∧
    DiceConfigParser.parse (.array ["2,2,4,4,9,9", "6,8,1,1,8", "7,5,3,7,5,3"]) =
      .error "Dice 2 must have exactly 6 faces" ∧
    DiceConfigParser.parse (.array ["2,2,4,4,9,9,1", "6,8,1,1,8,6", "7,5,3,7,5,3"]) =
      .error "Dice 1 must have exactly 6 faces" :=
  ⟨parse_fails_on_wrong_arity ["2,2,4,4,9,9", "6,8,1,1,8", "7,5,3,7,5,3"] (by decide)
    ⟨"6,8,1,1,8", by decide, by decide⟩, by decide, by decide⟩

/-- C15 (as amended): `DiceConfigParser.parse` fails whenever some token of some entry,
once trimmed, is read by `parseInt` as `NaN`, that is, has no digit of its radix right
after its leading white space, its optional sign and its optional mark `0x`; and a list is
accepted exactly when it has at least 3 entries that each split into 6 tokens none of
which reads as `NaN`. A token that only starts with an integer is therefore accepted and
read as that integer. -/
theorem parse_fails_on_nan_token (entries : List String)
    (h : ∃ e, e ∈ entries ∧ ∃ tok, tok ∈ jsSplit ',' e.toList ∧ parseInt (jsTrim tok) = none) :
    (∃ m, DiceConfigParser.parse (.array entries) = .error m) ∧
    (∀ text, parseInt text = none ↔
      leadingDigits (stripRadixMark (stripSign (text.dropWhile isJsWhiteSpace)).2).1
        (stripRadixMark (stripSign (text.dropWhile isJsWhiteSpace)).2).2 = []) ∧
    (∀ others : List String,
      (∃ dice, DiceConfigParser.parse (.array others) = .ok dice) ↔
        3 ≤ others.length ∧ ∀ e, e ∈ others →
          (jsSplit ',' e.toList).length = 6 ∧
            ∀ tok, tok ∈ jsSplit ',' e.toList → parseInt (jsTrim tok) ≠ none) := by
  have hiff : ∀ others : List String,
      (∃ dice, DiceConfigParser.parse (.array others) = .ok dice) ↔
        3 ≤ others.length ∧ ∀ e, e ∈ others →
          (jsSplit ',' e.toList).length = 6 ∧
            ∀ tok, tok ∈ jsSplit ',' e.toList → parseInt (jsTrim tok) ≠ none := by
    intro others
    constructor
    · rintro ⟨dice, hd⟩
      by_cases hlt : others.length < 3
      · simp [DiceConfigParser.parse, hlt] at hd
      · simp only [DiceConfigParser.parse, if_neg hlt] at hd
        refine ⟨by omega, fun e hmem => ?_⟩
        obtain ⟨hl, hall⟩ := parseEntries_ok others 0 dice hd
        obtain ⟨k, hk, hke⟩ := List.mem_iff_getElem.mp hmem
        have hkd : k < dice.length := by omega
        have := hall k e dice[k] (by rw [List.getElem?_eq_getElem hk, hke])
          (List.getElem?_eq_getElem hkd)
        exact entryAccepted_tokens e _ this.2.1
    · rintro ⟨h3, hall⟩
      have hnot : ¬ others.length < 3 := by omega
      simp only [DiceConfigParser.parse, if_neg hnot]
      apply parseEntries_ok_of_no_error others 0
      intro k e hk
      have hmem : e ∈ others := List.getElem?_mem hk
      exact (entryError_eq_none_iff _ e).mpr
        (entryAccepted_of_tokens e (hall e hmem).1 (hall e hmem).2)
  refine ⟨?_, ?_, hiff⟩
  · cases hr : DiceConfigParser.parse (.array entries) with
    | error m => exact ⟨m, rfl⟩
    | ok dice =>
      exfalso
      obtain ⟨e, hmem, tok, htok, hnone⟩ := h
      exact ((hiff entries).mp ⟨dice, hr⟩).2 e hmem |>.2 tok htok hnone
  · intro text
    unfold parseInt parseIntValue
    simp only
    split <;> simp_all

/-- C15, an instance: the tokens `abc` and the empty token read as `NaN` and make the parse
fail. -/
theorem parse_fails_on_nan_token_witness :
    (∃ m, DiceConfigParser.parse
      (.array ["2,2,4,4,9,9", "6,abc,1,1,8,6", "7,5,3,7,5,3"]) = .error m) ∧
    DiceConfigParser.parse (.array ["2,2,4,4,9,9", "6,abc,1,1,8,6", "7,5,3,7,5,3"]) =
      .error "Invalid number 'abc' in dice 2" ∧
    DiceConfigParser.parse (.array ["2,2,4,4,9,9", "6,8,1,1,8,6", "7,5,,7,5,3"]) =
      .error "Invalid number '' in dice 3" :=
  ⟨(parse_fails_on_nan_token ["2,2,4,4,9,9", "6,abc,1,1,8,6", "7,5,3,7,5,3"]
    ⟨"6,abc,1,1,8,6", by decide, "abc".toList, by decide, by decide⟩).1, by decide, by decide⟩

/-- C15 as stated fails: the tokens `4x` and `1.5` are not runs of decimal digits, and the
parse succeeds on them, with the faces 4 and 1. -/
theorem parse_accepts_leading_integers :
    DiceConfigParser.parse (.array ["4x,1.5,3,4,5,6", "6,8,1,1,8,6", "7,5,3,7,5,3"]) =
      .ok [{ faces := [4, 1, 3, 4, 5, 6], name := "Dice 1" },
           { faces := [6, 8, 1, 1, 8, 6], name := "Dice 2" },
           { faces := [7, 5, 3, 7, 5, 3], name := "Dice 3" }] := by
  decide

/-- C16 (as amended): when `DiceConfigParser.parse` succeeds on `n` entries, `n ≥ 3`, it
returns `n` dice in input order; the die at the position `k` (from 0) is named
`Dice <k + 1>` and has exactly 6 faces, its entry splits into 6 tokens, and position by
position the trimmed token starts with an integer that is the face whenever that integer
is at most `2 ^ 53` in absolute value. -/
theorem parse_ok_dice (entries : List String) (dice : List Dice)
    (h : DiceConfigParser.parse (.array entries) = .ok dice) :
    3 ≤ entries.length ∧ dice.length = entries.length ∧
    ∀ (k : Nat) (e : String) (d : Dice), entries[k]? = some e → dice[k]? = some d →
      d.name = "Dice " ++ String.mk (natToDecimal (k + 1)) ∧
      d.faces.length = 6 ∧ (jsSplit ',' e.toList).length = 6 ∧
      ∀ (j : Nat) (tok : List Char) (f : Int),
        (jsSplit ',' e.toList)[j]? = some tok → d.faces[j]? = some f →
        ∃ value : Int, parseIntValue (jsTrim tok) = some value ∧
          (value.natAbs ≤ 2 ^ 53 → f = value) := by
  by_cases hlt : entries.length < 3
  · simp [DiceConfigParser.parse, hlt] at h
  · simp only [DiceConfigParser.parse, if_neg hlt] at h
    obtain ⟨hl, hall⟩ := parseEntries_ok entries 0 dice h
    refine ⟨by omega, hl, fun k e d he hd => ?_⟩
    obtain ⟨hname, hacc, -⟩ := hall k e d he hd
    rw [Nat.zero_add] at hname
    refine ⟨hname, hacc.2, (entryAccepted_tokens e _ hacc).1, fun j tok f htok hf => ?_⟩
    have h1 := congrArg (fun l => l[j]?) hacc.1
    simp only [List.getElem?_map, htok, hf, Option.map_some'] at h1
    have h2 : parseInt (jsTrim tok) = some f := Option.some.inj h1
    unfold parseInt at h2
    cases hv : parseIntValue (jsTrim tok) with
    | none => rw [hv] at h2; exact Option.noConfusion h2
    | some value =>
      rw [hv] at h2
      simp only [Option.map_some', Option.some.injEq] at h2
      exact ⟨value, rfl, fun hb => by rw [← h2, toDouble_of_natAbs_le value hb]⟩

/-- C16, an instance: the three entries of the example give the three example dice. -/
theorem parse_ok_dice_witness :
    DiceConfigParser.parse (.array ["2,2,4,4,9,9", "6,8,1,1,8,6", "7,5,3,7,5,3"]) =
        .ok exampleDice ∧
    (3 ≤ ["2,2,4,4,9,9", "6,8,1,1,8,6", "7,5,3,7,5,3"].length ∧
      exampleDice.length = ["2,2,4,4,9,9", "6,8,1,1,8,6", "7,5,3,7,5,3"].length) :=
  ⟨by decide,
    (parse_ok_dice ["2,2,4,4,9,9", "6,8,1,1,8,6", "7,5,3,7,5,3"] exampleDice (by decide)).1,
    (parse_ok_dice ["2,2,4,4,9,9", "6,8,1,1,8,6", "7,5,3,7,5,3"] exampleDice (by decide)).2.1⟩

/-- C16 as stated fails: the token `999999999999999999999` has the integer value
`10 ^ 21 - 1`, and the parse succeeds with the face `10 ^ 21`, the double nearest to that
value, which is another integer. -/
theorem parse_rounds_large_faces :
    parseIntValue "999999999999999999999".toList = some (10 ^ 21 - 1) ∧
    DiceConfigParser.parse
        (.array ["999999999999999999999,1,1,1,1,1", "6,8,1,1,8,6", "7,5,3,7,5,3"]) =
      .ok [{ faces := [10 ^ 21, 1, 1, 1, 1, 1], name := "Dice 1" },
           { faces := [6, 8, 1, 1, 8, 6], name := "Dice 2" },
           { faces := [7, 5, 3, 7, 5, 3], name := "Dice 3" }] ∧
    (10 ^ 21 : Int) ≠ 10 ^ 21 - 1 := by
  refine ⟨by decide, by decide, by decide⟩

/-- Parsing round-trips on faces up to `2 ^ 53` in absolute value: for every input that
`DiceConfigParser.parse` accepts with such faces, serialising the faces of each resulting
die with `join(',')` and parsing the serialised list again succeeds and yields the same
dice. -/
theorem parse_round_trip (entries : List String) (dice : List Dice)
    (h : DiceConfigParser.parse (.array entries) = .ok dice)
    (hb : ∀ d, d ∈ dice → ∀ f, f ∈ d.faces → f.natAbs ≤ 2 ^ 53) :
    DiceConfigParser.parse (.array (serializeDice dice)) = .ok dice := by
  by_cases hlt : entries.length < 3
  · simp [DiceConfigParser.parse, hlt] at h
  · simp only [DiceConfigParser.parse, if_neg hlt] at h
    obtain ⟨hl, hall⟩ := parseEntries_ok entries 0 dice h
    have hlen : ¬ (serializeDice dice).length < 3 := by
      simp only [serializeDice, List.length_map]
      omega
    simp only [DiceConfigParser.parse, if_neg hlen]
    apply parseEntries_serializeDice dice 0
    intro k d hk
    have hkl : k < entries.length := by
      have := (List.getElem?_eq_some_iff.mp hk).1
      omega
    obtain ⟨hname, hacc, -⟩ := hall k entries[k] d (List.getElem?_eq_getElem hkl) hk
    exact ⟨hname, hacc.2, hb d (List.getElem?_mem hk)⟩

/-- C17, the code at the failing input: the entries `1000000000000000000000,1,1,1,1,1` and
`999999999999999999999,1,1,1,1,1` are accepted with the face `10 ^ 21`, `join` writes that
face `1e+21`, and the second parse reads that text as the face 1, so the dice parsed from
the serialised list are not the dice serialised. -/
theorem parse_round_trip_fails_from_ten_pow_21 :
    DiceConfigParser.parse
        (.array ["1000000000000000000000,1,1,1,1,1", "6,8,1,1,8,6", "7,5,3,7,5,3"]) =
      .ok [{ faces := [1000000000000000000000, 1, 1, 1, 1, 1], name := "Dice 1" },
           { faces := [6, 8, 1, 1, 8, 6], name := "Dice 2" },
           { faces := [7, 5, 3, 7, 5, 3], name := "Dice 3" }] ∧
    DiceConfigParser.parse
        (.array ["999999999999999999999,1,1,1,1,1", "6,8,1,1,8,6", "7,5,3,7,5,3"]) =
      .ok [{ faces := [1000000000000000000000, 1, 1, 1, 1, 1], name := "Dice 1" },
           { faces := [6, 8, 1, 1, 8, 6], name := "Dice 2" },
           { faces := [7, 5, 3, 7, 5, 3], name := "Dice 3" }] ∧
    serializeDice [{ faces := [1000000000000000000000, 1, 1, 1, 1, 1], name := "Dice 1" },
           { faces := [6, 8, 1, 1, 8, 6], name := "Dice 2" },
           { faces := [7, 5, 3, 7, 5, 3], name := "Dice 3" }] =
      ["1e+21,1,1,1,1,1", "6,8,1,1,8,6", "7,5,3,7,5,3"] ∧
    DiceConfigParser.parse (.array ["1e+21,1,1,1,1,1", "6,8,1,1,8,6", "7,5,3,7,5,3"]) =
      .ok [{ faces := [1, 1, 1, 1, 1, 1], name := "Dice 1" },
           { faces := [6, 8, 1, 1, 8, 6], name := "Dice 2" },
           { faces := [7, 5, 3, 7, 5, 3], name := "Dice 3" }] := by
  refine ⟨by decide, by decide, by decide, by decide⟩

/-- C18: a failed parse of a list of at least 3 entries reports the first invalid entry
in input order, by its 1-based index: every entry before it is accepted, it is not, and
the error is `Invalid number '<token>' in dice <index>` quoting the first token of that
entry that `parseInt` reads as `NaN` when there is one, and
`Dice <index> must have exactly 6 faces` otherwise. -/
theorem parse_error_names_first_invalid_entry (entries : List String) (m : String)
    (h3 : 3 ≤ entries.length) (h : DiceConfigParser.parse (.array entries) = .error m) :
    ∃ (k : Nat) (e : String), entries[k]? = some e ∧
      (∀ (j : Nat) (e2 : String), j < k → entries[j]? = some e2 →
        ∃ faces, entryAccepted e2 faces) ∧
      (¬ ∃ faces, entryAccepted e faces) ∧
      (∀ tok, (jsSplit ',' e.toList).find? (fun t => (parseInt (jsTrim t)).isNone) =
          some tok →
        m = "Invalid number '" ++ String.mk tok ++ "' in dice "
          ++ String.mk (natToDecimal (k + 1))) ∧
      ((jsSplit ',' e.toList).find? (fun t => (parseInt (jsTrim t)).isNone) = none →
        m = "Dice " ++ String.mk (natToDecimal (k + 1)) ++ " must have exactly 6 faces") := by
  have hnot : ¬ entries.length < 3 := by omega
  simp only [DiceConfigParser.parse, if_neg hnot] at h
  obtain ⟨k, e, hk, hek, hbefore⟩ := parseEntries_error entries 0 m h
  simp only [Nat.zero_add] at hek hbefore
  refine ⟨k, e, hk, ?_, ?_, ?_, ?_⟩
  · intro j e2 hj hje
    exact (entryError_eq_none_iff j e2).mp (hbefore j e2 hj hje)
  · intro hacc
    rw [(entryError_eq_none_iff k e).mpr hacc] at hek
    exact Option.noConfusion hek
  · intro tok htok
    unfold entryError at hek
    rw [htok] at hek
    exact (Option.some.inj hek).symm
  · intro hnone
    unfold entryError at hek
    rw [hnone] at hek
    simp only at hek
    split at hek
    · exact (Option.some.inj hek).symm
    · exact Option.noConfusion hek

/-- C18, an instance: the first invalid entry is the second one, its first token that is
not a number is `x` (the later `y` is not reported), and the third entry, which has 5
tokens, is not reached. -/
theorem parse_error_names_first_invalid_entry_witness :
    DiceConfigParser.parse (.array ["2,2,4,4,9,9", "6,8,x,1,y,6", "7,5,3,7,5"]) =
        .error "Invalid number 'x' in dice 2" ∧
    ∃ (k : Nat) (e : String), ["2,2,4,4,9,9", "6,8,x,1,y,6", "7,5,3,7,5"][k]? = some e ∧
      ¬ ∃ faces, entryAccepted e faces :=
  ⟨by decide,
    match parse_error_names_first_invalid_entry ["2,2,4,4,9,9", "6,8,x,1,y,6", "7,5,3,7,5"]
      "Invalid number 'x' in dice 2" (by decide) (by decide) with
    | ⟨k, e, hk, _, hbad, _, _⟩ => ⟨k, e, hk, hbad⟩⟩

/-! ## Claims on `calculateWinProbabilities` -/

/-- C19: in a set of dice with distinct names (as every parsed set is), for every ordered
pair of dice `(A, B)` at different positions `calculateWinProbabilities` records an entry
with `wins` the number of pairs `(a, b)` of `A.faces × B.faces` with `a > b` and `total`
the number `|A.faces| * |B.faces|` of all pairs (36 when both have 6 faces); the pairs of
equal faces are in `total` and not in `wins`. -/
theorem calculateWinProbabilities_counts (dice : List Dice)
    (hnames : (dice.map Dice.name).Nodup) (i j : Nat) (a b : Dice)
    (hi : dice[i]? = some a) (hj : dice[j]? = some b) (hij : i ≠ j) :
    ∃ entry, matrixGet (calculateWinProbabilities dice) a.name b.name = some entry ∧
      entry.wins = (a.faces.product b.faces).countP (fun p => decide (p.1 > p.2)) ∧
      entry.total = a.faces.length * b.faces.length ∧
      (a.faces.length = 6 → b.faces.length = 6 → entry.total = 36) ∧
      entry.wins + (a.faces.product b.faces).countP (fun p => decide (p.1 = p.2)) ≤
        entry.total := by
  refine ⟨winEntry a b, matrixGet_calculateWinProbabilities dice hnames i j a b hi hj hij,
    ?_, ?_, ?_, ?_⟩
  · simp only [winEntry, compareFaces_eq]
    rfl
  · simp only [winEntry, compareFaces_eq]
  · intro h1 h2
    simp only [winEntry, compareFaces_eq, h1, h2]
  · simp only [winEntry, compareFaces_eq]
    have := winsCount_add_winsCount_add_tiesCount a.faces b.faces
    unfold winsCount tiesCount at this
    unfold winsCount
    omega

/-- C19, an instance: in the example set the first die wins 20 of the 36 pairs against
the second. -/
theorem calculateWinProbabilities_counts_witness :
    ∃ entry, matrixGet (calculateWinProbabilities exampleDice) "Dice 1" "Dice 2" =
        some entry ∧ entry.wins = 20 ∧ entry.total = 36 :=
  match calculateWinProbabilities_counts exampleDice
      (parse_names_nodup (.array ["2,2,4,4,9,9", "6,8,1,1,8,6", "7,5,3,7,5,3"]) exampleDice
        (by decide)) 0 1
      ⟨[2, 2, 4, 4, 9, 9], "Dice 1"⟩ ⟨[6, 8, 1, 1, 8, 6], "Dice 2"⟩ (by decide) (by decide)
      (by decide) with
  | ⟨entry, hget, hwins, htotal, _, _⟩ =>
    ⟨entry, hget, hwins.trans (by decide), htotal.trans (by decide)⟩

/-- C20: in a set of dice with distinct names (as every parsed set is, whatever its size),
for every ordered pair of dice `(A, B)` at different positions the entries of the matrix
satisfy `wins(A,B) + wins(B,A) + ties(A,B) = |A.faces| * |B.faces|`, where `ties(A,B)`
is the number of pairs of faces with equal values. -/
theorem wins_add_wins_add_ties (dice : List Dice)
    (hnames : (dice.map Dice.name).Nodup) (i j : Nat) (a b : Dice)
    (hi : dice[i]? = some a) (hj : dice[j]? = some b) (hij : i ≠ j) :
    ∃ entryAB entryBA,
      matrixGet (calculateWinProbabilities dice) a.name b.name = some entryAB ∧
      matrixGet (calculateWinProbabilities dice) b.name a.name = some entryBA ∧
      entryAB.wins + entryBA.wins + tiesCount a.faces b.faces =
        a.faces.length * b.faces.length ∧
      entryAB.total = a.faces.length * b.faces.length ∧
      entryBA.total = a.faces.length * b.faces.length := by
  refine ⟨winEntry a b, winEntry b a,
    matrixGet_calculateWinProbabilities dice hnames i j a b hi hj hij,
    matrixGet_calculateWinProbabilities dice hnames j i b a hj hi (Ne.symm hij), ?_, ?_, ?_⟩
  · simp only [winEntry, compareFaces_eq]
    exact winsCount_add_winsCount_add_tiesCount a.faces b.faces
  · simp only [winEntry, compareFaces_eq]
  · simp only [winEntry, compareFaces_eq]
    exact Nat.mul_comm _ _

/-- C20, an instance with ties: the dice `1,2,3,4,5,6` and `1,1,6,6,8,8` have 10 wins one
way, 22 the other way and 4 ties, 36 pairs in all. -/
theorem wins_add_wins_add_ties_witness :
    ∃ entryAB entryBA,
      matrixGet (calculateWinProbabilities
        [⟨[1, 2, 3, 4, 5, 6], "Dice 1"⟩, ⟨[1, 1, 6, 6, 8, 8], "Dice 2"⟩,
          ⟨[3, 3, 5, 5, 7, 7], "Dice 3"⟩]) "Dice 1" "Dice 2" = some entryAB ∧
      matrixGet (calculateWinProbabilities
        [⟨[1, 2, 3, 4, 5, 6], "Dice 1"⟩, ⟨[1, 1, 6, 6, 8, 8], "Dice 2"⟩,
          ⟨[3, 3, 5, 5, 7, 7], "Dice 3"⟩]) "Dice 2" "Dice 1" = some entryBA ∧
      entryAB.wins + entryBA.wins + tiesCount [1, 2, 3, 4, 5, 6] [1, 1, 6, 6, 8, 8] = 36 ∧
      tiesCount [1, 2, 3, 4, 5, 6] [1, 1, 6, 6, 8, 8] = 4 :=
  match wins_add_wins_add_ties
      [⟨[1, 2, 3, 4, 5, 6], "Dice 1"⟩, ⟨[1, 1, 6, 6, 8, 8], "Dice 2"⟩,
        ⟨[3, 3, 5, 5, 7, 7], "Dice 3"⟩] (by decide) 0 1
      ⟨[1, 2, 3, 4, 5, 6], "Dice 1"⟩ ⟨[1, 1, 6, 6, 8, 8], "Dice 2"⟩ (by decide) (by decide)
      (by decide) with
  | ⟨entryAB, entryBA, h1, h2, h3, _, _⟩ => ⟨entryAB, entryBA, h1, h2, h3, by decide⟩

/-! ## Lemmas on the probability text -/

/-- The dice of a successful parse have 6 faces each. -/
theorem parse_faces_length (input : ParseInput) (dice : List Dice)
    (h : DiceConfigParser.parse input = .ok dice) :
    ∀ d, d ∈ dice → d.faces.length = 6 := by
  cases input with
  | notArray => simp [DiceConfigParser.parse] at h
  | array entries =>
    by_cases hlt : entries.length < 3
    · simp [DiceConfigParser.parse, hlt] at h
    · simp only [DiceConfigParser.parse, if_neg hlt] at h
      obtain ⟨hl, hall⟩ := parseEntries_ok entries 0 dice h
      intro d hd
      obtain ⟨k, hk, hkd⟩ := List.mem_iff_getElem.mp hd
      have := hall k entries[k] d (List.getElem?_eq_getElem (by omega))
        (by rw [List.getElem?_eq_getElem hk, hkd])
      exact this.2.1.2

/-- The winning pairs are among all the pairs. -/
theorem winsCount_le (faces1 faces2 : List Int) :
    winsCount faces1 faces2 ≤ faces1.length * faces2.length := by
  unfold winsCount
  have := List.countP_le_length (fun p : Int × Int => decide (p.1 > p.2))
    (l := faces1.product faces2)
  have e : (faces1.product faces2).length = faces1.length * faces2.length :=
    List.length_product faces1 faces2
  rw [e] at this
  exact this

/-- On a total of 36 the double computation of the percentage gives the text of the
exact rounding. -/
theorem probabilityString_thirty_six :
    ∀ wins, wins ≤ 36 → probabilityString wins 36 = percentFixed2 wins 36 := by
  decide

/-- The exact rounding takes the hundredth nearest to the percentage, a tie going up. -/
theorem percentFixed2_nearest (wins total : Nat) (ht : 0 < total) :
    ∃ h : Nat,
      2 * total * h ≤ 2 * 10000 * wins + total ∧
      2 * 10000 * wins + total < 2 * total * (h + 1) ∧
      percentFixed2 wins total =
        String.mk (natToDecimal (h / 100) ++ '.' :: twoDigits (h % 100)) := by
  refine ⟨(2 * 10000 * wins + total) / (2 * total), ?_, ?_, ?_⟩
  · exact Nat.mul_div_le _ _
  · exact Nat.lt_mul_div_succ _ (by omega)
  · unfold percentFixed2
    rw [if_neg (by omega)]

/-! ## Claims on the probabilities -/

/-- C21: for the dice `A = [2,2,4,4,9,9]`, `B = [1,1,6,6,8,8]`, `C = [3,3,5,5,7,7]`, parsed
as a set, `calculateWinProbabilities` gives `A` against `B`, `B` against `C` and `C`
against `A` 20 wins of the 36 comparisons each, strictly more than half, with the
probability `55.56`: the set is non-transitive. -/
theorem nontransitive_fixture :
    ∃ dice, DiceConfigParser.parse (.array ["2,2,4,4,9,9", "1,1,6,6,8,8", "3,3,5,5,7,7"]) =
        .ok dice ∧
      matrixGet (calculateWinProbabilities dice) "Dice 1" "Dice 2" =
        some { wins := 20, total := 36, probability := "55.56" } ∧
      matrixGet (calculateWinProbabilities dice) "Dice 2" "Dice 3" =
        some { wins := 20, total := 36, probability := "55.56" } ∧
      matrixGet (calculateWinProbabilities dice) "Dice 3" "Dice 1" =
        some { wins := 20, total := 36, probability := "55.56" } ∧
      2 * 20 > 36 :=
  ⟨[{ faces := [2, 2, 4, 4, 9, 9], name := "Dice 1" },
    { faces := [1, 1, 6, 6, 8, 8], name := "Dice 2" },
    { faces := [3, 3, 5, 5, 7, 7], name := "Dice 3" }],
    by decide, by decide, by decide, by decide, by decide⟩

/-- C22: for every ordered pair of dice at different positions of a parsed set, the
reported probability is computed from the exact counts `wins` and `total = 36`, and the
double computation `(wins / total * 100).toFixed(2)` gives the text of `wins / total` as a
percentage rounded to the nearest hundredth, with exactly two fractional digits: the text
of the integer `h` of hundredths with `h - 1/2 ≤ 10000 * wins / total < h + 1/2`. -/
theorem probability_is_rounded_percentage (input : ParseInput) (dice : List Dice)
    (h : DiceConfigParser.parse input = .ok dice) (i j : Nat) (a b : Dice)
    (hi : dice[i]? = some a) (hj : dice[j]? = some b) (hij : i ≠ j) :
    ∃ entry, matrixGet (calculateWinProbabilities dice) a.name b.name = some entry ∧
      entry.wins = winsCount a.faces b.faces ∧ entry.total = 36 ∧
      entry.probability = probabilityString entry.wins entry.total ∧
      entry.probability = percentFixed2 entry.wins entry.total ∧
      ∃ hundredths : Nat,
        2 * entry.total * hundredths ≤ 2 * 10000 * entry.wins + entry.total ∧
        2 * 10000 * entry.wins + entry.total < 2 * entry.total * (hundredths + 1) ∧
        entry.probability =
          String.mk (natToDecimal (hundredths / 100) ++ '.' :: twoDigits (hundredths % 100)) := by
  have ha := parse_faces_length input dice h a (List.getElem?_mem hi)
  have hb := parse_faces_length input dice h b (List.getElem?_mem hj)
  have hget := matrixGet_calculateWinProbabilities dice (parse_names_nodup input dice h)
    i j a b hi hj hij
  have hle := winsCount_le a.faces b.faces
  rw [ha, hb] at hle
  have hentry : winEntry a b =
      { wins := winsCount a.faces b.faces, total := 36,
        probability := probabilityString (winsCount a.faces b.faces) 36 } := by
    simp only [winEntry, compareFaces_eq, ha, hb]
  have hprob := probabilityString_thirty_six (winsCount a.faces b.faces) hle
  obtain ⟨hundredths, h1, h2, h3⟩ := percentFixed2_nearest (winsCount a.faces b.faces) 36
    (by decide)
  refine ⟨winEntry a b, hget, ?_⟩
  rw [hentry]
  exact ⟨rfl, rfl, rfl, hprob, hundredths, h1, h2, hprob.trans h3⟩

/-- C22, an instance: in the example set the first die has 20 wins of 36 against the
second, reported as `55.56`. -/
theorem probability_is_rounded_percentage_witness :
    ∃ entry, matrixGet (calculateWinProbabilities exampleDice) "Dice 1" "Dice 2" =
        some entry ∧ entry.wins = 20 ∧ entry.total = 36 ∧ entry.probability = "55.56" :=
  match probability_is_rounded_percentage
      (.array ["2,2,4,4,9,9", "6,8,1,1,8,6", "7,5,3,7,5,3"]) exampleDice (by decide) 0 1
      ⟨[2, 2, 4, 4, 9, 9], "Dice 1"⟩ ⟨[6, 8, 1, 1, 8, 6], "Dice 2"⟩ (by decide) (by decide)
      (by decide) with
  | ⟨entry, hget, hwins, htotal, _, hprob, _⟩ =>
    ⟨entry, hget, hwins.trans (by decide), htotal,
      hprob.trans (by rw [hwins, htotal]; decide)⟩

/-- C24: in first-player determination with `userNumber` and `computerNumber` both in
`{0, 1}` and a verified commitment, the answer carries
`result = (userNumber + computerNumber) mod 2`, and `firstPlayer` is `player` exactly when
`result` is 0, that is when the two numbers are equal, and `computer` otherwise. -/
theorem first_player_result (hmac : String → String → String) (req : CompleteRequest)
    (hu : req.userNumber = 0 ∨ req.userNumber = 1)
    (hc : req.computerNumber = 0 ∨ req.computerNumber = 1)
    (hv : calculateHMAC hmac req.computerNumber req.key = req.hmac) :
    ∃ (result : Int) (firstPlayer : String),
      completeFirstPlayerRoute hmac req =
        { status := 200,
          body := [("firstPlayer", JVal.str firstPlayer), ("userNumber", JVal.num req.userNumber),
                   ("computerNumber", JVal.num req.computerNumber), ("result", JVal.num result),
                   ("verified", JVal.bool true)] } ∧
      result = (req.userNumber + req.computerNumber) % 2 ∧
      (firstPlayer = "player" ↔ result = 0) ∧
      (result = 0 ↔ req.userNumber = req.computerNumber) ∧
      (result ≠ 0 → firstPlayer = "computer") := by
  refine ⟨generateFairRoll req.userNumber req.computerNumber 2,
    if generateFairRoll req.userNumber req.computerNumber 2 = 0 then "player" else "computer",
    ?_, ?_, ?_, ?_, ?_⟩
  · simp [completeFirstPlayerRoute, hv]
  · exact generateFairRoll_of_nonneg _ _ 2 (by omega) (by omega) (by decide)
  · by_cases h0 : generateFairRoll req.userNumber req.computerNumber 2 = 0
    · simp [h0]
    · simp [h0]
  · rw [generateFairRoll_of_nonneg _ _ 2 (by omega) (by omega) (by decide)]
    rcases hu with hu | hu <;> rcases hc with hc | hc <;> rw [hu, hc] <;> decide
  · intro h0
    rw [if_neg h0]

/-- C24, an instance with the toy digest `key ++ message`: the numbers 1 and 1 give the
result 0 and the player starts; the numbers 0 and 1 give the result 1 and the computer
starts. -/
theorem first_player_result_witness :
    (∃ (result : Int) (firstPlayer : String),
      completeFirstPlayerRoute (fun k m => k ++ m)
          { userNumber := 1, hmac := "k1", key := "k", computerNumber := 1 } =
        { status := 200,
          body := [("firstPlayer", JVal.str firstPlayer), ("userNumber", JVal.num 1),
                   ("computerNumber", JVal.num 1), ("result", JVal.num result),
                   ("verified", JVal.bool true)] } ∧
      result = (1 + 1) % 2 ∧ (firstPlayer = "player" ↔ result = 0) ∧
      (result = 0 ↔ (1 : Int) = 1) ∧ (result ≠ 0 → firstPlayer = "computer")) ∧
    completeFirstPlayerRoute (fun k m => k ++ m)
        { userNumber := 0, hmac := "k1", key := "k", computerNumber := 1 } =
      { status := 200,
        body := [("firstPlayer", JVal.str "computer"), ("userNumber", JVal.num 0),
                 ("computerNumber", JVal.num 1), ("result", JVal.num 1),
                 ("verified", JVal.bool true)] } :=
  ⟨first_player_result (fun k m => k ++ m)
    { userNumber := 1, hmac := "k1", key := "k", computerNumber := 1 }
    (Or.inr rfl) (Or.inr rfl) (by decide), by decide⟩

/-- The count of winning pairs does not depend on the order of the faces. -/
theorem winsCount_perm (faces1 faces1' faces2 faces2' : List Int)
    (h1 : faces1.Perm faces1') (h2 : faces2.Perm faces2') :
    winsCount faces1 faces2 = winsCount faces1' faces2' := by
  unfold winsCount
  rw [countP_product, countP_product]
  have e : (faces1.map (fun x => faces2.countP (fun y => decide ((x, y).1 > (x, y).2)))) =
      (faces1.map (fun x => faces2'.countP (fun y => decide ((x, y).1 > (x, y).2)))) :=
    List.map_congr_left (fun x _ => List.Perm.countP_eq _ h2)
  rw [e]
  exact List.Perm.sum_eq (List.Perm.map _ h1)

/-- The entry of two dice does not depend on the order of their faces. -/
theorem winEntry_perm (a a' b b' : Dice) (ha : a.faces.Perm a'.faces)
    (hb : b.faces.Perm b'.faces) : winEntry a b = winEntry a' b' := by
  simp only [winEntry, compareFaces_eq, winsCount_perm _ _ _ _ ha hb,
    List.Perm.length_eq ha, List.Perm.length_eq hb]

/-- C29: win odds depend only on the multisets of faces. Permuting the faces of `A` or the
faces of `B` leaves the entry `{ wins, total, probability }` computed for `A` against `B`
unchanged; and in two sets with distinct names whose dice have, position by position, the
same names and the same faces up to order, the matrix holds the same entry for every
ordered pair of dice at different positions. -/
theorem win_odds_permutation_invariant (a a' b b' : Dice) (ha : a.faces.Perm a'.faces)
    (hb : b.faces.Perm b'.faces) :
    ((winEntry a b).wins = (winEntry a' b').wins ∧
      (winEntry a b).total = (winEntry a' b').total ∧
      (winEntry a b).probability = (winEntry a' b').probability) ∧
    (∀ (dice dice' : List Dice) (i j : Nat),
      (dice.map Dice.name).Nodup → (dice'.map Dice.name).Nodup →
      dice[i]? = some a → dice'[i]? = some a' → dice[j]? = some b → dice'[j]? = some b' →
      a.name = a'.name → b.name = b'.name → i ≠ j →
      matrixGet (calculateWinProbabilities dice) a.name b.name =
        matrixGet (calculateWinProbabilities dice') a.name b.name) := by
  have he := winEntry_perm a a' b b' ha hb
  refine ⟨⟨by rw [he], by rw [he], by rw [he]⟩, ?_⟩
  intro dice dice' i j hn hn' hi hi' hj hj' hna hnb hij
  rw [matrixGet_calculateWinProbabilities dice hn i j a b hi hj hij, hna, hnb,
    matrixGet_calculateWinProbabilities dice' hn' i j a' b' hi' hj' hij, he]

/-- C29, an instance: the preset die `6,8,1,1,8,6` has against `2,2,4,4,9,9` the entry of
the die `1,1,6,6,8,8`: 16 wins of 36, reported as `44.44`. -/
theorem win_odds_permutation_invariant_witness :
    winEntry ⟨[6, 8, 1, 1, 8, 6], "Dice 2"⟩ ⟨[2, 2, 4, 4, 9, 9], "Dice 1"⟩ =
        { wins := 16, total := 36, probability := "44.44" } ∧
    (winEntry ⟨[6, 8, 1, 1, 8, 6], "Dice 2"⟩ ⟨[2, 2, 4, 4, 9, 9], "Dice 1"⟩).wins =
      (winEntry ⟨[1, 1, 6, 6, 8, 8], "Dice 2"⟩ ⟨[2, 2, 4, 4, 9, 9], "Dice 1"⟩).wins ∧
    (winEntry ⟨[6, 8, 1, 1, 8, 6], "Dice 2"⟩ ⟨[2, 2, 4, 4, 9, 9], "Dice 1"⟩).probability =
      (winEntry ⟨[1, 1, 6, 6, 8, 8], "Dice 2"⟩ ⟨[2, 2, 4, 4, 9, 9], "Dice 1"⟩).probability :=
  ⟨by decide,
    (win_odds_permutation_invariant ⟨[6, 8, 1, 1, 8, 6], "Dice 2"⟩
      ⟨[1, 1, 6, 6, 8, 8], "Dice 2"⟩ ⟨[2, 2, 4, 4, 9, 9], "Dice 1"⟩
      ⟨[2, 2, 4, 4, 9, 9], "Dice 1"⟩ (by decide) (by decide)).1.1,
    (win_odds_permutation_invariant ⟨[6, 8, 1, 1, 8, 6], "Dice 2"⟩
      ⟨[1, 1, 6, 6, 8, 8], "Dice 2"⟩ ⟨[2, 2, 4, 4, 9, 9], "Dice 1"⟩
      ⟨[2, 2, 4, 4, 9, 9], "Dice 1"⟩ (by decide) (by decide)).1.2.2⟩

/-! ## More lemmas on the byte width and on the rejection loop -/

/-- A range fits in `w` bytes exactly when its logarithm in base 2, divided by 8, is at
most `w`. -/
theorem le_pow_iff_logb_div_le (range w : Nat) (h : 1 ≤ range) :
    (range : ℝ) ≤ 256 ^ w ↔ Real.logb 2 range / 8 ≤ w := by
  have hpos : (0 : ℝ) < range := by exact_mod_cast h
  rw [div_le_iff₀ (by norm_num : (0 : ℝ) < 8), Real.logb_le_iff_le_rpow (by norm_num) hpos]
  have e : (2 : ℝ) ^ ((w : ℝ) * 8) = 256 ^ w := by
    rw [mul_comm]
    have : ((8 : ℝ) * (w : ℝ)) = ((8 * w : ℕ) : ℝ) := by push_cast; ring
    rw [this, Real.rpow_natCast, pow_mul]
    norm_num
  rw [e]

/-- The byte width is the value of `Math.ceil(Math.log2(range) / 8)` on real numbers. -/
theorem bytesNeeded_eq_ceil_logb (range : Nat) (h : 1 ≤ range) :
    bytesNeeded range = ⌈Real.logb 2 range / 8⌉₊ := by
  obtain ⟨h1, h2⟩ := bytesNeeded_spec range
  apply le_antisymm
  · apply h2
    have := (le_pow_iff_logb_div_le range ⌈Real.logb 2 range / 8⌉₊ h).mpr (Nat.le_ceil _)
    exact_mod_cast this
  · rw [Nat.ceil_le]
    apply (le_pow_iff_logb_div_le range (bytesNeeded range) h).mp
    exact_mod_cast h1

/-- The threshold of the rejection: between the range and `256 ^ w`, and above half of
`256 ^ w`. -/
theorem threshold_bounds (range w : Nat) (h1 : 1 ≤ range) (hw : range ≤ 256 ^ w) :
    range ≤ 256 ^ w / range * range ∧ 256 ^ w / range * range ≤ 256 ^ w ∧
      256 ^ w < 2 * (256 ^ w / range * range) := by
  have hq : 1 ≤ 256 ^ w / range := (Nat.one_le_div_iff (by omega)).mpr hw
  have hT : range ≤ 256 ^ w / range * range := Nat.le_mul_of_pos_left _ (by omega)
  have hlt : 256 ^ w < range * (256 ^ w / range + 1) := Nat.lt_mul_div_succ _ (by omega)
  refine ⟨hT, Nat.div_mul_le_self _ _, ?_⟩
  rw [Nat.mul_add, Nat.mul_one, Nat.mul_comm range] at hlt
  omega

/-- The accepted draws are the draws below the threshold, as many as the threshold. -/
theorem accepted_card (range w : Nat) :
    ((Finset.range (256 ^ w)).filter (fun r => accepted range w r = true)).card =
      256 ^ w / range * range := by
  have hle : 256 ^ w / range * range ≤ 256 ^ w := Nat.div_mul_le_self _ _
  have hset : (Finset.range (256 ^ w)).filter (fun r => accepted range w r = true) =
      Finset.range (256 ^ w / range * range) := by
    ext r
    simp only [Finset.mem_filter, Finset.mem_range, accepted, decide_eq_true_eq]
    constructor
    · exact fun h => h.2
    · exact fun h => ⟨by omega, h⟩
  rw [hset, Finset.card_range]

/-- The loop returns at the first accepted draw: with the draws before the draw `k`
rejected and the draw `k` accepted, it is still running after `k` draws or fewer and
returns `min + (r mod range)` for the draw `k` as soon as `k + 1` draws are allowed. -/
theorem loop_returns_at_first (min : Int) (range w : Nat) (src : Nat → Nat) (h1 : 1 ≤ w)
    (h6 : w ≤ 6) :
    ∀ k pos, (∀ j, j < k → accepted range w (drawValue src (pos + j * w) w) = false) →
      accepted range w (drawValue src (pos + k * w) w) = true →
      (∀ fuel, fuel ≤ k → generateSecureNumberLoop min range w src fuel pos = .running) ∧
      ∀ n, generateSecureNumberLoop min range w src (k + 1 + n) pos =
        .returned (min + ((drawValue src (pos + k * w) w % range : Nat) : Int),
          pos + (k + 1) * w) := by
  intro k
  induction k with
  | zero =>
    intro pos _ hacc
    simp only [Nat.zero_mul, Nat.add_zero] at hacc
    refine ⟨?_, ?_⟩
    · intro fuel hf
      have : fuel = 0 := by omega
      subst this
      rfl
    · intro n
      have e : 0 + 1 + n = n + 1 := by omega
      rw [e, loop_succ min range w src h1 h6, if_pos hacc]
      simp
  | succ k ih =>
    intro pos hrej hacc
    have h0 : accepted range w (drawValue src pos w) = false := by
      have := hrej 0 (by omega)
      simpa using this
    have hshift : ∀ j, pos + w + j * w = pos + (j + 1) * w := by intro j; ring
    obtain ⟨ihrun, ihret⟩ := ih (pos + w)
      (fun j hj => by rw [hshift]; exact hrej (j + 1) (by omega))
      (by rw [hshift]; exact hacc)
    refine ⟨?_, ?_⟩
    · intro fuel hf
      cases fuel with
      | zero => rfl
      | succ fuel =>
        rw [loop_succ min range w src h1 h6, h0]
        simpa using ihrun fuel (by omega)
    · intro n
      have e : k + 1 + 1 + n = (k + 1 + n) + 1 := by omega
      rw [e, loop_succ min range w src h1 h6, h0]
      simp only [Bool.false_eq_true, if_false]
      rw [ihret n, hshift]
      congr 2
      ring

/-! ## Claims on the byte width and on the end of the rejection loop -/

/-- C25: for every range of at least 2, the byte width `w` that `generateSecureNumber`
uses is the minimal number of bytes that can represent the range: `w ≥ 1`,
`range ≤ 256 ^ w`, no smaller width does, `w = 1` for the ranges `2..256` and `w = 2` for
the ranges `257..65536`; it is the value of `Math.ceil(Math.log2(range) / 8)` on real
numbers, and the loop of `generateSecureNumber(min, max)` draws with that width. -/
theorem bytesNeeded_minimal (range : Nat) (h2 : 2 ≤ range) :
    1 ≤ bytesNeeded range ∧ range ≤ 256 ^ bytesNeeded range ∧
    (∀ w, range ≤ 256 ^ w → bytesNeeded range ≤ w) ∧
    (range ≤ 256 → bytesNeeded range = 1) ∧
    (257 ≤ range → range ≤ 65536 → bytesNeeded range = 2) ∧
    bytesNeeded range = ⌈Real.logb 2 range / 8⌉₊ ∧
    (∀ (min max : Int) fuel src pos, max - min + 1 = (range : Int) →
      generateSecureNumber fuel min max src pos =
        generateSecureNumberLoop min range (bytesNeeded range) src fuel pos) := by
  obtain ⟨hle, hmin⟩ := bytesNeeded_spec range
  have h1 : 1 ≤ bytesNeeded range := by
    by_contra hcon
    have h0 : bytesNeeded range = 0 := by omega
    rw [h0] at hle
    simp at hle
    omega
  refine ⟨h1, hle, hmin, ?_, ?_, bytesNeeded_eq_ceil_logb range (by omega), ?_⟩
  · intro h256
    have := hmin 1 (by simpa using h256)
    omega
  · intro h257 h65536
    have hub := hmin 2 (by norm_num; exact h65536)
    have hne : bytesNeeded range ≠ 1 := by
      intro e
      rw [e] at hle
      norm_num at hle
      omega
    omega
  · intro min max fuel src pos hr
    have hpos : ¬ ((range : Int) ≤ 0) := by omega
    simp only [generateSecureNumber, hr, if_neg hpos, Int.toNat_ofNat]

/-- C25, at the ranges in use and at the ends of the two intervals: one byte for the
ranges 2, 6 and 256, two bytes for the ranges 257 and 65536. -/
theorem bytesNeeded_minimal_witness :
    (1 ≤ bytesNeeded 6 ∧ 6 ≤ 256 ^ bytesNeeded 6) ∧
    bytesNeeded 2 = 1 ∧ bytesNeeded 6 = 1 ∧ bytesNeeded 256 = 1 ∧ bytesNeeded 257 = 2 ∧
    bytesNeeded 65536 = 2 :=
  ⟨⟨(bytesNeeded_minimal 6 (by decide)).1, (bytesNeeded_minimal 6 (by decide)).2.1⟩,
    by decide, by decide, by decide, by decide, by decide⟩

/-- C26 (as amended): for every range of at least 2 with its byte width `w`, the threshold
`T = floor(256 ^ w / range) * range` satisfies `range ≤ T ≤ 256 ^ w` and `T > 256 ^ w / 2`,
so the `T` accepted draws are more than half of the `256 ^ w` draws; and for a range of at
most `2 ^ 48`, on any byte stream whose draw `k` is the first one below `T`,
`generateSecureNumber(min, max)` is still drawing after `k` draws and returns
`min + (r mod range)` for that draw once `k + 1` draws are allowed. -/
theorem rejection_loop_ends (min max : Int) (h2 : 2 ≤ max - min + 1) :
    ((max - min + 1).toNat ≤
        256 ^ bytesNeeded (max - min + 1).toNat / (max - min + 1).toNat *
          (max - min + 1).toNat ∧
      256 ^ bytesNeeded (max - min + 1).toNat / (max - min + 1).toNat *
          (max - min + 1).toNat ≤ 256 ^ bytesNeeded (max - min + 1).toNat ∧
      256 ^ bytesNeeded (max - min + 1).toNat <
        2 * (256 ^ bytesNeeded (max - min + 1).toNat / (max - min + 1).toNat *
          (max - min + 1).toNat) ∧
      ((Finset.range (256 ^ bytesNeeded (max - min + 1).toNat)).filter
        (fun r => accepted (max - min + 1).toNat (bytesNeeded (max - min + 1).toNat) r =
          true)).card =
        256 ^ bytesNeeded (max - min + 1).toNat / (max - min + 1).toNat *
          (max - min + 1).toNat) ∧
    (max - min + 1 ≤ 2 ^ 48 →
      ∀ (src : Nat → Nat) (pos k : Nat),
        (∀ j, j < k →
          accepted (max - min + 1).toNat (bytesNeeded (max - min + 1).toNat)
            (drawValue src (pos + j * bytesNeeded (max - min + 1).toNat)
              (bytesNeeded (max - min + 1).toNat)) = false) →
        accepted (max - min + 1).toNat (bytesNeeded (max - min + 1).toNat)
          (drawValue src (pos + k * bytesNeeded (max - min + 1).toNat)
            (bytesNeeded (max - min + 1).toNat)) = true →
        (∀ fuel, fuel ≤ k → generateSecureNumber fuel min max src pos = .running) ∧
        ∀ n, generateSecureNumber (k + 1 + n) min max src pos =
          .returned
            (min + ((drawValue src (pos + k * bytesNeeded (max - min + 1).toNat)
                (bytesNeeded (max - min + 1).toNat) % (max - min + 1).toNat : Nat) : Int),
              pos + (k + 1) * bytesNeeded (max - min + 1).toNat)) := by
  have hpos : ¬ (max - min + 1 ≤ 0) := by omega
  obtain ⟨hle, -⟩ := bytesNeeded_spec (max - min + 1).toNat
  obtain ⟨t1, t2, t3⟩ := threshold_bounds (max - min + 1).toNat
    (bytesNeeded (max - min + 1).toNat) (by omega) hle
  refine ⟨⟨t1, t2, t3, accepted_card _ _⟩, ?_⟩
  intro h48 src pos k hrej hacc
  have hw := bytesNeeded_bounds (max - min + 1).toNat (by omega) (by omega)
  have := loop_returns_at_first min _ _ src hw.1 hw.2 k pos hrej hacc
  simp only [generateSecureNumber, if_neg hpos]
  exact this

/-- C26, an instance: for `generateSecureNumber(0, 5)` the threshold is 252, more than
half of 256, and on a source whose first byte is 255 (rejected) and second byte 17
(accepted) the call returns `17 mod 6 = 5` at the second draw. -/
theorem rejection_loop_ends_witness :
    256 ^ bytesNeeded ((5 : Int) - 0 + 1).toNat / ((5 : Int) - 0 + 1).toNat *
        ((5 : Int) - 0 + 1).toNat = 252 ∧
    generateSecureNumber 1 0 5 (fun i => if i = 0 then 255 else 17) 0 = .running ∧
    generateSecureNumber 2 0 5 (fun i => if i = 0 then 255 else 17) 0 = .returned (5, 2) ∧
    256 ^ bytesNeeded ((5 : Int) - 0 + 1).toNat <
      2 * (256 ^ bytesNeeded ((5 : Int) - 0 + 1).toNat / ((5 : Int) - 0 + 1).toNat *
        ((5 : Int) - 0 + 1).toNat) :=
  ⟨by decide, by decide, by decide, (rejection_loop_ends 0 5 (by decide)).1.2.2.1⟩

/-- C26 as stated fails: for the range `2 ^ 49` the byte width is 7, the draw of 7 zero
bytes is below the threshold, and `generateSecureNumber(0, 2 ^ 49 - 1)` returns nothing on
that stream however many draws are allowed, since `readUIntBE` refuses the width and the
first draw throws. -/
theorem generateSecureNumber_wide_range_never_returns :
    bytesNeeded (2 ^ 49) = 7 ∧
    accepted (2 ^ 49) 7 (drawValue (fun _ => 0) 0 7) = true ∧
    generateSecureNumber 1 0 (2 ^ 49 - 1) (fun _ => 0) 0 = .threw ∧
    ¬ ∃ fuel v p, generateSecureNumber fuel 0 (2 ^ 49 - 1) (fun _ => 0) 0 = .returned (v, p) := by
  refine ⟨by decide, by decide, by decide, ?_⟩
  rintro ⟨fuel, v, p, h⟩
  have hw : bytesNeeded (2 ^ 49) = 7 := by decide
  have e : generateSecureNumber fuel 0 (2 ^ 49 - 1) (fun _ => 0) 0 =
      generateSecureNumberLoop 0 (2 ^ 49) (bytesNeeded (2 ^ 49)) (fun _ => 0) fuel 0 := rfl
  rw [e, hw] at h
  cases fuel with
  | zero => exact Outcome.noConfusion h
  | succ fuel =>
    rw [loop_threw_of_wide 0 _ 7 _ (by decide)] at h
    exact Outcome.noConfusion h

/-! ## Lemmas on the probability table -/

/-- Reads that all succeed give their values. -/
theorem allSome_map {α β : Type} (l : List α) (f : α → Option β) (g : α → β)
    (h : ∀ x, x ∈ l → f x = some (g x)) : allSome (l.map f) = some (l.map g) := by
  induction l with
  | nil => rfl
  | cons x rest ih =>
    simp only [List.map_cons, h x (List.mem_cons_self _ _), allSome,
      ih (fun y hy => h y (List.mem_cons_of_mem _ hy))]

/-- A key that no assignment names is not a property of the object. -/
theorem objGet_objOfAssignments_of_not_mem {α : Type} (kvs : List (String × α))
    (key : String) (h : key ∉ kvs.map Prod.fst) : objGet (objOfAssignments kvs) key = none := by
  unfold objOfAssignments
  rw [objGet_foldl_of_not_mem kvs key h]
  rfl

/-- In a set with distinct names the matrix has no entry for a die against itself. -/
theorem matrixGet_self (dice : List Dice) (hnames : (dice.map Dice.name).Nodup) (i : Nat)
    (a : Dice) (hi : dice[i]? = some a) :
    matrixGet (calculateWinProbabilities dice) a.name a.name = none := by
  have hkeys : (dice.enum.map (fun ia => (ia.2.name, winRow dice ia.1 ia.2))).map Prod.fst =
      dice.map Dice.name := by
    rw [List.map_map]
    have : (Prod.fst ∘ fun ia : Nat × Dice => (ia.2.name, winRow dice ia.1 ia.2)) =
        Dice.name ∘ Prod.snd := rfl
    rw [this, ← List.map_map, List.enum_map_snd]
  have hrow : objGet (calculateWinProbabilities dice) a.name = some (winRow dice i a) := by
    apply objGet_objOfAssignments _ (by rw [hkeys]; exact hnames)
    exact List.mem_map.mpr ⟨(i, a), List.mk_mem_enum_iff_getElem?.mpr hi, rfl⟩
  have hnot : a.name ∉ ((dice.enum.filter (fun jb => decide (i ≠ jb.1))).map
      (fun jb => (jb.2.name, winEntry a jb.2))).map Prod.fst := by
    intro hmem
    rw [List.map_map] at hmem
    obtain ⟨⟨j, b⟩, hjb, hname⟩ := List.mem_map.mp hmem
    rw [List.mem_filter] at hjb
    have hj : dice[j]? = some b := List.mk_mem_enum_iff_getElem?.mp hjb.1
    have hij : i ≠ j := by simpa using hjb.2
    simp only [Function.comp] at hname
    have hi' := List.getElem?_eq_some_iff.mp hi
    have hj' := List.getElem?_eq_some_iff.mp hj
    obtain ⟨hil, hia⟩ := hi'
    obtain ⟨hjl, hjb2⟩ := hj'
    have h1 : (dice.map Dice.name)[i]? = some a.name := by
      rw [List.getElem?_map, hi]; rfl
    have h2 : (dice.map Dice.name)[j]? = some a.name := by
      rw [List.getElem?_map, hj]; simp [hname]
    rcases Nat.lt_or_gt_of_ne hij with hlt | hgt
    · exact (List.nodup_iff_getElem?_ne_getElem?.mp hnames i j hlt (by simpa using hjl))
        (h1.trans h2.symm)
    · exact (List.nodup_iff_getElem?_ne_getElem?.mp hnames j i hgt (by simpa using hil))
        (h2.trans h1.symm)
  unfold matrixGet
  rw [hrow]
  exact objGet_objOfAssignments_of_not_mem _ _ hnot

/-- In a set with distinct names every row of the table is built. -/
theorem tableRow_eq (dice : List Dice) (hnames : (dice.map Dice.name).Nodup) (i : Nat)
    (a : Dice) (hi : dice[i]? = some a) :
    tableRow dice (calculateWinProbabilities dice) (i, a) =
      some (a.name :: dice.enum.map (cellText i a)) := by
  unfold tableRow
  have := allSome_map dice.enum (tableCell (calculateWinProbabilities dice) i a)
    (cellText i a) (by
      rintro ⟨j, b⟩ hjb
      have hj : dice[j]? = some b := List.mk_mem_enum_iff_getElem?.mp hjb
      unfold tableCell cellText
      by_cases hij : i = j
      · simp [hij]
      · simp only [hij, if_false]
        rw [matrixGet_calculateWinProbabilities dice hnames i j a b hi hj hij])
  simp only [this]

/-- In a set with distinct names the table is built, with its header and its rows. -/
theorem getProbabilityTable_eq (dice : List Dice) (hnames : (dice.map Dice.name).Nodup) :
    getProbabilityTable dice =
      some { headers := "Dice vs Dice" :: dice.map Dice.name,
             rows := dice.enum.map (fun ia => ia.2.name :: dice.enum.map (cellText ia.1 ia.2)) } := by
  unfold getProbabilityTable generateProbabilityTable
  have := allSome_map dice.enum (tableRow dice (calculateWinProbabilities dice))
    (fun ia => ia.2.name :: dice.enum.map (cellText ia.1 ia.2)) (by
      rintro ⟨i, a⟩ hia
      exact tableRow_eq dice hnames i a (List.mk_mem_enum_iff_getElem?.mp hia))
  simp only [this]

/-! ## Claims on the probability table -/

/-- C23: for a parsed set of `d` dice the probability matrix has an entry for every
ordered pair of dice at different positions and none for a die against itself, and
`generateProbabilityTable` returns the header `Dice vs Dice` followed by the `d` names and
`d` rows of `d + 1` cells; the row of index `i` starts with the name of the die `i`, holds
`50.00%` in the cell of the die itself and, in the cell of every other die, the
probability of the matrix followed by `%`. -/
theorem probability_table_shape (input : ParseInput) (dice : List Dice)
    (h : DiceConfigParser.parse input = .ok dice) :
    (∀ (i j : Nat) (a b : Dice), dice[i]? = some a → dice[j]? = some b → i ≠ j →
      ∃ entry, matrixGet (calculateWinProbabilities dice) a.name b.name = some entry) ∧
    (∀ (i : Nat) (a : Dice), dice[i]? = some a →
      matrixGet (calculateWinProbabilities dice) a.name a.name = none) ∧
    ∃ table, getProbabilityTable dice = some table ∧
      table.headers = "Dice vs Dice" :: dice.map Dice.name ∧
      table.rows.length = dice.length ∧
      ∀ (i : Nat) (a : Dice), dice[i]? = some a →
        ∃ row, table.rows[i]? = some row ∧ row.length = dice.length + 1 ∧
          row[0]? = some a.name ∧ row[i + 1]? = some "50.00%" ∧
          ∀ (j : Nat) (b : Dice), dice[j]? = some b → j ≠ i →
            ∃ entry, matrixGet (calculateWinProbabilities dice) a.name b.name = some entry ∧
              row[j + 1]? = some (entry.probability ++ "%") := by
  have hnames := parse_names_nodup input dice h
  refine ⟨fun i j a b hi hj hij =>
      ⟨winEntry a b, matrixGet_calculateWinProbabilities dice hnames i j a b hi hj hij⟩,
    fun i a hi => matrixGet_self dice hnames i a hi,
    _, getProbabilityTable_eq dice hnames, rfl, by simp, ?_⟩
  intro i a hi
  refine ⟨a.name :: dice.enum.map (cellText i a), ?_, by simp, by simp, ?_, ?_⟩
  · simp only [List.getElem?_map, List.getElem?_enum, hi, Option.map_some']
  · simp only [List.getElem?_cons_succ, List.getElem?_map, List.getElem?_enum, hi,
      Option.map_some', cellText, if_true]
  · intro j b hj hji
    refine ⟨winEntry a b,
      matrixGet_calculateWinProbabilities dice hnames i j a b hi hj (Ne.symm hji), ?_⟩
    simp only [List.getElem?_cons_succ, List.getElem?_map, List.getElem?_enum, hj,
      Option.map_some', cellText, if_neg (Ne.symm hji)]

/-- C23, an instance: the table of the example set. -/
theorem probability_table_shape_witness :
    matrixGet (calculateWinProbabilities exampleDice) "Dice 1" "Dice 1" = none ∧
    ∃ table, getProbabilityTable exampleDice = some table ∧
      table.headers = ["Dice vs Dice", "Dice 1", "Dice 2", "Dice 3"] ∧
      table.rows.length = 3 :=
  match probability_table_shape (.array ["2,2,4,4,9,9", "6,8,1,1,8,6", "7,5,3,7,5,3"])
      exampleDice (by decide) with
  | ⟨_, hself, table, htable, hheaders, hrows, _⟩ =>
    ⟨hself 0 ⟨[2, 2, 4, 4, 9, 9], "Dice 1"⟩ (by decide), table, htable, hheaders, hrows⟩

/-! ## Lemmas on the choice of the die of the computer -/

/-- Filtering an enumeration on the index removes the element at that index. -/
theorem filter_enumFrom_eq_eraseIdx {α : Type} (l : List α) :
    ∀ n i, ((l.enumFrom n).filter (fun id => decide (id.1 ≠ n + i))).map Prod.snd =
      l.eraseIdx i := by
  induction l with
  | nil => intro n i; rfl
  | cons x xs ih =>
    intro n i
    cases i with
    | zero =>
      have hall : (xs.enumFrom (n + 1)).filter (fun id => decide (id.1 ≠ n + 0)) =
          xs.enumFrom (n + 1) := by
        rw [List.filter_eq_self]
        rintro ⟨k, y⟩ hk
        have := (List.mem_enumFrom hk).1
        simp only [decide_eq_true_eq]
        show k ≠ n + 0
        omega
      simp only [List.enumFrom_cons, List.eraseIdx_cons_zero]
      rw [List.filter_cons_of_neg (by simp), hall, List.enumFrom_map_snd]
    | succ i =>
      simp only [List.enumFrom_cons, List.eraseIdx_cons_succ]
      rw [List.filter_cons_of_pos (by simp only [decide_eq_true_eq]; omega), List.map_cons]
      have e : n + (i + 1) = n + 1 + i := by omega
      rw [e, ih (n + 1) i]

/-- The available dice are the dice without the die of the player. -/
theorem availableDice_eq_eraseIdx (dice : List Dice) (i : Nat) :
    availableDice dice i = dice.eraseIdx i := by
  have := filter_enumFrom_eq_eraseIdx dice 0 i
  simpa [availableDice, List.enum] using this

/-- The search finds the first index whose element satisfies the test. -/
theorem findIndexFrom_eq {α : Type} (p : α → Bool) (xs : List α) :
    ∀ (j k : Nat) (x : α), xs[j]? = some x → p x = true →
      (∀ (m : Nat) (y : α), m < j → xs[m]? = some y → p y = false) →
      findIndexFrom p xs k = ((k + j : Nat) : Int) := by
  induction xs with
  | nil => intro j k x hx; simp at hx
  | cons y ys ih =>
    intro j k x hx hp hbefore
    cases j with
    | zero =>
      simp only [List.getElem?_cons_zero, Option.some.injEq] at hx
      subst hx
      simp [findIndexFrom, hp]
    | succ j =>
      have hy : p y = false := hbefore 0 y (by omega) (by simp)
      simp only [List.getElem?_cons_succ] at hx
      rw [findIndexFrom, hy, if_neg (by simp),
        ih j (k + 1) x hx hp (fun m z hm hz => hbefore (m + 1) z (by omega) (by simpa using hz))]
      congr 1
      omega

/-- In a set with distinct names the search by the name of the die at `j` finds `j`. -/
theorem originalComputerIndex_of_name (dice : List Dice) (hnames : (dice.map Dice.name).Nodup)
    (j : Nat) (b : Dice) (hj : dice[j]? = some b) (computerMove : Response)
    (hname : computerMove.body.lookup "computerDiceName" = some (JVal.str b.name)) :
    originalComputerIndex dice computerMove = (j : Int) := by
  unfold originalComputerIndex jsFindIndex
  rw [findIndexFrom_eq _ dice j 0 b hj (by simp [hname])]
  · simp
  · intro m y hm hy
    simp only [hname, Option.some.injEq, JVal.str.injEq, decide_eq_false_iff_not]
    intro heq
    have hjl := (List.getElem?_eq_some_iff.mp hj).1
    have h1 : (dice.map Dice.name)[m]? = some y.name := by
      rw [List.getElem?_map, hy]; rfl
    have h2 : (dice.map Dice.name)[j]? = some y.name := by
      rw [List.getElem?_map, hj]; simp [heq]
    exact (List.nodup_iff_getElem?_ne_getElem?.mp hnames m j hm (by simpa using hjl))
      (h1.trans h2.symm)

/-- Every integer below `256 ^ w` is the value of a draw of `w` bytes on some source. -/
theorem drawValue_surjective (pos : Nat) :
    ∀ w r, r < 256 ^ w → ∃ src : Nat → Nat, drawValue src pos w = r := by
  intro w
  induction w with
  | zero =>
    intro r hr
    refine ⟨fun _ => 0, ?_⟩
    simp only [pow_zero, Nat.lt_one_iff] at hr
    simp [drawValue, randomBytes, hr]
  | succ w ih =>
    intro r hr
    obtain ⟨src0, h0⟩ := ih (r / 256) (by
      rw [Nat.div_lt_iff_lt_mul (by norm_num)]
      rw [pow_succ] at hr
      exact hr)
    refine ⟨fun k => if k < pos + w then src0 k else r % 256, ?_⟩
    have hcongr : (List.range w).map
        (fun i => (fun k => if k < pos + w then src0 k else r % 256) (pos + i) % 256) =
        (List.range w).map (fun i => src0 (pos + i) % 256) := by
      apply List.map_congr_left
      intro i hi
      have : i < w := List.mem_range.mp hi
      simp only [if_pos (show pos + i < pos + w by omega)]
    unfold drawValue randomBytes at h0 ⊢
    rw [List.range_succ, List.map_append, List.foldl_append, hcongr, h0]
    simp only [List.map_cons, List.map_nil, List.foldl_cons, List.foldl_nil,
      if_neg (Nat.lt_irrefl _)]
    rw [Nat.mod_mod]
    exact Nat.div_add_mod r 256 |> fun h => by omega

/-- On a range from 2 to `2 ^ 48` every value of the range is returned at the first draw
of some source. -/
theorem generateSecureNumber_reaches (n : Nat) (h2 : 2 ≤ n) (h48 : n ≤ 2 ^ 48) (c : Nat)
    (hc : c < n) (pos : Nat) :
    ∃ src p, generateSecureNumber 1 0 ((n : Int) - 1) src pos = .returned ((c : Int), p) := by
  obtain ⟨hw1, hw6⟩ := bytesNeeded_bounds n h2 h48
  have hfit := (bytesNeeded_spec n).1
  have hthr := (threshold_bounds n (bytesNeeded n) (by omega) hfit).1
  obtain ⟨src, hsrc⟩ := drawValue_surjective pos (bytesNeeded n) c (by omega)
  have hr : ((n : Int) - 1 - 0 + 1).toNat = n := by omega
  have hpos : ¬ ((n : Int) - 1 - 0 + 1 ≤ 0) := by omega
  refine ⟨src, pos + bytesNeeded n, ?_⟩
  simp only [generateSecureNumber, if_neg hpos, hr]
  rw [loop_succ 0 n (bytesNeeded n) src hw1 hw6, hsrc,
    if_pos (by simp only [accepted, decide_eq_true_eq]; omega), Nat.mod_eq_of_lt hc]
  simp

/-- An answer of status 200 of the computer-move route names the die at a choice within
the available dice. -/
theorem computerMoveRoute_ok (fuel : Nat) (available : List Dice) (src : Nat → Nat)
    (pos : Nat) (resp : Response)
    (h : computerMoveRoute fuel available src pos = .returned resp) (h200 : resp.status = 200) :
    ∃ (c : Nat) (die : Dice), c < available.length ∧ available[c]? = some die ∧
      resp.body = [("computerDiceIndex", .num (c : Int)), ("computerDiceName", .str die.name)] := by
  unfold computerMoveRoute at h
  split at h
  · exact Outcome.noConfusion h
  · simp only [Outcome.returned.injEq] at h
    subst h
    simp at h200
  · rename_i computerChoice p hgen
    split at h
    · simp only [Outcome.returned.injEq] at h
      subst h
      simp at h200
    · rename_i die hdie
      simp only [Outcome.returned.injEq] at h
      subst h
      unfold jsIndex at hdie
      split at hdie
      · rename_i h0
        rw [List.get?_eq_getElem?] at hdie
        have hlt := (List.getElem?_eq_some_iff.mp hdie).1
        refine ⟨computerChoice.toNat, die, hlt, hdie, ?_⟩
        rw [Int.toNat_of_nonneg h0]
      · exact Option.noConfusion hdie

/-- On at least 2 and at most `2 ^ 48` available dice every answer of the computer-move
route has status 200. -/
theorem computerMoveRoute_status (fuel : Nat) (available : List Dice) (src : Nat → Nat)
    (pos : Nat) (resp : Response) (h2 : 2 ≤ available.length)
    (h48 : available.length ≤ 2 ^ 48)
    (h : computerMoveRoute fuel available src pos = .returned resp) : resp.status = 200 := by
  have hr : ((available.length : Int) - 1 - 0 + 1).toNat = available.length := by omega
  have hpos : ¬ ((available.length : Int) - 1 - 0 + 1 ≤ 0) := by omega
  obtain ⟨hw1, hw6⟩ := bytesNeeded_bounds available.length h2 h48
  unfold computerMoveRoute at h
  split at h
  · exact Outcome.noConfusion h
  · rename_i hgen
    simp only [generateSecureNumber, if_neg hpos, hr] at hgen
    exact absurd hgen (loop_ne_threw 0 _ _ src hw1 hw6 fuel pos)
  · rename_i computerChoice p hgen
    simp only [generateSecureNumber, if_neg hpos, hr] at hgen
    have hb := loop_returned_bounds 0 available.length _ src (by omega) fuel pos
      computerChoice p hgen
    obtain ⟨x, hx⟩ := jsIndex_isSome available computerChoice (by omega) (by omega)
    rw [hx] at h
    simp only [Outcome.returned.injEq] at h
    subst h
    rfl

/-- A successful parse gives at least 3 dice. -/
theorem parse_length_ge (input : ParseInput) (dice : List Dice)
    (h : DiceConfigParser.parse input = .ok dice) : 3 ≤ dice.length := by
  cases input with
  | notArray => simp [DiceConfigParser.parse] at h
  | array entries =>
    by_cases hlt : entries.length < 3
    · simp [DiceConfigParser.parse, hlt] at h
    · simp only [DiceConfigParser.parse, if_neg hlt] at h
      have := (parseEntries_ok entries 0 dice h).1
      omega

/-- The name field of an answer of status 200. -/
theorem lookup_computerDiceName (c : Int) (name : String) :
    List.lookup "computerDiceName"
      [("computerDiceIndex", JVal.num c), ("computerDiceName", JVal.str name)] =
      some (JVal.str name) := by
  simp [List.lookup]

/-- In a set with distinct names, the die at the choice `c` among the available dice is the
die of the full set at `c` when `c` is below the index of the player and at `c + 1`
otherwise, and the search by name gives that index. -/
theorem originalComputerIndex_of_choice (dice : List Dice)
    (hnames : (dice.map Dice.name).Nodup) (i c : Nat) (die : Dice)
    (hc : (availableDice dice i)[c]? = some die) (computerMove : Response)
    (hname : computerMove.body.lookup "computerDiceName" = some (JVal.str die.name)) :
    dice[if c < i then c else c + 1]? = some die ∧
      originalComputerIndex dice computerMove = ((if c < i then c else c + 1 : Nat) : Int) := by
  rw [availableDice_eq_eraseIdx, List.getElem?_eraseIdx] at hc
  have hget : dice[if c < i then c else c + 1]? = some die := by
    by_cases hlt : c < i
    · simpa [hlt] using hc
    · simpa [hlt] using hc
  exact ⟨hget, originalComputerIndex_of_name dice hnames _ die hget computerMove hname⟩

/-! ## Claims on the choice of the die of the computer -/

/-- C27: for a parsed set of `d` dice, `d` is at least 3, and for every index `i` of the
player in `[0, d)`: every answer of status 200 of the computer-move route on the dice
other than `i` carries a choice `c` in `[0, d - 1)` and the name of the die at `c` among
them, and the index the client finds by that name in the full set is in `[0, d)`, differs
from `i` and is the index of that die; every index `j` other than `i` is obtained from
some choice; and, within the length of a JavaScript array, every answer of the route has
status 200 and every index `j` other than `i` is obtained on some random source at the
first draw. -/
theorem computer_die_among_remaining (input : ParseInput) (dice : List Dice)
    (h : DiceConfigParser.parse input = .ok dice) (i : Nat) (hi : i < dice.length) :
    3 ≤ dice.length ∧
    (∀ (fuel : Nat) (src : Nat → Nat) (pos : Nat) (resp : Response),
      computerMoveRoute fuel (availableDice dice i) src pos = .returned resp →
      resp.status = 200 →
      ∃ (c : Nat) (die : Dice), c < dice.length - 1 ∧
        resp.body =
          [("computerDiceIndex", .num (c : Int)), ("computerDiceName", .str die.name)] ∧
        (availableDice dice i)[c]? = some die ∧
        0 ≤ originalComputerIndex dice resp ∧
        originalComputerIndex dice resp < (dice.length : Int) ∧
        originalComputerIndex dice resp ≠ (i : Int) ∧
        jsIndex dice (originalComputerIndex dice resp) = some die) ∧
    (∀ j : Nat, j < dice.length → j ≠ i →
      ∃ (c : Nat) (die : Dice), c < dice.length - 1 ∧
        (availableDice dice i)[c]? = some die ∧
        originalComputerIndex dice
          { status := 200,
            body := [("computerDiceIndex", .num (c : Int)),
                     ("computerDiceName", .str die.name)] } = (j : Int)) ∧
    (dice.length < 2 ^ 32 →
      (∀ (fuel : Nat) (src : Nat → Nat) (pos : Nat) (resp : Response),
        computerMoveRoute fuel (availableDice dice i) src pos = .returned resp →
        resp.status = 200) ∧
      ∀ j : Nat, j < dice.length → j ≠ i → ∀ pos : Nat,
        ∃ (src : Nat → Nat) (resp : Response),
          computerMoveRoute 1 (availableDice dice i) src pos = .returned resp ∧
          resp.status = 200 ∧ originalComputerIndex dice resp = (j : Int)) := by
  have hnames := parse_names_nodup input dice h
  have h3 := parse_length_ge input dice h
  have hlen : (availableDice dice i).length = dice.length - 1 := by
    rw [availableDice_eq_eraseIdx, List.length_eraseIdx, if_pos hi]
  have hchoice : ∀ j : Nat, j < dice.length → j ≠ i →
      ∃ (c : Nat) (die : Dice), c < dice.length - 1 ∧
        (availableDice dice i)[c]? = some die ∧ (if c < i then c else c + 1) = j := by
    intro j hj hji
    by_cases hlt : j < i
    · refine ⟨j, dice[j], by omega, ?_, by simp [hlt]⟩
      rw [availableDice_eq_eraseIdx, List.getElem?_eraseIdx, if_pos hlt]
      exact List.getElem?_eq_getElem hj
    · refine ⟨j - 1, dice[j], by omega, ?_, ?_⟩
      · rw [availableDice_eq_eraseIdx, List.getElem?_eraseIdx, if_neg (by omega)]
        have e : j - 1 + 1 = j := by omega
        rw [e]
        exact List.getElem?_eq_getElem hj
      · rw [if_neg (by omega)]
        omega
  refine ⟨h3, ?_, ?_, ?_⟩
  · intro fuel src pos resp hret h200
    obtain ⟨c, die, hc, hdie, hbody⟩ :=
      computerMoveRoute_ok fuel (availableDice dice i) src pos resp hret h200
    rw [hlen] at hc
    obtain ⟨hget, hidx⟩ := originalComputerIndex_of_choice dice hnames i c die hdie resp
      (by rw [hbody]; exact lookup_computerDiceName _ _)
    refine ⟨c, die, hc, hbody, hdie, ?_, ?_, ?_, ?_⟩
    · rw [hidx]; omega
    · rw [hidx]
      by_cases hlt : c < i
      · simp only [if_pos hlt]; omega
      · simp only [if_neg hlt]; omega
    · rw [hidx]
      by_cases hlt : c < i
      · simp only [if_pos hlt]; omega
      · simp only [if_neg hlt]; omega
    · rw [hidx]
      unfold jsIndex
      rw [if_pos (by omega), List.get?_eq_getElem?, Int.toNat_ofNat]
      exact hget
  · intro j hj hji
    obtain ⟨c, die, hc, hdie, hcj⟩ := hchoice j hj hji
    refine ⟨c, die, hc, hdie, ?_⟩
    rw [(originalComputerIndex_of_choice dice hnames i c die hdie _
      (lookup_computerDiceName _ _)).2, hcj]
  · intro h32
    have h48 : (availableDice dice i).length ≤ 2 ^ 48 := by
      rw [hlen]
      have : (2 : Nat) ^ 32 ≤ 2 ^ 48 := by norm_num
      omega
    refine ⟨fun fuel src pos resp hret =>
      computerMoveRoute_status fuel _ src pos resp (by rw [hlen]; omega) h48 hret, ?_⟩
    intro j hj hji pos
    obtain ⟨c, die, hc, hdie, hcj⟩ := hchoice j hj hji
    obtain ⟨src, p, hgen⟩ := generateSecureNumber_reaches (availableDice dice i).length
      (by rw [hlen]; omega) h48 c (by rw [hlen]; exact hc) pos
    have hidx : jsIndex (availableDice dice i) (c : Int) = some die := by
      unfold jsIndex
      rw [if_pos (by omega), List.get?_eq_getElem?, Int.toNat_ofNat]
      exact hdie
    refine ⟨src, { status := 200,
                   body := [("computerDiceIndex", .num (c : Int)),
                            ("computerDiceName", .str die.name)] }, ?_, rfl, ?_⟩
    · simp only [computerMoveRoute, hgen, hidx]
    · rw [(originalComputerIndex_of_choice dice hnames i c die hdie _
        (lookup_computerDiceName _ _)).2, hcj]

/-- C27, an instance: in the example set with the first die taken by the player, the
second and the third die are each obtained from a choice, and the available dice are the
second and the third. -/
theorem computer_die_among_remaining_witness :
    availableDice exampleDice 0 =
      [⟨[6, 8, 1, 1, 8, 6], "Dice 2"⟩, ⟨[7, 5, 3, 7, 5, 3], "Dice 3"⟩] ∧
    ∀ j : Nat, j < exampleDice.length → j ≠ 0 →
      ∃ (c : Nat) (die : Dice), c < exampleDice.length - 1 ∧
        (availableDice exampleDice 0)[c]? = some die ∧
        originalComputerIndex exampleDice
          { status := 200,
            body := [("computerDiceIndex", .num (c : Int)),
                     ("computerDiceName", .str die.name)] } = (j : Int) :=
  ⟨by decide, (computer_die_among_remaining
    (.array ["2,2,4,4,9,9", "6,8,1,1,8,6", "7,5,3,7,5,3"]) exampleDice (by decide) 0
    (by decide)).2.2.1⟩

/-! ## Lemmas on the validation of the client -/

/-- The client reads the tokens as the server does, with another text of error. -/
theorem clientFaces_eq (i : Nat) (toks : List (List Char)) :
    clientFaces toks = (parseFaces i toks).mapError (fun _ => "Invalid number") := by
  induction toks with
  | nil => rfl
  | cons t ts ih =>
    unfold clientFaces parseFaces
    cases parseInt (jsTrim t) with
    | none => rfl
    | some num =>
      simp only [ih]
      cases parseFaces i ts <;> rfl

/-- The client accepts an entry with some faces exactly when the server accepts it with
these faces. -/
theorem parseDiceInput_eq_some_iff (entry : String) (faces : List Int) :
    parseDiceInput entry = some faces ↔ entryAccepted entry faces := by
  unfold parseDiceInput entryAccepted
  rw [clientFaces_eq 0, ← parseFaces_ok_iff 0]
  cases hp : parseFaces 0 (jsSplit ',' entry.toList) with
  | error e => simp [Except.mapError]
  | ok nums =>
    simp only [Except.mapError, Except.ok.injEq]
    by_cases h6 : nums.length = 6
    · simp only [h6, ne_eq, not_true_eq_false, if_false, Option.some.injEq]
      constructor
      · intro h; subst h; exact ⟨rfl, h6⟩
      · exact fun h => h.1
    · simp only [ne_eq, h6, not_false_eq_true, if_true]
      constructor
      · intro h; exact Option.noConfusion h
      · rintro ⟨h1, h2⟩; subst h1; exact absurd h2 h6

/-- The client refuses an entry exactly when the server reports an error for it. -/
theorem parseDiceInput_eq_none_iff (k : Nat) (entry : String) :
    parseDiceInput entry = none ↔ entryError k entry ≠ none := by
  rw [Ne, entryError_eq_none_iff]
  constructor
  · rintro h ⟨faces, hacc⟩
    rw [(parseDiceInput_eq_some_iff entry faces).mpr hacc] at h
    exact Option.noConfusion h
  · intro h
    cases hp : parseDiceInput entry with
    | none => rfl
    | some faces => exact absurd ⟨faces, (parseDiceInput_eq_some_iff entry faces).mp hp⟩ h

/-- The loop of the client finds no error exactly when no entry has an error for the
server. -/
theorem validateFrom_eq_none_iff (entries : List String) :
    ∀ i, validateFrom i entries = none ↔
      ∀ (k : Nat) (e : String), entries[k]? = some e → entryError (i + k) e = none := by
  induction entries with
  | nil => intro i; simp [validateFrom]
  | cons entry rest ih =>
    intro i
    unfold validateFrom
    cases hp : parseDiceInput entry with
    | none =>
      have herr := (parseDiceInput_eq_none_iff i entry).mp hp
      constructor
      · intro h; exact Option.noConfusion h
      · intro h
        exact absurd (h 0 entry (by simp)) (by simpa using herr)
    | some faces =>
      have herr : entryError i entry = none := by
        by_contra hne
        rw [(parseDiceInput_eq_none_iff i entry).mpr hne] at hp
        exact Option.noConfusion hp
      simp only [ih (i + 1)]
      constructor
      · intro h k e hk
        cases k with
        | zero =>
          simp only [List.getElem?_cons_zero, Option.some.injEq] at hk
          subst hk
          exact herr
        | succ k =>
          simp only [List.getElem?_cons_succ] at hk
          have := h k e hk
          rwa [show i + 1 + k = i + (k + 1) by omega] at this
      · intro h k e hk
        have := h (k + 1) e (by simpa using hk)
        rwa [show i + (k + 1) = i + 1 + k by omega] at this

/-! ## Claims on the validation of the client -/

/-- C28: for every list of strings, `validateInputs` of the client returns no error exactly
when `DiceConfigParser.parse` of the server accepts the list; when the server accepts the
list, `parseDiceInput` gives for every entry the faces of the die the server built at
that position; and for every entry and every position, `parseDiceInput` returns faces
exactly when the loop of the server on that entry builds the die with these faces, which
are 6. -/
theorem client_server_validation_agree (entries : List String) :
    (validateInputs entries = none ↔
      ∃ dice, DiceConfigParser.parse (.array entries) = .ok dice) ∧
    (∀ dice, DiceConfigParser.parse (.array entries) = .ok dice →
      ∀ (k : Nat) (e : String), entries[k]? = some e →
        ∃ d, dice[k]? = some d ∧ parseDiceInput e = some d.faces) ∧
    (∀ (k : Nat) (e : String) (faces : List Int),
      parseDiceInput e = some faces ↔
        (parseEntries k [e] = .ok [{ faces := faces, name := dieName k }] ∧
          faces.length = 6)) := by
  refine ⟨?_, ?_, ?_⟩
  · unfold validateInputs DiceConfigParser.parse
    by_cases hlt : entries.length < 3
    · simp [hlt]
    · simp only [if_neg hlt]
      rw [validateFrom_eq_none_iff]
      constructor
      · exact parseEntries_ok_of_no_error entries 0
      · rintro ⟨dice, hd⟩ k e hk
        obtain ⟨hl, hall⟩ := parseEntries_ok entries 0 dice hd
        have hkl := (List.getElem?_eq_some_iff.mp hk).1
        exact (hall k e dice[k] hk (List.getElem?_eq_getElem (by omega))).2.2
  · intro dice hd k e hk
    unfold DiceConfigParser.parse at hd
    by_cases hlt : entries.length < 3
    · simp [hlt] at hd
    · simp only [if_neg hlt] at hd
      obtain ⟨hl, hall⟩ := parseEntries_ok entries 0 dice hd
      have hkl := (List.getElem?_eq_some_iff.mp hk).1
      have hdk : dice[k]? = some dice[k] := List.getElem?_eq_getElem (by omega)
      exact ⟨dice[k], hdk, (parseDiceInput_eq_some_iff e _).mpr (hall k e dice[k] hk hdk).2.1⟩
  · intro k e faces
    rw [parseDiceInput_eq_some_iff]
    constructor
    · intro hacc
      have hok := (parseFaces_ok_iff k _ faces).mpr hacc.1
      refine ⟨?_, hacc.2⟩
      simp only [parseEntries, hok, hacc.2, ne_eq, not_true_eq_false, if_false, dieName]
    · rintro ⟨hd, h6⟩
      obtain ⟨-, hall⟩ := parseEntries_ok [e] k _ hd
      have := hall 0 e { faces := faces, name := dieName k } (by simp) (by simp)
      exact this.2.1

/-! ## Lemmas on the route of a round -/

/-- The tag of the winner is one of `player`, `computer` and `tie`. -/
theorem winnerOf_cases (a b : Option Int) :
    winnerOf a b = "player" ∨ winnerOf a b = "computer" ∨ winnerOf a b = "tie" := by
  unfold winnerOf
  by_cases h1 : jsGt a b = true
  · simp [h1]
  · by_cases h2 : jsGt b a = true
    · simp [h1, h2]
    · simp [h1, h2]

/-- The winner of a round that `playRound` returns is one of the three tags. -/
theorem playRound_winner_cases (hmac : String → String → String) (fuel : Nat)
    (dice : List Dice) (pi ci u : Int) (src : Nat → Nat) (pos : Nat) (res : RoundResult)
    (p : Nat) (h : playRound hmac fuel dice pi ci u src pos = .returned (res, p)) :
    res.winner = "player" ∨ res.winner = "computer" ∨ res.winner = "tie" := by
  obtain ⟨pn, p2, cn, pd, cd, -, -, -, -, hres⟩ :=
    (playRound_returned_iff hmac fuel dice pi ci u src pos res p).mp h
  rw [hres]
  exact winnerOf_cases _ _

/-- An answer of the route on a stored game: either an error of the server with the row
unchanged, or a round returned by `playRound` with both rolls defined, accepted by the
database and stored with the row updated. -/
theorem playRoute_returned (hmac : String → String → String) (fuel : Nat)
    (insertAccepted updateAccepted : Bool) (game : GameRow)
    (req : PlayRequest) (src : Nat → Nat) (pos : Nat) (answer : PlayAnswer)
    (after : Option GameRow)
    (h : playRoute hmac fuel insertAccepted updateAccepted (some game) req src pos =
      .returned (answer, after)) :
    (answer = .serverError ∧ after = some game) ∨
    ∃ dice roundResult p a b,
      DiceConfigParser.parse (.array (serializeDice game.diceConfig)) = .ok dice ∧
      playRound hmac fuel dice req.playerDiceIndex req.computerDiceIndex req.userNumber
        src pos = .returned (roundResult, p) ∧
      roundResult.playerRoll = some a ∧ roundResult.computerRoll = some b ∧
      insertAccepted = true ∧ updateAccepted = true ∧
      answer = .played roundResult (jsAdd game.totalRounds 1)
        (jsAdd game.playerWins (if roundResult.winner = "player" then 1 else 0))
        (jsAdd game.computerWins (if roundResult.winner = "computer" then 1 else 0))
        (jsAdd game.totalRounds 1) ∧
      after = some { diceConfig := game.diceConfig,
                     playerWins := jsAdd game.playerWins
                       (if roundResult.winner = "player" then 1 else 0),
                     computerWins := jsAdd game.computerWins
                       (if roundResult.winner = "computer" then 1 else 0),
                     totalRounds := jsAdd game.totalRounds 1 } := by
  unfold playRoute at h
  simp only at h
  split at h
  · simp only [Outcome.returned.injEq, Prod.mk.injEq] at h
    exact Or.inl ⟨h.1.symm, h.2.symm⟩
  · rename_i dice hdice
    split at h
    · exact Outcome.noConfusion h
    · simp only [Outcome.returned.injEq, Prod.mk.injEq] at h
      exact Or.inl ⟨h.1.symm, h.2.symm⟩
    · rename_i roundResult p hround
      split at h
      · rename_i a b ha hb
        by_cases hins : insertAccepted = false
        · rw [if_pos hins] at h
          simp only [Outcome.returned.injEq, Prod.mk.injEq] at h
          exact Or.inl ⟨h.1.symm, h.2.symm⟩
        · rw [if_neg hins] at h
          by_cases hupd : updateAccepted = false
          · rw [if_pos hupd] at h
            simp only [Outcome.returned.injEq, Prod.mk.injEq] at h
            exact Or.inl ⟨h.1.symm, h.2.symm⟩
          · rw [if_neg hupd] at h
            simp only [Outcome.returned.injEq, Prod.mk.injEq] at h
            exact Or.inr ⟨dice, roundResult, p, a, b, hdice, hround, ha, hb,
              by simpa using hins, by simpa using hupd, h.1.symm, h.2.symm⟩
      · simp only [Outcome.returned.injEq, Prod.mk.injEq] at h
        exact Or.inl ⟨h.1.symm, h.2.symm⟩

/-- A counter held by an `INT` column is raised exactly. -/
theorem jsAdd_counter (v d : Int) (hv : fitsIntColumn v) (hd : d = 0 ∨ d = 1) :
    jsAdd v d = v + d := by
  obtain ⟨h1, h2⟩ := hv
  apply jsAdd_exact
  rcases hd with hd | hd <;> subst hd <;> omega

/-! ## Claims on the counters of the game -/

/-- C30: on a stored game whose counters are values of their `INT` columns, below the
largest one, every answer of the play route is either an error, which leaves the row of the game unchanged, or a
played round with two integer rolls; a played round raises `totalRounds` by exactly 1,
raises `playerWins` by 1 exactly when the winner is `player` and leaves it unchanged
otherwise, raises `computerWins` by 1 exactly when the winner is `computer` and leaves it
unchanged otherwise, raises neither on a `tie`, has a winner among the three tags, answers
with the counters it stored, and preserves `playerWins + computerWins ≤ totalRounds`; and
a round is played, for enough draws, as soon as the stored dice parse, the two indices
are in the set, the user number is in `0..5`, the database accepts the two statements and
the source keeps yielding bytes below 252. -/
theorem round_updates_counters (hmac : String → String → String) (game : GameRow)
    (req : PlayRequest) (src : Nat → Nat) (pos : Nat)
    (hcols : fitsIntColumn game.playerWins ∧ fitsIntColumn game.computerWins ∧
      fitsIntColumn game.totalRounds) :
    (∀ (fuel : Nat) (insertAccepted updateAccepted : Bool) (answer : PlayAnswer)
        (after : Option GameRow),
      playRoute hmac fuel insertAccepted updateAccepted (some game) req src pos =
        .returned (answer, after) →
      (answer = .serverError ∧ after = some game) ∨
      ∃ (roundResult : RoundResult) (row : GameRow),
        after = some row ∧
        answer = .played roundResult row.totalRounds row.playerWins row.computerWins
          row.totalRounds ∧
        (∃ a b : Int, roundResult.playerRoll = some a ∧ roundResult.computerRoll = some b) ∧
        row.diceConfig = game.diceConfig ∧
        row.totalRounds = game.totalRounds + 1 ∧
        (roundResult.winner = "player" ∨ roundResult.winner = "computer" ∨
          roundResult.winner = "tie") ∧
        (roundResult.winner = "player" → row.playerWins = game.playerWins + 1) ∧
        (roundResult.winner ≠ "player" → row.playerWins = game.playerWins) ∧
        (roundResult.winner = "computer" → row.computerWins = game.computerWins + 1) ∧
        (roundResult.winner ≠ "computer" → row.computerWins = game.computerWins) ∧
        (roundResult.winner = "tie" →
          row.playerWins = game.playerWins ∧ row.computerWins = game.computerWins) ∧
        (game.playerWins + game.computerWins ≤ game.totalRounds →
          row.playerWins + row.computerWins ≤ row.totalRounds)) ∧
    (∀ (dice : List Dice) (pd cd : Dice),
      DiceConfigParser.parse (.array (serializeDice game.diceConfig)) = .ok dice →
      jsIndex dice req.playerDiceIndex = some pd →
      jsIndex dice req.computerDiceIndex = some cd →
      (0 ≤ req.userNumber ∧ req.userNumber ≤ 5) →
      (∀ q, ∃ k, src (q + k) % 256 < 252) →
      ∃ (fuel : Nat) (roundResult : RoundResult) (row : GameRow),
        playRoute hmac fuel true true (some game) req src pos =
          .returned (.played roundResult row.totalRounds row.playerWins row.computerWins
            row.totalRounds, some row) ∧
        row.totalRounds = game.totalRounds + 1) := by
  obtain ⟨hpw, hcw, htr⟩ := hcols
  have etr : jsAdd game.totalRounds 1 = game.totalRounds + 1 :=
    jsAdd_counter _ 1 htr (Or.inr rfl)
  constructor
  · intro fuel insertAccepted updateAccepted answer after h
    rcases playRoute_returned hmac fuel insertAccepted updateAccepted game req src pos answer
        after h with
      herr | ⟨dice, roundResult, p, a, b, -, hround, ha, hb, -, -, hanswer, hafter⟩
    · exact Or.inl herr
    · right
      have hw := playRound_winner_cases hmac fuel dice _ _ _ src pos roundResult p hround
      have epw : jsAdd game.playerWins (if roundResult.winner = "player" then 1 else 0) =
          game.playerWins + (if roundResult.winner = "player" then 1 else 0) :=
        jsAdd_counter _ _ hpw (by split <;> simp)
      have ecw : jsAdd game.computerWins (if roundResult.winner = "computer" then 1 else 0) =
          game.computerWins + (if roundResult.winner = "computer" then 1 else 0) :=
        jsAdd_counter _ _ hcw (by split <;> simp)
      rw [etr, epw, ecw] at hanswer hafter
      refine ⟨roundResult, _, hafter, hanswer, ⟨a, b, ha, hb⟩, rfl, rfl, hw,
        ?_, ?_, ?_, ?_, ?_, ?_⟩
      · intro hp; simp only [hp, if_true]
      · intro hp; simp only [hp, if_false, add_zero]
      · intro hc; simp only [hc, if_true]
      · intro hc; simp only [hc, if_false, add_zero]
      · intro ht
        have h1 : roundResult.winner ≠ "player" := by rw [ht]; decide
        have h2 : roundResult.winner ≠ "computer" := by rw [ht]; decide
        simp only [h1, h2, if_false, add_zero, and_self]
      · intro hinv
        simp only
        rcases hw with hp | hc | ht
        · have h2 : roundResult.winner ≠ "computer" := by rw [hp]; decide
          rw [if_pos hp, if_neg h2]
          omega
        · have h1 : roundResult.winner ≠ "player" := by rw [hc]; decide
          rw [if_neg h1, if_pos hc]
          omega
        · have h1 : roundResult.winner ≠ "player" := by rw [ht]; decide
          have h2 : roundResult.winner ≠ "computer" := by rw [ht]; decide
          rw [if_neg h1, if_neg h2]
          omega
  · intro dice pd cd hdice hpd hcd hu hsrc
    obtain ⟨fuel, res, p, hround⟩ := playRound_returns hmac dice req.playerDiceIndex
      req.computerDiceIndex req.userNumber pd cd hpd hcd src hsrc pos
    obtain ⟨pn, p2, cn, pd2, cd2, hg1, hg2, hpd2, hcd2, hres⟩ :=
      (playRound_returned_iff hmac fuel dice _ _ _ src pos res p).mp hround
    have hpn := generateSecureNumber_zero_five_bounds src fuel _ pn p2 hg1
    have hcn := generateSecureNumber_zero_five_bounds src fuel _ cn p hg2
    have h6 := parse_faces_length _ dice hdice
    obtain ⟨-, -, -, a, -, ha⟩ :=
      roll_six_faces pd2 (h6 pd2 (jsIndex_mem _ _ _ hpd2)) req.userNumber pn (by omega)
        (by omega)
    obtain ⟨-, -, -, b, -, hb⟩ :=
      roll_six_faces cd2 (h6 cd2 (jsIndex_mem _ _ _ hcd2)) 0 cn (by omega) (by omega)
    have hra : res.playerRoll = some a := by subst hres; exact ha
    have hrb : res.computerRoll = some b := by subst hres; exact hb
    refine ⟨fuel, res, ⟨game.diceConfig,
      jsAdd game.playerWins (if res.winner = "player" then 1 else 0),
      jsAdd game.computerWins (if res.winner = "computer" then 1 else 0),
      jsAdd game.totalRounds 1⟩, ?_, etr⟩
    simp only [playRoute, hdice, hround, hra, hrb, Bool.true_eq_false, if_false]

/-- C30, an instance: a round of the example game, the first die against the second on a
source of zero bytes with the user number 3, is won by the computer and counted; with the
user number -1 the roll of the player is `undefined`, the answer is an error and the row
is unchanged. -/
theorem round_updates_counters_witness :
    (∃ roundResult : RoundResult, roundResult.winner = "computer" ∧
      playRoute (fun key message => key ++ message) 1 true true
          (some { diceConfig := exampleDice, playerWins := 0, computerWins := 0,
                  totalRounds := 0 })
          { playerDiceIndex := 0, computerDiceIndex := 1, userNumber := 3 } (fun _ => 0) 0 =
        .returned (.played roundResult 1 0 1 1,
          some { diceConfig := exampleDice, playerWins := 0, computerWins := 1,
                 totalRounds := 1 })) ∧
    playRoute (fun key message => key ++ message) 1 true true
        (some { diceConfig := exampleDice, playerWins := 0, computerWins := 0,
                totalRounds := 0 })
        { playerDiceIndex := 0, computerDiceIndex := 1, userNumber := -1 } (fun _ => 0) 0 =
      .returned (.serverError,
        some { diceConfig := exampleDice, playerWins := 0, computerWins := 0,
               totalRounds := 0 }) ∧
    ∃ (fuel : Nat) (roundResult : RoundResult) (row : GameRow),
      playRoute (fun key message => key ++ message) fuel true true
          (some { diceConfig := exampleDice, playerWins := 0, computerWins := 0,
                  totalRounds := 0 })
          { playerDiceIndex := 0, computerDiceIndex := 1, userNumber := 3 } (fun _ => 0) 0 =
        .returned (.played roundResult row.totalRounds row.playerWins row.computerWins
          row.totalRounds, some row) ∧
      row.totalRounds = 0 + 1 :=
  ⟨⟨roundResultOf (fun key message => key ++ message)
      ⟨[2, 2, 4, 4, 9, 9], "Dice 1"⟩ ⟨[6, 8, 1, 1, 8, 6], "Dice 2"⟩ 3
      (toHex (randomBytes (fun _ => 0) 0 32)) 0 (toHex (randomBytes (fun _ => 0) 33 32)) 0,
      by decide, by rfl⟩,
    by rfl,
    (round_updates_counters (fun key message => key ++ message)
      { diceConfig := exampleDice, playerWins := 0, computerWins := 0, totalRounds := 0 }
      { playerDiceIndex := 0, computerDiceIndex := 1, userNumber := 3 } (fun _ => 0) 0
      ⟨⟨by decide, by decide⟩, ⟨by decide, by decide⟩, ⟨by decide, by decide⟩⟩).2
      exampleDice ⟨[2, 2, 4, 4, 9, 9], "Dice 1"⟩ ⟨[6, 8, 1, 1, 8, 6], "Dice 2"⟩
      (by decide) (by decide) (by decide) ⟨by decide, by decide⟩
      (fun q => ⟨0, by decide⟩)⟩

end DiceGame
